import Mathlib

/-! c-image-processing: PPM codec and block-mosaic engine

A shallow embedding of `Assignment/PPM_read_write.h` and `Assignment/mosaic.c`.

* `unsigned int` values are natural numbers below `2^32`; every arithmetic
  operation of the source on them is followed by an explicit reduction
  (`u32`, `usub`).
* `int` values are integers; conversions and `int` arithmetic go through
  `toI32` (two's complement).  Signed overflow is undefined in C; the
  embedding takes the wrap-around that the usual targets produce.
* `unsigned char` buffers are lists of natural numbers below `256`; a store
  converts with `toU8`.
* `exit(1)` is the result `none` of the transform.
-/

namespace Mosaic

/-! ## Machine integers -/

/-- Reduction of a natural number to `unsigned int`. -/
def u32 (n : Nat) : Nat := n % 4294967296

/-- Subtraction `a - b` of two `unsigned int` values. -/
def usub (a b : Nat) : Nat := (a + 4294967296 - b % 4294967296) % 4294967296

/-- Conversion of an integer to `unsigned int`. -/
def toU32 (z : Int) : Nat := (z % 4294967296).toNat

/-- Conversion of an integer to `int` (two's complement). -/
def toI32 (z : Int) : Int := (z + 2147483648) % 4294967296 - 2147483648

/-- Conversion of an integer to `unsigned char`. -/
def toU8 (z : Int) : Nat := (z % 256).toNat

/-! ## Data model (`PPM_read_write.h`, lines 6-33) -/

/-- The constant `RGB_SIZE`. -/
def RGB_SIZE : Int := 3

/-- The constant `MAX_LINE`. -/
def MAX_LINE : Nat := 100

/-- The enumeration `MODE`. -/
inductive MODE where
  | CPU
  | OPENMP
  | CUDA
  | ALL
deriving DecidableEq, Repr

/-- The enumeration `OUTPUT_FORMAT`; the codes are `PPM_BINARY = 6` and `PPM_PLAIN_TEXT = 3`. -/
inductive OUTPUT_FORMAT where
  | PPM_BINARY
  | PPM_PLAIN_TEXT
deriving DecidableEq, Repr

/-- The numeric value of an `OUTPUT_FORMAT` constant. -/
def OUTPUT_FORMAT.code : OUTPUT_FORMAT → Nat
  | .PPM_BINARY => 6
  | .PPM_PLAIN_TEXT => 3

/-- The struct `PPM`.  The two buffers are the memory the pointers refer to. -/
structure PPM where
  tag : Nat
  width : Nat
  height : Nat
  maxColor : Nat
  pixels_count : Nat
  size : Nat
  pixels : List Nat
  outputPixels : List Nat
deriving DecidableEq, Repr

/-- Read of `buf[i]` for an `int` index, as an `int`. -/
def rd (buf : List Nat) (i : Int) : Int :=
  if i < 0 then 0 else (buf.getD i.toNat 0 : Nat)

/-- Store `buf[i] = v` of an `int` value into an `unsigned char` cell. -/
def wr (buf : List Nat) (i : Int) (v : Int) : List Nat :=
  if i < 0 then buf else buf.set i.toNat (toU8 v)

/-- A counted loop `for (k = 0; k < n; k++) body`. -/
def forLoop {σ : Type} (n : Nat) (body : Nat → σ → σ) (init : σ) : σ :=
  (List.range n).foldl (fun s k => body k s) init

/-! ## The mosaic engine (`mosaic.c`) -/

/-- `checkBlockSize` (lines 128-143): `some msg` when the function calls `exit(1)` after
printing `msg`, `none` when it returns. -/
def checkBlockSize (block_size : Nat) (ppm : PPM) : Option String :=
  if block_size > ppm.width && block_size > ppm.height then
    some "Error: Specified block size is greater than the width/height \n"
  else if block_size > ppm.width then
    some "Error: Specified block size is greater than the width \n"
  else if block_size > ppm.width then
    some "Error: Specified block size is greater than the height \n"
  else none

/-- Lines 181-185 and 187-191: the number of blocks along one dimension. -/
def blocks (dim block_size : Nat) : Nat :=
  if dim % block_size ≠ 0 then u32 (dim / block_size + 1) else dim / block_size

/-- Lines 197-206: the side of block number `b` along a dimension of length `dim`. -/
def dynamicBlock (dim block_size b : Nat) : Nat :=
  if u32 (b * block_size + block_size) > dim then usub dim (u32 (b * block_size))
  else block_size

/-- Lines 213 and 242: `int i = height_block * block_size * width + width_block * block_size
+ block_w + width * block_h`, computed in `unsigned int` and converted to `int`. -/
def pixelIndex (block_size width height_block width_block block_h block_w : Nat) : Int :=
  toI32 (u32 (height_block * block_size * width + width_block * block_size + block_w
    + width * block_h))

/-- The `int` subscript `i * RGB_SIZE + c`. -/
def byteIndex (i : Int) (c : Int) : Int :=
  if c = 0 then toI32 (i * RGB_SIZE) else toI32 (toI32 (i * RGB_SIZE) + c)

/-- Lines 230 and 329: `int average_dynamic_size = dynamic_block_width *
dynamic_block_height`, the product taken in `unsigned int`. -/
def averageDynamicSize (dynamic_block_width dynamic_block_height : Nat) : Int :=
  toI32 (u32 (dynamic_block_width * dynamic_block_height))

/-- The accumulators of the first inner loop of `CPU_mosaic`: the `int` block sums and the
`unsigned int` image sums. -/
structure CpuSums where
  localSumR : Int
  localSumG : Int
  localSumB : Int
  globalSumR : Nat
  globalSumG : Nat
  globalSumB : Nat
deriving DecidableEq, Repr

/-- Lines 210-228: the body of the summing loop of `CPU_mosaic`. -/
def cpuSumBody (pixels : List Nat) (block_size width height_block width_block : Nat)
    (block_h block_w : Nat) (s : CpuSums) : CpuSums :=
  let i := pixelIndex block_size width height_block width_block block_h block_w
  let r := rd pixels (byteIndex i 0)
  let g := rd pixels (byteIndex i 1)
  let b := rd pixels (byteIndex i 2)
  { localSumR := toI32 (s.localSumR + r)
    localSumG := toI32 (s.localSumG + g)
    localSumB := toI32 (s.localSumB + b)
    globalSumR := toU32 (s.globalSumR + r)
    globalSumG := toU32 (s.globalSumG + g)
    globalSumB := toU32 (s.globalSumB + b) }

/-- Lines 239-247 and 351-359: the loop storing the three channel values `vR`, `vG`, `vB` in
every pixel of the block. -/
def storeBlock (buf : List Nat) (block_size width height_block width_block : Nat)
    (dynamic_block_width dynamic_block_height : Nat) (vR vG vB : Int) : List Nat :=
  forLoop dynamic_block_height (fun block_h buf =>
    forLoop dynamic_block_width (fun block_w buf =>
      let i := pixelIndex block_size width height_block width_block block_h block_w
      wr (wr (wr buf (byteIndex i 0) vR) (byteIndex i 1) vG) (byteIndex i 2) vB) buf) buf

/-- The state of the block loop of `CPU_mosaic`: the struct and the three image sums. -/
structure CpuState where
  ppm : PPM
  globalSumR : Nat
  globalSumG : Nat
  globalSumB : Nat
deriving DecidableEq, Repr

/-- Lines 196-248: the body of the block loop of `CPU_mosaic`.  The pointer chosen at lines
232-236 from the execution mode is not used by the stores of lines 244-246, which go to
`ppm->pixels`. -/
def cpuBlock (execution_mode : MODE) (block_size : Nat) (height_block width_block : Nat)
    (st : CpuState) : CpuState :=
  let ppm := st.ppm
  let dynamic_block_width := dynamicBlock ppm.width block_size width_block
  let dynamic_block_height := dynamicBlock ppm.height block_size height_block
  let s := forLoop dynamic_block_height (fun block_h s =>
    forLoop dynamic_block_width (fun block_w s =>
      cpuSumBody ppm.pixels block_size ppm.width height_block width_block block_h block_w s) s)
    { localSumR := 0, localSumG := 0, localSumB := 0
      globalSumR := st.globalSumR, globalSumG := st.globalSumG, globalSumB := st.globalSumB }
  let average_dynamic_size := averageDynamicSize dynamic_block_width dynamic_block_height
  let _pixels := if execution_mode = MODE.ALL then ppm.outputPixels else ppm.pixels
  let stored := storeBlock ppm.pixels block_size ppm.width height_block width_block
    dynamic_block_width dynamic_block_height (Int.tdiv s.localSumR average_dynamic_size)
    (Int.tdiv s.localSumG average_dynamic_size) (Int.tdiv s.localSumB average_dynamic_size)
  { ppm := { ppm with pixels := stored }
    globalSumR := s.globalSumR
    globalSumG := s.globalSumG
    globalSumB := s.globalSumB }

/-- The outcome of a completed `CPU_mosaic`: the struct and the three values printed at
line 250. -/
structure CpuResult where
  ppm : PPM
  averageR : Nat
  averageG : Nat
  averageB : Nat
deriving DecidableEq, Repr

/-- `CPU_mosaic` (lines 165-259); `none` when `checkBlockSize` exits.  `execution_mode` and
`block_size` are the globals of `mosaic.c`. -/
def CPU_mosaic (execution_mode : MODE) (block_size : Nat) (ppm : PPM) : Option CpuResult :=
  match checkBlockSize block_size ppm with
  | some _ => none
  | none =>
    let width_blocks := blocks ppm.width block_size
    let height_blocks := blocks ppm.height block_size
    let st := forLoop height_blocks (fun height_block st =>
      forLoop width_blocks (fun width_block st =>
        cpuBlock execution_mode block_size height_block width_block st) st)
      { ppm := ppm, globalSumR := 0, globalSumG := 0, globalSumB := 0 }
    some { ppm := st.ppm
           averageR := st.globalSumR / st.ppm.pixels_count
           averageG := st.globalSumG / st.ppm.pixels_count
           averageB := st.globalSumB / st.ppm.pixels_count }

/-- The `int` block sums of `OPENMP_mosaic`. -/
structure LocalSums where
  localSumR : Int
  localSumG : Int
  localSumB : Int
deriving DecidableEq, Repr

/-- Lines 314-327: the body of the summing loop of `OPENMP_mosaic`. -/
def ompSumBody (pixels : List Nat) (block_size width height_block width_block : Nat)
    (block_h block_w : Nat) (s : LocalSums) : LocalSums :=
  let i := pixelIndex block_size width height_block width_block block_h block_w
  let r := rd pixels (byteIndex i 0)
  let g := rd pixels (byteIndex i 1)
  let b := rd pixels (byteIndex i 2)
  { localSumR := toI32 (s.localSumR + r)
    localSumG := toI32 (s.localSumG + g)
    localSumB := toI32 (s.localSumB + b) }

/-- Lines 300-361: the body of the block loop of `OPENMP_mosaic`.  The stores go to
`ppm->outputPixels` in mode `ALL` and to `ppm->pixels` otherwise; the `float` image sums
of lines 335-343 do not reach the buffers and are left out. -/
def ompBlock (execution_mode : MODE) (block_size : Nat) (height_block width_block : Nat)
    (ppm : PPM) : PPM :=
  let dynamic_block_width := dynamicBlock ppm.width block_size width_block
  let dynamic_block_height := dynamicBlock ppm.height block_size height_block
  let s := forLoop dynamic_block_height (fun block_h s =>
    forLoop dynamic_block_width (fun block_w s =>
      ompSumBody ppm.pixels block_size ppm.width height_block width_block block_h block_w s) s)
    { localSumR := 0, localSumG := 0, localSumB := 0 }
  let average_dynamic_size := averageDynamicSize dynamic_block_width dynamic_block_height
  let average_red := Int.tdiv s.localSumR average_dynamic_size
  let average_green := Int.tdiv s.localSumG average_dynamic_size
  let average_blue := Int.tdiv s.localSumB average_dynamic_size
  if execution_mode = MODE.ALL then
    { ppm with outputPixels := (storeBlock ppm.outputPixels block_size ppm.width height_block
        width_block dynamic_block_width dynamic_block_height average_red average_green
        average_blue) }
  else
    { ppm with pixels := (storeBlock ppm.pixels block_size ppm.width height_block
        width_block dynamic_block_width dynamic_block_height average_red average_green
        average_blue) }

/-- `OPENMP_mosaic` (lines 267-374); `none` when `checkBlockSize` exits.  The iterations of
the `parallel for` over `height_block` are run one after the other in the order given by
`schedule`, which lists the values `0 .. height_blocks - 1` in the order the threads take
them. -/
def OPENMP_mosaic (execution_mode : MODE) (block_size : Nat) (schedule : List Nat)
    (ppm : PPM) : Option PPM :=
  match checkBlockSize block_size ppm with
  | some _ => none
  | none =>
    let width_blocks := blocks ppm.width block_size
    some (schedule.foldl (fun ppm height_block =>
      forLoop width_blocks (fun width_block ppm =>
        ompBlock execution_mode block_size height_block width_block ppm) ppm) ppm)

/-! ## The codec (`PPM_read_write.h`) -/

/-- The bytes of a string literal. -/
def bytes (s : String) : List Nat := s.toList.map Char.toNat

/-- `isspace` in the C locale. -/
def isSpace (c : Nat) : Bool := c == 32 || (9 ≤ c && c ≤ 13)

/-- `isdigit`. -/
def isDigit (c : Nat) : Bool := 48 ≤ c && c ≤ 57

/-- The characters of `_delim`, `" \t\n"`. -/
def isDelim (c : Nat) : Bool := c == 32 || c == 9 || c == 10

/-- The number read from the leading decimal digits of `s`, continuing from `acc`, and the
input left after them. -/
def scanDigits : List Nat → Nat → Nat × List Nat
  | [], acc => (acc, [])
  | c :: cs, acc => if isDigit c then scanDigits cs (acc * 10 + (c - 48)) else (acc, c :: cs)

/-- The value `strtol` gives a decimal numeral of value `z`: `z` itself when a `long`
(64 bits) holds it, else `LONG_MAX` or `LONG_MIN`. -/
def clampLong (z : Int) : Int :=
  if 9223372036854775807 < z then 9223372036854775807
  else if z < -9223372036854775808 then -9223372036854775808
  else z

/-- `atoi`, which is `(int) strtol(s, NULL, 10)`: white space, an optional sign, then
decimal digits; what follows the digits is ignored and a string without digits gives 0.
The result is kept as the `long` that `strtol` returns, saturated at the ends of its range;
the conversion to the 32-bit field, which keeps the low 32 bits, is done by the caller. -/
def atoi (s : List Nat) : Int :=
  match s.dropWhile isSpace with
  | [] => 0
  | c :: cs =>
    if c = 45 then clampLong (- ((scanDigits cs 0).1 : Int))
    else if c = 43 then clampLong ((scanDigits cs 0).1 : Int)
    else clampLong ((scanDigits (c :: cs) 0).1 : Int)

/-- The outcome of `fscanf(f, " %d", &c)`: end of input before any item (`EOF`, -1), a
matching failure (0), or a value and the input left after it (1). -/
inductive ScanResult where
  | eof
  | noMatch
  | value (v : Int) (rest : List Nat)
deriving DecidableEq, Repr

/-- The decimal item at the head of `s`, if `s` starts with a digit. -/
def scanNumber (s : List Nat) : Option (Nat × List Nat) :=
  match s with
  | [] => none
  | c :: _ => if isDigit c then some (scanDigits s 0) else none

/-- `fscanf(f, " %d", &c)` on the input `f`.  The conversion of `%d` goes through `strtol`:
the value is kept as that `long`, saturated at the ends of its range, and the store into the
`int` `c`, which keeps the low 32 bits, is done by the caller. -/
def fscanf_d (f : List Nat) : ScanResult :=
  match f.dropWhile isSpace with
  | [] => ScanResult.eof
  | c :: cs =>
    if c = 45 then
      match scanNumber cs with
      | some r => ScanResult.value (clampLong (- (r.1 : Int))) r.2
      | none => ScanResult.noMatch
    else if c = 43 then
      match scanNumber cs with
      | some r => ScanResult.value (clampLong (r.1 : Int)) r.2
      | none => ScanResult.noMatch
    else
      match scanNumber (c :: cs) with
      | some r => ScanResult.value (clampLong (r.1 : Int)) r.2
      | none => ScanResult.noMatch

/-- `fread(buf, 1, n, f)`: the number of bytes transferred and the buffer after it. -/
def fread (buf : List Nat) (n : Nat) (f : List Nat) : Nat × List Nat :=
  ((f.take n).length, f.take n ++ buf.drop (f.take n).length)

/-- Lines 48-60: the loop of `readPixels`, with `remaining = size - i` iterations to go.
`c` is 0 when `fscanf` stores nothing; `EOF` is -1, so `!fscanf(...)` is false at the end of
the input. -/
def readPixelsLoop (maxColor : Nat) : Nat → Nat → List Nat → List Nat → Nat × List Nat
  | 0, i, pixels, _ => (i, pixels)
  | remaining + 1, i, pixels, f =>
    match fscanf_d f with
    | ScanResult.noMatch => (i, pixels)
    | ScanResult.eof =>
      if 0 > maxColor then (i, pixels)
      else readPixelsLoop maxColor remaining (i + 1) (pixels.set i (toU8 0)) f
    | ScanResult.value v rest =>
      if toU32 v > maxColor then (i, pixels)
      else readPixelsLoop maxColor remaining (i + 1) (pixels.set i (toU8 (toU32 v))) rest

/-- `readPixels` (lines 42-61): the returned count and the struct with its buffer filled. -/
def readPixels (ppm : PPM) (f : List Nat) : Nat × PPM :=
  if ppm.tag = OUTPUT_FORMAT.PPM_BINARY.code then
    ((fread ppm.pixels ppm.size f).1, { ppm with pixels := (fread ppm.pixels ppm.size f).2 })
  else
    ((readPixelsLoop ppm.maxColor ppm.size 0 ppm.pixels f).1,
      { ppm with pixels := (readPixelsLoop ppm.maxColor ppm.size 0 ppm.pixels f).2 })

/-- The enumeration `READING_PARAMS`, with the value 0 (`FAILURE`) that `readPPM` assigns to
its state variable. -/
inductive READING_PARAMS where
  | FAILURE
  | TAG
  | WIDTH
  | HEIGHT
  | MAX_COLOR
  | PIXELS
deriving DecidableEq, Repr

/-- The `return` statement by which `readPPM` ends. -/
inductive ReadExit where
  /-- Line 81, `return FAILURE`: the file cannot be opened. -/
  | cannotOpen
  /-- Line 95, `return FAILURE`: a comment line does not fit the line buffer. -/
  | commentTooLong
  /-- Line 138, `return processed_pixels == ppm->size`. -/
  | pixelsRead (processed_pixels : Nat)
  /-- Line 149, `return SUCCESS`, after the `while` loop. -/
  | loopEnd
deriving DecidableEq, Repr

/-- The outcome of `readPPM`: the `return` reached and the struct it leaves. -/
structure ReadResult where
  exit : ReadExit
  ppm : PPM
deriving DecidableEq, Repr

/-- The value returned by `readPPM` (`FAILURE` is `false`, `SUCCESS` is `true`). -/
def ReadResult.value (r : ReadResult) : Bool :=
  match r.exit with
  | ReadExit.cannotOpen => false
  | ReadExit.commentTooLong => false
  | ReadExit.pixelsRead processed_pixels => processed_pixels == r.ppm.size
  | ReadExit.loopEnd => true

/-- The characters `fgets` stores when at most `k` more fit, and the input left. -/
def fgetsAux : Nat → List Nat → List Nat × List Nat
  | 0, f => ([], f)
  | _ + 1, [] => ([], [])
  | k + 1, c :: f =>
    if c = 10 then ([c], f) else (c :: (fgetsAux k f).1, (fgetsAux k f).2)

/-- `fgets(line, n, f)`: `none` at the end of the input, else the characters stored (at most
`n - 1`, up to and including a newline) and the input left. -/
def fgets (n : Nat) (f : List Nat) : Option (List Nat × List Nat) :=
  match f with
  | [] => none
  | _ :: _ => some (fgetsAux (n - 1) f)

/-- The C string held by a buffer: its bytes up to the first NUL. -/
def cstr (buf : List Nat) : List Nat := buf.takeWhile (fun c => c != 0)

/-- The tokens of a line, `cur` being the token under construction in reverse. -/
def tokensAux : List Nat → List Nat → List (List Nat)
  | [], cur => if cur = [] then [] else [cur.reverse]
  | c :: cs, cur =>
    if isDelim c then
      if cur = [] then tokensAux cs [] else cur.reverse :: tokensAux cs []
    else tokensAux cs (c :: cur)

/-- The successive results of `strtok(line, _delim)`, `strtok(NULL, _delim)`, ... -/
def strtok (line : List Nat) : List (List Nat) := tokensAux line []

/-- Lines 131-138, `case PIXELS`: the sizes, the zeroed buffer, the pixel read and the
`return`. -/
def readBody (ppm : PPM) (f : List Nat) : ReadResult :=
  let ppm1 := { ppm with pixels_count := u32 (ppm.width * ppm.height) }
  let ppm2 := { ppm1 with size := u32 (u32 (ppm1.width * ppm1.height) * 3) }
  let ppm3 := { ppm2 with pixels := List.replicate ppm2.size 0 }
  { exit := ReadExit.pixelsRead (readPixels ppm3 f).1, ppm := (readPixels ppm3 f).2 }

/-- Lines 102-143: the loop over the tokens of one line; `f` is the input after the line.
The result is either the state in which the loop is left or the outcome of the `return` of
`case PIXELS`. -/
def tokenLoop (f : List Nat) : READING_PARAMS → PPM → List (List Nat) →
    (READING_PARAMS × PPM) ⊕ ReadResult
  | reading_params, ppm, [] => Sum.inl (reading_params, ppm)
  | READING_PARAMS.FAILURE, ppm, _ :: _ => Sum.inl (READING_PARAMS.FAILURE, ppm)
  | READING_PARAMS.TAG, ppm, token :: rest =>
    let ppm1 := if token = bytes "P6" then { ppm with tag := OUTPUT_FORMAT.PPM_BINARY.code }
      else ppm
    let ppm2 := if token = bytes "P3" then
      { ppm1 with tag := OUTPUT_FORMAT.PPM_PLAIN_TEXT.code } else ppm1
    tokenLoop f (if ppm2.tag ≠ 0 then READING_PARAMS.WIDTH else READING_PARAMS.FAILURE)
      ppm2 rest
  | READING_PARAMS.WIDTH, ppm, token :: rest =>
    let ppm1 := { ppm with width := toU32 (atoi token) }
    tokenLoop f (if ppm1.width ≠ 0 then READING_PARAMS.HEIGHT else READING_PARAMS.FAILURE)
      ppm1 rest
  | READING_PARAMS.HEIGHT, ppm, token :: rest =>
    let ppm1 := { ppm with height := toU32 (atoi token) }
    tokenLoop f (if ppm1.height ≠ 0 then READING_PARAMS.MAX_COLOR else READING_PARAMS.FAILURE)
      ppm1 rest
  | READING_PARAMS.MAX_COLOR, ppm, token :: rest =>
    let ppm1 := { ppm with maxColor := toU32 (atoi token) }
    if ppm1.maxColor ≠ 0 then Sum.inr (readBody ppm1 f)
    else tokenLoop f READING_PARAMS.FAILURE ppm1 rest
  | READING_PARAMS.PIXELS, ppm, _ :: _ => Sum.inr (readBody ppm f)

/-- Lines 87-149: the `while` loop over the lines and the final `return SUCCESS`.  `fuel`
bounds the number of lines read; `none` means that it ran out. -/
def readLines : Nat → READING_PARAMS → PPM → List Nat → Option ReadResult
  | 0, _, _, _ => none
  | fuel + 1, reading_params, ppm, f =>
    if reading_params = READING_PARAMS.FAILURE then
      some { exit := ReadExit.loopEnd, ppm := ppm }
    else
      match fgets MAX_LINE f with
      | none => some { exit := ReadExit.loopEnd, ppm := ppm }
      | some (buf, f') =>
        if (cstr buf).head? = some 35 then
          if 10 ∈ cstr buf then readLines fuel reading_params ppm f'
          else some { exit := ReadExit.commentTooLong, ppm := ppm }
        else
          match tokenLoop f' reading_params ppm (strtok (cstr buf)) with
          | Sum.inl (reading_params', ppm') => readLines fuel reading_params' ppm' f'
          | Sum.inr result => some result

/-- `readPPM` (lines 70-150) on a struct `ppm` with arbitrary contents (it comes from
`malloc`) and the contents of the file, `none` when it cannot be opened.  Every pass of the
loop consumes input, so `length + 1` passes are enough (`readPPM_returns`). -/
def readPPM (file : Option (List Nat)) (ppm : PPM) : Option ReadResult :=
  match file with
  | none => some { exit := ReadExit.cannotOpen, ppm := ppm }
  | some f => readLines (f.length + 1) READING_PARAMS.TAG ppm f

/-- The decimal digits of `n`, most significant first; `fuel` bounds their number. -/
def decimalFuel : Nat → Nat → List Nat
  | 0, _ => []
  | fuel + 1, n => if n < 10 then [48 + n] else decimalFuel fuel (n / 10) ++ [48 + n % 10]

/-- The decimal representation of a natural number. -/
def decimal (n : Nat) : List Nat := decimalFuel (n + 1) n

/-- The characters `fprintf` writes for `%d`. -/
def printInt (z : Int) : List Nat :=
  if z < 0 then 45 :: decimal (-z).toNat else decimal z.toNat

/-- Lines 168-170: the three `fprintf(f, "%d ", pixels[i++])` calls of one pixel; the state
is the `int` counter `i` and the output so far. -/
def writeStep (pixels : List Nat) (s : Int × List Nat) : Int × List Nat :=
  let s1 : Int × List Nat := (toI32 (s.1 + 1), s.2 ++ printInt (rd pixels s.1) ++ [32])
  let s2 : Int × List Nat := (toI32 (s1.1 + 1), s1.2 ++ printInt (rd pixels s1.1) ++ [32])
  (toI32 (s2.1 + 1), s2.2 ++ printInt (rd pixels s2.1) ++ [32])

/-- `writePixels` (lines 161-176): the returned count and the bytes written. -/
def writePixels (ppm : PPM) (pixels : List Nat) (output_format : OUTPUT_FORMAT) :
    Nat × List Nat :=
  if output_format = OUTPUT_FORMAT.PPM_PLAIN_TEXT then
    let r := forLoop (u32 (ppm.height * ppm.width)) (fun _ s => writeStep pixels s)
      ((0 : Int), ([] : List Nat))
    (toU32 r.1, r.2)
  else ((pixels.take ppm.size).length, pixels.take ppm.size)

/-- Lines 198-201: the four `fprintf` calls of the header; an `unsigned int` printed with
`%d` is read as an `int`. -/
def writeHeader (ppm : PPM) (output_format : OUTPUT_FORMAT) : List Nat :=
  [80] ++ printInt output_format.code ++ [10]
    ++ printInt (toI32 ppm.width) ++ [10]
    ++ printInt (toI32 ppm.height) ++ [10]
    ++ printInt (toI32 ppm.maxColor) ++ [10]

/-- `writeToFile` (lines 187-208): the returned value and the contents of the file, `none`
when it cannot be opened (`opens = false`). -/
def writeToFile (opens : Bool) (ppm : PPM) (output_format : OUTPUT_FORMAT)
    (execution_mode : MODE) : Bool × Option (List Nat) :=
  if opens then
    let r := if execution_mode = MODE.ALL then writePixels ppm ppm.outputPixels output_format
      else writePixels ppm ppm.pixels output_format
    (r.1 == ppm.size, some (writeHeader ppm output_format ++ r.2))
  else (false, none)

/-! ## Example images -/

/-- The image of the worked example: one `2×2` block. -/
def example2x2 : PPM :=
  { tag := 6, width := 2, height := 2, maxColor := 255, pixels_count := 4, size := 12
    pixels := [10, 20, 30, 12, 22, 32, 14, 24, 34, 16, 26, 36]
    outputPixels := [] }

/-! ## Well-formed images, and the specification of the tile grid and of the tile mean -/

/-- An image the engine can address: positive dimensions, a buffer of `3 * width * height`
samples below `256`, and a byte count that an `int` subscript can hold. -/
def WellFormed (ppm : PPM) : Prop :=
  0 < ppm.width ∧ 0 < ppm.height ∧ 3 * ppm.width * ppm.height < 2147483648 ∧
  ppm.pixels.length = 3 * ppm.width * ppm.height ∧ ∀ b ∈ ppm.pixels, b < 256

instance (ppm : PPM) : Decidable (WellFormed ppm) := by
  unfold WellFormed; infer_instance

/-- The effective side of tile number `k` along a dimension of length `dim`: the tile size,
clipped to what is left of the image. -/
def effectiveSide (dim tileSize k : Nat) : Nat := min tileSize (dim - k * tileSize)

/-- The sum of channel `c` over the original pixels of tile `(tileRow, tileCol)`. -/
def tileChannelSum (pixels : List Nat) (width height tileSize tileRow tileCol c : Nat) : Nat :=
  ∑ bh in Finset.range (effectiveSide height tileSize tileRow),
    ∑ bw in Finset.range (effectiveSide width tileSize tileCol),
      pixels.getD (3 * ((tileRow * tileSize + bh) * width + (tileCol * tileSize + bw)) + c) 0

/-- The integer-truncated mean of channel `c` over tile `(tileRow, tileCol)`, the divisor
being the clipped tile area. -/
def tileMean (pixels : List Nat) (width height tileSize tileRow tileCol c : Nat) : Nat :=
  tileChannelSum pixels width height tileSize tileRow tileCol c /
    (effectiveSide width tileSize tileCol * effectiveSide height tileSize tileRow)

/-! ## Notions used in the proofs -/

/-- The pixel number of cell `(bh, bw)` of block `(hb, wb)`. -/
def cellIndex (t w hb wb bh bw : Nat) : Nat := (hb * t + bh) * w + (wb * t + bw)

/-- The buffer `buf'` is `buf` with the cells selected by `P` overwritten by `val`. -/
def Writes (n : Nat) (P : Nat → Prop) (val : Nat → Nat) (buf buf' : List Nat) : Prop :=
  buf'.length = n ∧ ∀ j, j < n →
    (P j → buf'.getD j 0 = val j) ∧ (¬ P j → buf'.getD j 0 = buf.getD j 0)

/-- The value stored in channel `c` by the store loop. -/
def channelValue (vR vG vB : Int) (c : Nat) : Int :=
  if c = 0 then vR else if c = 1 then vG else vB

/-- The cells of block `(hb, wb)`, as a predicate on buffer offsets. -/
def InBlock (t w h hb wb : Nat) (j : Nat) : Prop :=
  ∃ bh, bh < effectiveSide h t hb ∧ ∃ bw, bw < effectiveSide w t wb ∧
    j / 3 = cellIndex t w hb wb bh bw

/-- Channel `c` of the block sums. -/
def LocalSums.chan (s : LocalSums) (c : Nat) : Int :=
  channelValue s.localSumR s.localSumG s.localSumB c

/-- The two summing loops of a block, in the form shared by both transforms. -/
def blockSums (pixels : List Nat) (t w hb wb dbw dbh : Nat) : LocalSums :=
  forLoop dbh (fun block_h s =>
    forLoop dbw (fun block_w s => ompSumBody pixels t w hb wb block_h block_w s) s)
    { localSumR := 0, localSumG := 0, localSumB := 0 }

/-- The value both transforms store in channel `c` of block `(hb, wb)`: the wrapped `int`
sum divided by the `int` cell count, converted to `unsigned char`. -/
def storedValue (pixels : List Nat) (w h t hb wb c : Nat) : Nat :=
  toU8 (Int.tdiv (toI32 (tileChannelSum pixels w h t hb wb c : Nat))
    ((effectiveSide w t wb * effectiveSide h t hb : Nat) : Int))

/-- The effect of one block on the pixel buffer. -/
def blockStep (t w h hb wb : Nat) (buf : List Nat) : List Nat :=
  let dbw := dynamicBlock w t wb
  let dbh := dynamicBlock h t hb
  let s := blockSums buf t w hb wb dbw dbh
  let a := averageDynamicSize dbw dbh
  storeBlock buf t w hb wb dbw dbh (Int.tdiv s.localSumR a) (Int.tdiv s.localSumG a)
    (Int.tdiv s.localSumB a)

/-- The struct with its pixel buffer replaced. -/
def withPixels (ppm : PPM) (buf : List Nat) : PPM := { ppm with pixels := buf }

/-- The block sums among the accumulators of `CPU_mosaic`. -/
def CpuSums.locals (s : CpuSums) : LocalSums := ⟨s.localSumR, s.localSumG, s.localSumB⟩

/-- The pixel buffer after the blocks listed in `tiles`, taken in that order. -/
def runBlocks (t w h : Nat) (tiles : List (Nat × Nat)) (buf : List Nat) : List Nat :=
  tiles.foldl (fun b T => blockStep t w h T.1 T.2 b) buf

/-- The block that holds buffer offset `j`. -/
def blockOf (t w : Nat) (j : Nat) : Nat × Nat := (j / 3 / w / t, j / 3 % w / t)

/-! ## Further example images -/

/-- A `w × h` image with every sample equal to `v`. -/
def uniformImage (w h v : Nat) : PPM :=
  { tag := 6, width := w, height := h, maxColor := 255, pixels_count := u32 (w * h)
    size := u32 (w * h * 3), pixels := List.replicate (3 * w * h) v, outputPixels := [] }

/-- The image of the height-only violation: `4 × 2`, to be used with block size `4`. -/
def example4x2 : PPM :=
  { tag := 6, width := 4, height := 2, maxColor := 255, pixels_count := 8, size := 24
    pixels := [0, 0, 0, 8, 8, 8, 16, 16, 16, 24, 24, 24, 32, 32, 32, 40, 40, 40, 48, 48, 48,
      56, 56, 56]
    outputPixels := [] }

/-- A `4 × 4` image with four distinct `2 × 2` tiles. -/
def example4x4 : PPM :=
  { tag := 6, width := 4, height := 4, maxColor := 255, pixels_count := 16, size := 48
    pixels := [10, 20, 30, 12, 22, 32, 1, 2, 3, 5, 6, 7,
               14, 24, 34, 16, 26, 36, 9, 10, 11, 13, 14, 15,
               100, 0, 0, 101, 0, 0, 0, 200, 0, 0, 201, 0,
               102, 0, 0, 104, 0, 0, 0, 202, 0, 0, 204, 0]
    outputPixels := [] }

/-- A struct as `calloc` would give it. -/
def zeroPPM : PPM :=
  { tag := 0, width := 0, height := 0, maxColor := 0, pixels_count := 0, size := 0
    pixels := [], outputPixels := [] }

/-! ## Notions used in the proofs on the codec -/

/-- What the states of the header parser guarantee about the fields already set. -/
def HeaderInv (rp : READING_PARAMS) (ppm : PPM) : Prop :=
  rp ≠ READING_PARAMS.PIXELS ∧ (rp = READING_PARAMS.HEIGHT → ppm.width ≠ 0) ∧
  (rp = READING_PARAMS.MAX_COLOR → ppm.width ≠ 0 ∧ ppm.height ≠ 0)

/-- The values of `k` successive successful `fscanf(f, " %d", &c)` calls and the input
left after them. -/
def scanMany : Nat → List Nat → Option (List Int × List Nat)
  | 0, f => some ([], f)
  | k + 1, f =>
    match fscanf_d f with
    | ScanResult.value v rest =>
      match scanMany k rest with
      | some r => some (v :: r.1, r.2)
      | none => none
    | _ => none

/-- The buffer after the stores `pixels[i++] = (unsigned char)c` for the values `vs`. -/
def storeValues : List Nat → Nat → List Int → List Nat
  | pixels, _, [] => pixels
  | pixels, i, v :: vs => storeValues (pixels.set i (toU8 (toU32 v))) (i + 1) vs

/-- A `1 × 1` PlainText struct as `readPPM` prepares it before the pixel read. -/
def plainPixel (maxColor : Nat) : PPM :=
  { tag := 3, width := 1, height := 1, maxColor := maxColor, pixels_count := 1, size := 3
    pixels := [0, 0, 0], outputPixels := [] }

/-- The number denoted by a list of digit characters, continuing from `acc`. -/
def digitsValue (ds : List Nat) (acc : Nat) : Nat :=
  ds.foldl (fun a c => a * 10 + (c - 48)) acc

/-- The characters a header token may hold: no NUL and no delimiter. -/
def TokenChars (l : List Nat) : Prop := ∀ c, c ∈ l → c ≠ 0 ∧ isDelim c = false

/-- The plain-text body of a buffer: every sample in decimal, followed by one space. -/
def textOf : List Nat → List Nat
  | [] => []
  | b :: l => decimal b ++ 32 :: textOf l

/-- The `2 × 2` example as `main` prepares it in mode `ALL`: a zeroed output buffer. -/
def example2x2ALL : PPM :=
  { example2x2 with outputPixels := List.replicate 12 0 }

/-- The rendering of a 32-bit field by `%d`, in words: its decimal digits when it is below
`2^31`, else a minus sign and the decimal digits of `2^32` minus the field. -/
def signedDecimal (n : Nat) : List Nat :=
  if n < 2147483648 then decimal n else 45 :: decimal (4294967296 - n)

/-- The file that the claim on the writer describes: the four header lines, then the raw
bytes (Binary) or the samples in decimal, each followed by one space (PlainText). -/
def fileBytes (code width height maxColor : Nat) (plain : Bool) (buf : List Nat) : List Nat :=
  [80] ++ decimal code ++ [10] ++ signedDecimal width ++ [10] ++ signedDecimal height ++ [10]
    ++ signedDecimal maxColor ++ [10] ++ (if plain then textOf buf else buf)

/-- A `1 × 1` image whose maxColor is `2^32 - 1`, as decoded from a header with the maxColor
token `-1`. -/
def exampleMaxColor : PPM :=
  { tag := 6, width := 1, height := 1, maxColor := 4294967295, pixels_count := 1, size := 3
    pixels := [1, 2, 3], outputPixels := [] }

/-- The quadruples `(height_block, width_block, block_h, block_w)` visited by the four nested
loops of lines 194-213 and 298-317. -/
def InGrid (w h t : Nat) (height_block width_block block_h block_w : Nat) : Prop :=
  height_block < blocks h t ∧ width_block < blocks w t ∧
  block_h < dynamicBlock h t height_block ∧ block_w < dynamicBlock w t width_block

instance (w h t a b c d : Nat) : Decidable (InGrid w h t a b c d) := by
  unfold InGrid; infer_instance

/-- The characters of a line before its newline: neither a newline nor a NUL. -/
def LineChars (l : List Nat) : Prop := ∀ c, c ∈ l → c ≠ 10 ∧ c ≠ 0

instance (l : List Nat) : Decidable (LineChars l) := by
  unfold LineChars; infer_instance

/-- A file that starts with a comment of 99 characters (`#` and 98 times `a`) and its
newline, 100 characters in all, followed by a complete `1 × 1` Binary image. -/
def exampleLongComment : List Nat :=
  35 :: List.replicate 98 97 ++ [10] ++ (bytes "P6\n1 1\n255\n" ++ [1, 2, 3])

/-- The tokens of the lines of a header that are not comments, in order. -/
def headerTokens : List (List Nat) → List (List Nat)
  | [] => []
  | l :: ls =>
    if l.head? = some 35 then headerTokens ls else strtok (l ++ [10]) ++ headerTokens ls

/-- The file made of the given lines, each followed by a newline, and then of `rest`. -/
def fileOfLines : List (List Nat) → List Nat → List Nat
  | [], rest => rest
  | l :: ls, rest => l ++ 10 :: fileOfLines ls rest

/-- A header whose second line is longer than the line buffer: 98 spaces before the
width `12`. -/
def exampleLongLine : List Nat :=
  bytes "P6\n" ++ List.replicate 98 32 ++ bytes "12 1\n255\n" ++ List.replicate 36 7

/-- The sum of channel `c` over all the pixels of the image. -/
def channelSum (pixels : List Nat) (width height c : Nat) : Nat :=
  ∑ p in Finset.range (width * height), pixels.getD (3 * p + c) 0

/-- Channel `c` of the image sums among the accumulators of `CPU_mosaic`. -/
def CpuSums.global (s : CpuSums) (c : Nat) : Nat :=
  if c = 0 then s.globalSumR else if c = 1 then s.globalSumG else s.globalSumB

/-- Channel `c` of the image sums of the state of the block loop of `CPU_mosaic`. -/
def CpuState.global (st : CpuState) (c : Nat) : Nat :=
  if c = 0 then st.globalSumR else if c = 1 then st.globalSumG else st.globalSumB

/-- Channel `c` of the three averages printed by `CPU_mosaic`. -/
def CpuResult.average (r : CpuResult) (c : Nat) : Nat :=
  if c = 0 then r.averageR else if c = 1 then r.averageG else r.averageB

/-- The state of the block loop of `OPENMP_mosaic` with the image sums of line 274, the
`float` accumulators being kept as exact rationals. -/
structure OmpState where
  ppm : PPM
  globalSumR : ℚ
  globalSumG : ℚ
  globalSumB : ℚ

/-- Lines 300-361 with the image sums of lines 335-343: the body of the block loop of
`OPENMP_mosaic`, every `float` operation taken exactly. -/
def ompBlockSums (execution_mode : MODE) (block_size : Nat) (height_block width_block : Nat)
    (st : OmpState) : OmpState :=
  let ppm := st.ppm
  let dynamic_block_width := dynamicBlock ppm.width block_size width_block
  let dynamic_block_height := dynamicBlock ppm.height block_size height_block
  let s := forLoop dynamic_block_height (fun block_h s =>
    forLoop dynamic_block_width (fun block_w s =>
      ompSumBody ppm.pixels block_size ppm.width height_block width_block block_h block_w s) s)
    { localSumR := 0, localSumG := 0, localSumB := 0 }
  let average_dynamic_size := averageDynamicSize dynamic_block_width dynamic_block_height
  let average_red := Int.tdiv s.localSumR average_dynamic_size
  let average_green := Int.tdiv s.localSumG average_dynamic_size
  let average_blue := Int.tdiv s.localSumB average_dynamic_size
  let percentage : ℚ :=
    ((u32 (dynamic_block_width * dynamic_block_height) : Nat) : ℚ) / ((ppm.pixels_count : Nat) : ℚ)
  { ppm := ompBlock execution_mode block_size height_block width_block ppm
    globalSumR := st.globalSumR + (average_red : ℚ) * percentage
    globalSumG := st.globalSumG + (average_green : ℚ) * percentage
    globalSumB := st.globalSumB + (average_blue : ℚ) * percentage }

/-- `OPENMP_mosaic` (lines 267-374) with its image sums: the struct and the exact values of
`globalSumR`, `globalSumG` and `globalSumB` before they are rounded and printed at line
364; `none` when `checkBlockSize` exits. -/
def OPENMP_mosaic_sums (execution_mode : MODE) (block_size : Nat) (schedule : List Nat)
    (ppm : PPM) : Option OmpState :=
  match checkBlockSize block_size ppm with
  | some _ => none
  | none =>
    let width_blocks := blocks ppm.width block_size
    some (schedule.foldl (fun st height_block =>
      forLoop width_blocks (fun width_block st =>
        ompBlockSums execution_mode block_size height_block width_block st) st)
      { ppm := ppm, globalSumR := 0, globalSumG := 0, globalSumB := 0 })

/-- Channel `c` of the image sums of `OPENMP_mosaic`. -/
def OmpState.global (st : OmpState) (c : Nat) : ℚ :=
  if c = 0 then st.globalSumR else if c = 1 then st.globalSumG else st.globalSumB

/-- What a tile adds to the image sum of channel `c` in `OPENMP_mosaic`: its truncated
average times its share of the `n` pixels. -/
def tileTerm (pixels : List Nat) (w h t n tr tc c : Nat) : ℚ :=
  ((Int.tdiv (toI32 (tileChannelSum pixels w h t tr tc c : Nat))
      ((effectiveSide w t tc * effectiveSide h t tr : Nat) : Int) : Int) : ℚ) *
    (((effectiveSide w t tc * effectiveSide h t tr : Nat) : ℚ) / (n : ℚ))

/-- The cell-size part of `process_command_line` (`mosaic.c`, lines 394-417), the only place
that sets `block_size`: `none` when the function returns `FAILURE` (fewer than 7 arguments,
a size below 1, or a size that is not a power of two), else the `block_size` it has set
from the first argument `C` before it goes on to read the mode. -/
def process_command_line (argc : Nat) (C : List Nat) : Option Nat :=
  if argc < 7 then none
  else
    let block_size := toU32 (atoi C)
    if block_size < 1 then none
    else if (block_size &&& usub block_size 1) ≠ 0 then none
    else some block_size

/-! ## Machine-integer lemmas -/

theorem u32_of_lt {n : Nat} (h : n < 4294967296) : u32 n = n := Nat.mod_eq_of_lt h

theorem usub_of_le {a b : Nat} (hb : b ≤ a) (ha : a < 4294967296) : usub a b = a - b := by
  unfold usub; omega

theorem toI32_of_range {z : Int} (h1 : -2147483648 ≤ z) (h2 : z < 2147483648) :
    toI32 z = z := by
  unfold toI32; omega

theorem toI32_idem (z : Int) : toI32 (toI32 z) = toI32 z := by
  unfold toI32; omega

theorem toI32_add_left (a b : Int) : toI32 (toI32 a + b) = toI32 (a + b) := by
  unfold toI32; omega

theorem toU8_of_lt {n : Nat} (h : n < 256) : toU8 (n : Int) = n := by
  unfold toU8; omega

/-! ## Geometry of the block grid -/

theorem lt_blocks_iff {dim t b : Nat} (ht : 0 < t) (hd : dim < 4294967296) :
    b < blocks dim t ↔ b * t < dim := by
  unfold blocks
  by_cases hr : dim % t = 0
  · simp only [hr, ne_eq, not_true_eq_false, if_false]
    rw [Nat.lt_div_iff_mul_lt (Nat.dvd_of_mod_eq_zero hr), Nat.mul_comm]
  · simp only [hr, ne_eq, not_false_eq_true, if_true]
    have hq : dim / t + 1 < 4294967296 := by
      have h1 : dim / t * t ≤ dim := Nat.div_mul_le_self dim t
      have h2 : dim / t ≤ dim / t * t := Nat.le_mul_of_pos_right _ ht
      have h3 : dim / t * t ≠ dim := by
        intro h
        apply hr
        rw [← h]; exact Nat.mul_mod_left _ _
      omega
    rw [u32_of_lt hq, Nat.lt_succ_iff, Nat.le_div_iff_mul_le ht]
    constructor
    · intro h
      refine lt_of_le_of_ne h ?_
      intro h'
      apply hr
      rw [← h']; exact Nat.mul_mod_left _ _
    · exact le_of_lt

theorem dynamicBlock_eq {dim t b : Nat} (hd : dim ≤ 2147483648)
    (ht2 : t < 4294967296) (hb : b * t < dim) :
    dynamicBlock dim t b = effectiveSide dim t b := by
  have hbt : b * t + t < 4294967296 := by
    rcases Nat.eq_zero_or_pos b with h0 | hpos
    · subst h0; simpa using ht2
    · have : t ≤ b * t := Nat.le_mul_of_pos_left _ hpos
      omega
  unfold dynamicBlock effectiveSide
  rw [u32_of_lt hbt, u32_of_lt (by omega), usub_of_le (le_of_lt hb) (by omega)]
  split <;> omega

theorem effectiveSide_pos {dim t b : Nat} (ht : 0 < t) (hb : b * t < dim) :
    0 < effectiveSide dim t b := by
  unfold effectiveSide; omega

theorem effectiveSide_le {dim t b : Nat} : effectiveSide dim t b ≤ t := by
  unfold effectiveSide; omega

theorem effectiveSide_add_lt {dim t b k : Nat} (hk : k < effectiveSide dim t b) :
    b * t + k < dim := by
  unfold effectiveSide at hk; omega

theorem cellIndex_lt {t w h hb wb bh bw : Nat}
    (hbh : bh < effectiveSide h t hb) (hbw : bw < effectiveSide w t wb) :
    cellIndex t w hb wb bh bw < h * w := by
  have h1 := effectiveSide_add_lt hbh
  have h2 := effectiveSide_add_lt hbw
  unfold cellIndex
  calc (hb * t + bh) * w + (wb * t + bw) < (hb * t + bh) * w + w := by omega
    _ = (hb * t + bh + 1) * w := by ring
    _ ≤ h * w := Nat.mul_le_mul_right _ h1

theorem pixelIndex_eq {t w h hb wb bh bw : Nat} (hsz : 3 * w * h < 2147483648)
    (hbh : bh < effectiveSide h t hb) (hbw : bw < effectiveSide w t wb) :
    pixelIndex t w hb wb bh bw = (cellIndex t w hb wb bh bw : Nat) := by
  have hlt := cellIndex_lt hbh hbw
  have hwh : h * w * 3 = 3 * w * h := by ring
  have e : hb * t * w + wb * t + bw + w * bh = cellIndex t w hb wb bh bw := by
    unfold cellIndex; ring
  unfold pixelIndex
  rw [e, u32_of_lt (by omega), toI32_of_range (by omega) (by omega)]

theorem byteIndex_eq {p n : Nat} (c : Nat) (hc : c < 3) (hp : 3 * p + 2 < n)
    (hn : n < 2147483648) : byteIndex (p : Int) (c : Int) = ((3 * p + c : Nat) : Int) := by
  unfold byteIndex RGB_SIZE
  have h1 : toI32 ((p : Int) * 3) = (p : Int) * 3 := toI32_of_range (by omega) (by omega)
  rw [h1]
  split
  · push_cast; omega
  · rw [toI32_of_range (by omega) (by omega)]; push_cast; omega

/-! ## Loops -/

theorem forLoop_zero {σ : Type} (body : Nat → σ → σ) (s : σ) : forLoop 0 body s = s := rfl

theorem forLoop_succ {σ : Type} (n : Nat) (body : Nat → σ → σ) (s : σ) :
    forLoop (n + 1) body s = body n (forLoop n body s) := by
  unfold forLoop
  rw [List.range_succ, List.foldl_append]
  rfl

/-- A loop seen through a projection of its state that the body respects. -/
theorem forLoop_proj {σ τ : Type} (proj : σ → τ) (n : Nat) (body : Nat → σ → σ)
    (body' : Nat → τ → τ) (h : ∀ k, k < n → ∀ s, proj (body k s) = body' k (proj s)) (s : σ) :
    proj (forLoop n body s) = forLoop n body' (proj s) := by
  induction n with
  | zero => rfl
  | succ n ih =>
    rw [forLoop_succ, forLoop_succ, h n (Nat.lt_succ_self n),
      ih (fun k hk => h k (Nat.lt_succ_of_lt hk))]

/-- A loop whose body adds `v k` to an `int` accumulator leaves the wrapped total. -/
theorem forLoop_sum {σ : Type} (proj : σ → Int) (m : Nat) (body : Nat → σ → σ) (v : Nat → Int)
    (hbody : ∀ k, k < m → ∀ s, toI32 (proj s) = proj s →
      proj (body k s) = toI32 (proj s + v k))
    (s : σ) (hs : toI32 (proj s) = proj s) :
    proj (forLoop m body s) = toI32 (proj s + ∑ k in Finset.range m, v k) := by
  induction m with
  | zero => simp [forLoop_zero, hs]
  | succ m ih =>
    have ih' := ih (fun k hk => hbody k (Nat.lt_succ_of_lt hk))
    have hid : toI32 (proj (forLoop m body s)) = proj (forLoop m body s) := by
      rw [ih', toI32_idem]
    rw [forLoop_succ, hbody m (Nat.lt_succ_self m) _ hid, ih', toI32_add_left,
      Finset.sum_range_succ, add_assoc]

theorem forLoop_writes {n : Nat} (m : Nat) (body : Nat → List Nat → List Nat)
    (P : Nat → Nat → Prop) (val : Nat → Nat)
    (hbody : ∀ k, k < m → ∀ buf : List Nat, buf.length = n →
      Writes n (P k) val buf (body k buf))
    (buf : List Nat) (hlen : buf.length = n) :
    Writes n (fun j => ∃ k, k < m ∧ P k j) val buf (forLoop m body buf) := by
  induction m with
  | zero =>
    refine ⟨hlen, fun j _ => ⟨?_, fun _ => rfl⟩⟩
    rintro ⟨k, hk, _⟩
    exact absurd hk (Nat.not_lt_zero k)
  | succ m ih =>
    obtain ⟨hl, hi⟩ := ih (fun k hk => hbody k (Nat.lt_succ_of_lt hk))
    obtain ⟨hl', hs⟩ := hbody m (Nat.lt_succ_self m) _ hl
    rw [forLoop_succ]
    refine ⟨hl', fun j hj => ⟨?_, ?_⟩⟩
    · rintro ⟨k, hk, hP⟩
      by_cases hm : P m j
      · exact (hs j hj).1 hm
      · rw [(hs j hj).2 hm]
        have hkm : k < m := by
          rcases Nat.lt_succ_iff_lt_or_eq.mp hk with h | h
          · exact h
          · subst h; exact absurd hP hm
        exact (hi j hj).1 ⟨k, hkm, hP⟩
    · intro hne
      have hm : ¬ P m j := fun h => hne ⟨m, Nat.lt_succ_self m, h⟩
      rw [(hs j hj).2 hm]
      exact (hi j hj).2 (fun ⟨k, hk, hP⟩ => hne ⟨k, Nat.lt_succ_of_lt hk, hP⟩)

theorem getD_set_eq (l : List Nat) (i j v : Nat) :
    (l.set i v).getD j 0 = if i = j ∧ i < l.length then v else l.getD j 0 := by
  simp only [List.getD_eq_getElem?_getD, List.getElem?_set]
  by_cases h : i = j
  · subst h
    by_cases h2 : i < l.length
    · simp [h2]
    · simp [h2, List.getElem?_eq_none (Nat.le_of_not_lt h2)]
  · simp [h]

theorem rd_natCast (buf : List Nat) (n : Nat) : rd buf (n : Int) = (buf.getD n 0 : Nat) := by
  unfold rd
  have : ¬ ((n : Int) < 0) := by omega
  simp [this]

theorem wr_natCast (buf : List Nat) (n : Nat) (v : Int) :
    wr buf (n : Int) v = buf.set n (toU8 v) := by
  unfold wr
  have : ¬ ((n : Int) < 0) := by omega
  simp [this]

theorem writes_pixel {n p : Nat} (buf : List Nat) (hlen : buf.length = n) (hp : 3 * p + 2 < n)
    (vR vG vB : Int) :
    Writes n (fun j => j / 3 = p) (fun j => toU8 (channelValue vR vG vB (j % 3))) buf
      (((buf.set (3 * p) (toU8 vR)).set (3 * p + 1) (toU8 vG)).set (3 * p + 2) (toU8 vB)) := by
  refine ⟨by simp [hlen], fun j hj => ⟨?_, ?_⟩⟩
  · intro hjp
    simp only [getD_set_eq, List.length_set, hlen, channelValue]
    have : j = 3 * p ∨ j = 3 * p + 1 ∨ j = 3 * p + 2 := by omega
    rcases this with h | h | h
    · subst h
      have e1 : ¬ (3 * p + 2 = 3 * p) := by omega
      have e2 : ¬ (3 * p + 1 = 3 * p) := by omega
      have e3 : 3 * p % 3 = 0 := by omega
      have e4 : 3 * p < n := by omega
      simp [e1, e2, e3, e4]
    · subst h
      have e1 : ¬ (3 * p + 2 = 3 * p + 1) := by omega
      have e3 : (3 * p + 1) % 3 = 1 := by omega
      have e4 : 3 * p + 1 < n := by omega
      simp [e1, e3, e4]
    · subst h
      have e3 : (3 * p + 2) % 3 = 2 := by omega
      simp [e3, hp]
  · intro hjp
    simp only [getD_set_eq, List.length_set, hlen]
    have e1 : ¬ (3 * p + 2 = j) := by omega
    have e2 : ¬ (3 * p + 1 = j) := by omega
    have e3 : ¬ (3 * p = j) := by omega
    simp [e1, e2, e3]

/-! ## One block -/

theorem storeBlock_writes (t w h hb wb : Nat) (hsz : 3 * w * h < 2147483648)
    (buf : List Nat) (hlen : buf.length = 3 * w * h) (vR vG vB : Int) :
    Writes (3 * w * h) (InBlock t w h hb wb)
      (fun j => toU8 (channelValue vR vG vB (j % 3))) buf
      (storeBlock buf t w hb wb (effectiveSide w t wb) (effectiveSide h t hb) vR vG vB) := by
  unfold storeBlock InBlock
  apply forLoop_writes (effectiveSide h t hb) _
    (fun bh j => ∃ bw, bw < effectiveSide w t wb ∧ j / 3 = cellIndex t w hb wb bh bw)
  · intro bh hbh buf1 hl1
    apply forLoop_writes (effectiveSide w t wb) _
      (fun bw j => j / 3 = cellIndex t w hb wb bh bw)
    · intro bw hbw buf2 hl2
      have hc := cellIndex_lt hbh hbw
      have hwh : h * w * 3 = 3 * w * h := by ring
      have hp : 3 * cellIndex t w hb wb bh bw + 2 < 3 * w * h := by omega
      have e0 := byteIndex_eq 0 (by omega) hp hsz
      have e1 := byteIndex_eq 1 (by omega) hp hsz
      have e2 := byteIndex_eq 2 (by omega) hp hsz
      simp only [Nat.cast_zero, Nat.cast_one, Nat.cast_ofNat, Nat.add_zero] at e0 e1 e2
      simp only [pixelIndex_eq hsz hbh hbw, e0, e1, e2, wr_natCast]
      exact writes_pixel buf2 hl2 hp vR vG vB
    · exact hl1
  · exact hlen

theorem ompSumBody_chan {t w h hb wb bh bw : Nat} (hsz : 3 * w * h < 2147483648)
    (pixels : List Nat) (hbh : bh < effectiveSide h t hb) (hbw : bw < effectiveSide w t wb)
    (c : Nat) (hc : c < 3) (s : LocalSums) :
    (ompSumBody pixels t w hb wb bh bw s).chan c =
      toI32 (s.chan c + (pixels.getD (3 * cellIndex t w hb wb bh bw + c) 0 : Nat)) := by
  have hlt := cellIndex_lt hbh hbw
  have hwh : h * w * 3 = 3 * w * h := by ring
  have hp : 3 * cellIndex t w hb wb bh bw + 2 < 3 * w * h := by omega
  have e0 := byteIndex_eq 0 (by omega) hp hsz
  have e1 := byteIndex_eq 1 (by omega) hp hsz
  have e2 := byteIndex_eq 2 (by omega) hp hsz
  simp only [Nat.cast_zero, Nat.cast_one, Nat.cast_ofNat, Nat.add_zero] at e0 e1 e2
  unfold ompSumBody LocalSums.chan channelValue
  simp only [pixelIndex_eq hsz hbh hbw, e0, e1, e2, rd_natCast]
  have : c = 0 ∨ c = 1 ∨ c = 2 := by omega
  rcases this with h | h | h <;> subst h <;> simp

theorem blockSums_chan (t w h hb wb : Nat) (hsz : 3 * w * h < 2147483648)
    (pixels : List Nat) (c : Nat) (hc : c < 3) :
    (blockSums pixels t w hb wb (effectiveSide w t wb) (effectiveSide h t hb)).chan c =
      toI32 (tileChannelSum pixels w h t hb wb c : Nat) := by
  unfold blockSums
  rw [forLoop_sum (fun s : LocalSums => s.chan c) (effectiveSide h t hb) _
    (fun bh => ∑ bw in Finset.range (effectiveSide w t wb),
      ((pixels.getD (3 * cellIndex t w hb wb bh bw + c) 0 : Nat) : Int))]
  · have z : (LocalSums.chan { localSumR := 0, localSumG := 0, localSumB := 0 } c) = 0 := by
      unfold LocalSums.chan channelValue; split <;> [rfl; (split <;> rfl)]
    rw [z, zero_add]
    unfold tileChannelSum cellIndex
    push_cast
    rfl
  · intro bh hbh s hs
    apply forLoop_sum (fun s : LocalSums => s.chan c) (effectiveSide w t wb) _ _ _ s hs
    intro bw hbw s' _
    exact ompSumBody_chan hsz pixels hbh hbw c hc s'
  · unfold LocalSums.chan channelValue; split <;> [rfl; (split <;> rfl)]

theorem effectiveSide_mul_le {t w h hb wb : Nat} (hhb : hb * t < h) (hwb : wb * t < w) :
    effectiveSide w t wb * effectiveSide h t hb ≤ w * h := by
  apply Nat.mul_le_mul <;> unfold effectiveSide <;> omega

theorem blockStep_writes {t w h hb wb : Nat} (hsz : 3 * w * h < 2147483648)
    (ht2 : t < 4294967296) (hhb : hb * t < h) (hwb : wb * t < w)
    (buf : List Nat) (hlen : buf.length = 3 * w * h) :
    Writes (3 * w * h) (InBlock t w h hb wb)
      (fun j => storedValue buf w h t hb wb (j % 3)) buf (blockStep t w h hb wb buf) := by
  have hw : 0 < w := by omega
  have hh : 0 < h := by omega
  have hwh1 : w ≤ w * h := Nat.le_mul_of_pos_right _ hh
  have hwh2 : h ≤ w * h := Nat.le_mul_of_pos_left _ hw
  have harea := effectiveSide_mul_le hhb hwb
  have hsz' : 3 * (w * h) < 2147483648 := by rw [← Nat.mul_assoc]; exact hsz
  unfold blockStep averageDynamicSize
  simp only [dynamicBlock_eq (by omega : w ≤ 2147483648) ht2 hwb,
    dynamicBlock_eq (by omega : h ≤ 2147483648) ht2 hhb]
  rw [u32_of_lt (by omega), toI32_of_range (by omega) (by omega)]
  have hst := storeBlock_writes t w h hb wb hsz buf hlen
    (Int.tdiv (blockSums buf t w hb wb (effectiveSide w t wb)
      (effectiveSide h t hb)).localSumR ((effectiveSide w t wb * effectiveSide h t hb : Nat) : Int))
    (Int.tdiv (blockSums buf t w hb wb (effectiveSide w t wb)
      (effectiveSide h t hb)).localSumG ((effectiveSide w t wb * effectiveSide h t hb : Nat) : Int))
    (Int.tdiv (blockSums buf t w hb wb (effectiveSide w t wb)
      (effectiveSide h t hb)).localSumB ((effectiveSide w t wb * effectiveSide h t hb : Nat) : Int))
  refine ⟨hst.1, fun j hj => ⟨fun hP => ?_, (hst.2 j hj).2⟩⟩
  rw [(hst.2 j hj).1 hP]
  have hc : j % 3 < 3 := Nat.mod_lt _ (by omega)
  have hch := blockSums_chan t w h hb wb hsz buf (j % 3) hc
  show toU8 _ = toU8 _
  rw [← hch]
  unfold LocalSums.chan channelValue
  split <;> [rfl; (split <;> rfl)]

/-! ## From the transforms to a fold over blocks -/

theorem ompBlock_eq {mode : MODE} (hm : mode ≠ MODE.ALL) (t hb wb : Nat) (ppm : PPM) :
    ompBlock mode t hb wb ppm =
      withPixels ppm (blockStep t ppm.width ppm.height hb wb ppm.pixels) := by
  unfold ompBlock
  simp only [hm, if_false]
  rfl

theorem cpuBlock_ppm (mode : MODE) (t hb wb : Nat) (st : CpuState) :
    (cpuBlock mode t hb wb st).ppm =
      withPixels st.ppm (blockStep t st.ppm.width st.ppm.height hb wb st.ppm.pixels) := by
  have hs : ∀ s0 : CpuSums,
      CpuSums.locals
        (forLoop (dynamicBlock st.ppm.height t hb) (fun block_h s =>
          forLoop (dynamicBlock st.ppm.width t wb) (fun block_w s =>
            cpuSumBody st.ppm.pixels t st.ppm.width hb wb block_h block_w s) s) s0) =
      forLoop (dynamicBlock st.ppm.height t hb) (fun block_h s =>
          forLoop (dynamicBlock st.ppm.width t wb) (fun block_w s =>
            ompSumBody st.ppm.pixels t st.ppm.width hb wb block_h block_w s) s)
        (CpuSums.locals s0) := by
    intro s0
    apply forLoop_proj
    intro bh _ s
    apply forLoop_proj
    intro bw _ s'
    rfl
  have h := hs ⟨0, 0, 0, st.globalSumR, st.globalSumG, st.globalSumB⟩
  unfold cpuBlock withPixels blockStep blockSums
  simp only []
  have e : CpuSums.locals ⟨0, 0, 0, st.globalSumR, st.globalSumG, st.globalSumB⟩ =
      ⟨0, 0, 0⟩ := rfl
  rw [e] at h
  rw [← h]
  rfl

theorem foldl_withPixels {α : Type} (G : Nat → Nat → α → List Nat → List Nat) (l : List α)
    (ppm : PPM) :
    l.foldl (fun p a => withPixels p (G p.width p.height a p.pixels)) ppm =
      withPixels ppm (l.foldl (fun b a => G ppm.width ppm.height a b) ppm.pixels) := by
  induction l generalizing ppm with
  | nil => rfl
  | cons a l ih =>
    simp only [List.foldl_cons]
    rw [ih]
    rfl

theorem foldl_product {α β σ : Type} (f : σ → α × β → σ) (l₁ : List α) (l₂ : List β) (s : σ) :
    (l₁ ×ˢ l₂).foldl f s =
      l₁.foldl (fun s a => l₂.foldl (fun s b => f s (a, b)) s) s := by
  induction l₁ generalizing s with
  | nil => rfl
  | cons a l ih =>
    rw [List.product_cons, List.foldl_append, List.foldl_map, ih]
    rfl

theorem omp_rows_eq (mode : MODE) (hm : mode ≠ MODE.ALL) (t n : Nat) (schedule : List Nat)
    (ppm : PPM) :
    schedule.foldl (fun p height_block =>
      forLoop n (fun width_block p => ompBlock mode t height_block width_block p) p) ppm =
      withPixels ppm
        (runBlocks t ppm.width ppm.height (schedule ×ˢ List.range n) ppm.pixels) := by
  unfold runBlocks
  rw [foldl_product]
  have hrow : ∀ (hb : Nat) (p : PPM),
      forLoop n (fun width_block p => ompBlock mode t hb width_block p) p =
      withPixels p ((List.range n).foldl
        (fun b wb => blockStep t p.width p.height hb wb b) p.pixels) := by
    intro hb p
    unfold forLoop
    simp only [ompBlock_eq hm]
    exact foldl_withPixels (fun w h wb b => blockStep t w h hb wb b) _ p
  simp only [hrow]
  exact foldl_withPixels (fun w h hb b => (List.range n).foldl
    (fun b wb => blockStep t w h hb wb b) b) schedule ppm

theorem cpu_rows_eq (mode : MODE) (t m n : Nat) (ppm : PPM) (gR gG gB : Nat) :
    (forLoop m (fun height_block st =>
      forLoop n (fun width_block st =>
        cpuBlock mode t height_block width_block st) st)
      { ppm := ppm, globalSumR := gR, globalSumG := gG, globalSumB := gB }).ppm =
      withPixels ppm
        (runBlocks t ppm.width ppm.height (List.range m ×ˢ List.range n) ppm.pixels) := by
  rw [← omp_rows_eq MODE.CPU (by decide)]
  rw [forLoop_proj CpuState.ppm _ _ (fun height_block p =>
      forLoop n (fun width_block p => ompBlock MODE.CPU t height_block width_block p) p)]
  · rfl
  · intro hb _ st
    apply forLoop_proj
    intro wb _ st'
    rw [cpuBlock_ppm, ompBlock_eq (by decide)]

/-! ## Blocks partition the buffer -/

theorem blockOf_of_inBlock {t w h hb wb j : Nat} (ht : 0 < t)
    (hin : InBlock t w h hb wb j) : blockOf t w j = (hb, wb) := by
  obtain ⟨bh, hbh, bw, hbw, hj⟩ := hin
  have hx := effectiveSide_add_lt hbw
  have h1 : bh < t := lt_of_lt_of_le hbh effectiveSide_le
  have h2 : bw < t := lt_of_lt_of_le hbw effectiveSide_le
  have hw : 0 < w := by omega
  unfold blockOf
  rw [hj]
  unfold cellIndex
  have e1 : ((hb * t + bh) * w + (wb * t + bw)) / w = hb * t + bh := by
    rw [Nat.add_comm, Nat.add_mul_div_right _ _ hw, Nat.div_eq_of_lt hx, Nat.zero_add]
  have e2 : ((hb * t + bh) * w + (wb * t + bw)) % w = wb * t + bw := by
    rw [Nat.add_comm, Nat.add_mul_mod_self_right, Nat.mod_eq_of_lt hx]
  have e3 : (hb * t + bh) / t = hb := by
    rw [Nat.add_comm, Nat.add_mul_div_right _ _ ht, Nat.div_eq_of_lt h1, Nat.zero_add]
  have e4 : (wb * t + bw) / t = wb := by
    rw [Nat.add_comm, Nat.add_mul_div_right _ _ ht, Nat.div_eq_of_lt h2, Nat.zero_add]
  rw [e1, e2, e3, e4]

theorem inBlock_blockOf {t w h j : Nat} (ht : 0 < t) (hw : 0 < w) (hj : j < 3 * w * h) :
    InBlock t w h (blockOf t w j).1 (blockOf t w j).2 j := by
  have hp : j / 3 < h * w := by
    have : 3 * w * h = 3 * (h * w) := by ring
    omega
  have hy : j / 3 / w < h := Nat.div_lt_of_lt_mul (by rw [Nat.mul_comm]; exact hp)
  have hx : j / 3 % w < w := Nat.mod_lt _ hw
  have dy := Nat.div_add_mod (j / 3 / w) t
  have dx := Nat.div_add_mod (j / 3 % w) t
  have dp := Nat.div_add_mod (j / 3) w
  have my := Nat.mod_lt (j / 3 / w) ht
  have mx := Nat.mod_lt (j / 3 % w) ht
  rw [Nat.mul_comm] at dy dx dp
  refine ⟨j / 3 / w % t, ?_, j / 3 % w % t, ?_, ?_⟩
  · unfold effectiveSide blockOf; simp only []; omega
  · unfold effectiveSide blockOf; simp only []; omega
  · unfold cellIndex blockOf
    simp only []
    rw [dy, dx, dp]

theorem inBlock_iff {t w h hb wb j : Nat} (ht : 0 < t) (hw : 0 < w) (hj : j < 3 * w * h) :
    InBlock t w h hb wb j ↔ blockOf t w j = (hb, wb) := by
  constructor
  · exact blockOf_of_inBlock ht
  · intro hb'
    have := inBlock_blockOf (t := t) ht hw hj
    rw [hb'] at this
    exact this

theorem blockOf_valid {t w h j : Nat} (ht : 0 < t) (hw : 0 < w) (hj : j < 3 * w * h) :
    (blockOf t w j).1 * t < h ∧ (blockOf t w j).2 * t < w := by
  obtain ⟨bh, hbh, bw, hbw, _⟩ := inBlock_blockOf (t := t) ht hw hj
  exact ⟨by have := effectiveSide_add_lt hbh; omega, by have := effectiveSide_add_lt hbw; omega⟩

/-- The block sums only depend on the cells of the block. -/
theorem tileChannelSum_congr {t w h hb wb c : Nat} (ht : 0 < t) (hc : c < 3)
    (buf orig : List Nat)
    (hagree : ∀ j, j < 3 * w * h → blockOf t w j = (hb, wb) → buf.getD j 0 = orig.getD j 0) :
    tileChannelSum buf w h t hb wb c = tileChannelSum orig w h t hb wb c := by
  unfold tileChannelSum
  apply Finset.sum_congr rfl
  intro bh hbh
  apply Finset.sum_congr rfl
  intro bw hbw
  rw [Finset.mem_range] at hbh hbw
  have hlt := cellIndex_lt hbh hbw
  unfold cellIndex at hlt
  have hwh : 3 * w * h = 3 * (h * w) := by ring
  apply hagree
  · omega
  · apply blockOf_of_inBlock (h := h) ht
    refine ⟨bh, hbh, bw, hbw, ?_⟩
    unfold cellIndex
    omega

theorem storedValue_congr {t w h hb wb c : Nat} (ht : 0 < t) (hc : c < 3)
    (buf orig : List Nat)
    (hagree : ∀ j, j < 3 * w * h → blockOf t w j = (hb, wb) → buf.getD j 0 = orig.getD j 0) :
    storedValue buf w h t hb wb c = storedValue orig w h t hb wb c := by
  unfold storedValue
  rw [tileChannelSum_congr ht hc buf orig hagree]

/-- The invariant of the block loop: processed blocks hold their stored value, computed from
the original buffer, and the other cells are untouched. -/
theorem runBlocks_spec {t w h : Nat} (hsz : 3 * w * h < 2147483648) (ht : 0 < t)
    (ht2 : t < 4294967296) (hw : 0 < w) (orig : List Nat) :
    ∀ (tiles : List (Nat × Nat)), tiles.Nodup →
      (∀ T, T ∈ tiles → T.1 * t < h ∧ T.2 * t < w) →
      ∀ buf : List Nat, buf.length = 3 * w * h →
      (∀ j, j < 3 * w * h → blockOf t w j ∈ tiles → buf.getD j 0 = orig.getD j 0) →
      (runBlocks t w h tiles buf).length = 3 * w * h ∧
      ∀ j, j < 3 * w * h →
        (blockOf t w j ∈ tiles → (runBlocks t w h tiles buf).getD j 0 =
          storedValue orig w h t (blockOf t w j).1 (blockOf t w j).2 (j % 3)) ∧
        (blockOf t w j ∉ tiles → (runBlocks t w h tiles buf).getD j 0 = buf.getD j 0) := by
  intro tiles
  induction tiles with
  | nil =>
    intro _ _ buf hlen _
    exact ⟨hlen, fun j _ => ⟨fun hmem => absurd hmem (List.not_mem_nil _), fun _ => rfl⟩⟩
  | cons T tiles ih =>
    intro hnd hval buf hlen hagree
    obtain ⟨hT, hnd'⟩ := List.nodup_cons.mp hnd
    obtain ⟨hv1, hv2⟩ := hval T (List.mem_cons_self _ _)
    obtain ⟨hl1, hw1⟩ := blockStep_writes hsz ht2 hv1 hv2 buf hlen
    have hstep : ∀ j, j < 3 * w * h → blockOf t w j ≠ T →
        (blockStep t w h T.1 T.2 buf).getD j 0 = buf.getD j 0 := by
      intro j hj hne
      apply (hw1 j hj).2
      intro hin
      exact hne (blockOf_of_inBlock ht hin)
    have hagree' : ∀ j, j < 3 * w * h → blockOf t w j ∈ tiles →
        (blockStep t w h T.1 T.2 buf).getD j 0 = orig.getD j 0 := by
      intro j hj hmem
      have hne : blockOf t w j ≠ T := fun h => hT (h ▸ hmem)
      rw [hstep j hj hne]
      exact hagree j hj (List.mem_cons_of_mem _ hmem)
    obtain ⟨hl2, hres⟩ := ih hnd' (fun T' hT' => hval T' (List.mem_cons_of_mem _ hT'))
      (blockStep t w h T.1 T.2 buf) hl1 hagree'
    have hrun : runBlocks t w h (T :: tiles) buf =
        runBlocks t w h tiles (blockStep t w h T.1 T.2 buf) := rfl
    rw [hrun]
    refine ⟨hl2, fun j hj => ⟨?_, ?_⟩⟩
    · intro hmem
      by_cases hmem' : blockOf t w j ∈ tiles
      · exact (hres j hj).1 hmem'
      · have hTj : blockOf t w j = T := by
          rcases List.mem_cons.mp hmem with h | h
          · exact h
          · exact absurd h hmem'
        rw [(hres j hj).2 hmem']
        have hin : InBlock t w h T.1 T.2 j := (inBlock_iff ht hw hj).mpr hTj
        rw [(hw1 j hj).1 hin, hTj]
        apply storedValue_congr ht (Nat.mod_lt _ (by omega))
        intro i hi hbi
        exact hagree i hi (by rw [hbi]; exact List.mem_cons_self _ _)
    · intro hmem
      have hne : blockOf t w j ≠ T := fun h => hmem (h ▸ List.mem_cons_self _ _)
      have hmem' : blockOf t w j ∉ tiles := fun h => hmem (List.mem_cons_of_mem _ h)
      rw [(hres j hj).2 hmem', hstep j hj hne]

/-! ## The transforms on a well-formed image -/

theorem ext_getD {l₁ l₂ : List Nat} {n : Nat} (h₁ : l₁.length = n) (h₂ : l₂.length = n)
    (h : ∀ j, j < n → l₁.getD j 0 = l₂.getD j 0) : l₁ = l₂ := by
  apply List.ext_getElem (by rw [h₁, h₂])
  intro j hj₁ hj₂
  have := h j (by rw [← h₁]; exact hj₁)
  rwa [List.getD_eq_getElem _ _ hj₁, List.getD_eq_getElem _ _ hj₂] at this

theorem checkBlockSize_of_le {t : Nat} {ppm : PPM} (h : t ≤ ppm.width) :
    checkBlockSize t ppm = none := by
  unfold checkBlockSize
  have : ¬ (t > ppm.width) := by omega
  simp [this]

/-- The buffer left by the blocks of every row of the grid, the rows in the order of
`schedule`: each cell holds the stored value of its block, computed from the input. -/
theorem runBlocks_full {t : Nat} {ppm : PPM} (hwf : WellFormed ppm) (ht : 0 < t)
    (ht2 : t < 4294967296) (schedule : List Nat)
    (hperm : schedule.Perm (List.range (blocks ppm.height t))) :
    (runBlocks t ppm.width ppm.height (schedule ×ˢ List.range (blocks ppm.width t))
        ppm.pixels).length = 3 * ppm.width * ppm.height ∧
    ∀ j, j < 3 * ppm.width * ppm.height →
      (runBlocks t ppm.width ppm.height (schedule ×ˢ List.range (blocks ppm.width t))
        ppm.pixels).getD j 0 =
      storedValue ppm.pixels ppm.width ppm.height t (blockOf t ppm.width j).1
        (blockOf t ppm.width j).2 (j % 3) := by
  obtain ⟨hw, hh, hsz, hlen, _⟩ := hwf
  have hwh1 : ppm.width ≤ ppm.width * ppm.height := Nat.le_mul_of_pos_right _ hh
  have hwh2 : ppm.height ≤ ppm.width * ppm.height := Nat.le_mul_of_pos_left _ hw
  have hsz' : 3 * (ppm.width * ppm.height) < 2147483648 := by
    rw [← Nat.mul_assoc]; exact hsz
  have hnd : (schedule ×ˢ List.range (blocks ppm.width t)).Nodup :=
    List.Nodup.product ((hperm.nodup_iff).mpr (List.nodup_range _)) (List.nodup_range _)
  have hval : ∀ T : Nat × Nat, T ∈ (schedule ×ˢ List.range (blocks ppm.width t)) →
      T.1 * t < ppm.height ∧ T.2 * t < ppm.width := by
    intro T hT
    obtain ⟨h1, h2⟩ := List.mem_product.mp hT
    rw [hperm.mem_iff, List.mem_range] at h1
    rw [List.mem_range] at h2
    exact ⟨(lt_blocks_iff ht (by omega)).mp h1, (lt_blocks_iff ht (by omega)).mp h2⟩
  obtain ⟨hl, hres⟩ := runBlocks_spec hsz ht ht2 hw ppm.pixels _ hnd hval ppm.pixels hlen
    (fun _ _ _ => rfl)
  refine ⟨hl, fun j hj => (hres j hj).1 ?_⟩
  obtain ⟨hv1, hv2⟩ := blockOf_valid (t := t) ht hw hj
  apply List.mem_product.mpr
  refine ⟨?_, ?_⟩
  · rw [hperm.mem_iff, List.mem_range]
    exact (lt_blocks_iff ht (by omega)).mpr hv1
  · rw [List.mem_range]
    exact (lt_blocks_iff ht (by omega)).mpr hv2

theorem CPU_mosaic_eq (mode : MODE) {t : Nat} {ppm : PPM} (htw : t ≤ ppm.width) :
    ∃ r, CPU_mosaic mode t ppm = some r ∧
      r.ppm = withPixels ppm (runBlocks t ppm.width ppm.height
        (List.range (blocks ppm.height t) ×ˢ List.range (blocks ppm.width t)) ppm.pixels) := by
  unfold CPU_mosaic
  rw [checkBlockSize_of_le htw]
  exact ⟨_, rfl, cpu_rows_eq mode t _ _ ppm 0 0 0⟩

theorem OPENMP_mosaic_eq {mode : MODE} (hm : mode ≠ MODE.ALL) {t : Nat} {ppm : PPM}
    (htw : t ≤ ppm.width) (schedule : List Nat) :
    OPENMP_mosaic mode t schedule ppm =
      some (withPixels ppm (runBlocks t ppm.width ppm.height
        (schedule ×ˢ List.range (blocks ppm.width t)) ppm.pixels)) := by
  unfold OPENMP_mosaic
  rw [checkBlockSize_of_le htw]
  simp only []
  rw [omp_rows_eq mode hm]

theorem blockOf_pixel {t w y x c : Nat} (hx : x < w) (hc : c < 3) :
    blockOf t w (3 * (y * w + x) + c) = (y / t, x / t) ∧ (3 * (y * w + x) + c) % 3 = c := by
  have hw : 0 < w := by omega
  have e0 : (3 * (y * w + x) + c) / 3 = y * w + x := by omega
  have e1 : (y * w + x) / w = y := by
    rw [Nat.add_comm, Nat.add_mul_div_right _ _ hw, Nat.div_eq_of_lt hx, Nat.zero_add]
  have e2 : (y * w + x) % w = x := by
    rw [Nat.add_comm, Nat.add_mul_mod_self_right, Nat.mod_eq_of_lt hx]
  unfold blockOf
  rw [e0, e1, e2]
  exact ⟨rfl, by omega⟩

theorem pixel_offset_lt {w h y x c : Nat} (hy : y < h) (hx : x < w) (hc : c < 3) :
    3 * (y * w + x) + c < 3 * w * h := by
  have : y * w + x < h * w := by
    calc y * w + x < y * w + w := by omega
      _ = (y + 1) * w := by ring
      _ ≤ h * w := Nat.mul_le_mul_right _ hy
  have e : 3 * w * h = 3 * (h * w) := by ring
  omega

/-- What `CPU_mosaic` leaves in every sample of a well-formed image, in machine terms: the
wrapped `int` sum of the tile divided by the clipped tile area, as an `unsigned char`. -/
theorem CPU_mosaic_stored (mode : MODE) {t : Nat} {ppm : PPM} (hwf : WellFormed ppm)
    (ht : 0 < t) (htw : t ≤ ppm.width) :
    ∃ r, CPU_mosaic mode t ppm = some r ∧
      r.ppm.pixels.length = 3 * ppm.width * ppm.height ∧
      ∀ y, y < ppm.height → ∀ x, x < ppm.width → ∀ c, c < 3 →
        r.ppm.pixels.getD (3 * (y * ppm.width + x) + c) 0 =
          storedValue ppm.pixels ppm.width ppm.height t (y / t) (x / t) c := by
  obtain ⟨r, hr, hpix⟩ := CPU_mosaic_eq mode htw
  have hsz := hwf.2.2.1
  have hh := hwf.2.1
  have hwh1 : ppm.width ≤ ppm.width * ppm.height := Nat.le_mul_of_pos_right _ hh
  have hsz' : 3 * (ppm.width * ppm.height) < 2147483648 := by
    rw [← Nat.mul_assoc]; exact hsz
  obtain ⟨hl, hres⟩ := runBlocks_full hwf ht (by omega) (List.range (blocks ppm.height t))
    (List.Perm.refl _)
  refine ⟨r, hr, ?_, ?_⟩
  · rw [hpix]; exact hl
  · intro y hy x hx c hc
    obtain ⟨hb, hm⟩ := blockOf_pixel (t := t) (y := y) hx hc
    rw [hpix]
    show (runBlocks _ _ _ _ _).getD _ 0 = _
    rw [hres _ (pixel_offset_lt hy hx hc), hb, hm]

theorem getD_lt_of_forall {l : List Nat} (hl : ∀ b, b ∈ l → b < 256) (i : Nat) :
    l.getD i 0 < 256 := by
  by_cases h : i < l.length
  · rw [List.getD_eq_getElem _ _ h]
    exact hl _ (List.getElem_mem h)
  · rw [List.getD_eq_default _ _ (Nat.le_of_not_lt h)]
    decide

theorem tileChannelSum_le {pixels : List Nat} (hl : ∀ b, b ∈ pixels → b < 256)
    (w h t tr tc c : Nat) :
    tileChannelSum pixels w h t tr tc c ≤
      effectiveSide w t tc * effectiveSide h t tr * 255 := by
  unfold tileChannelSum
  calc _ ≤ ∑ _bh in Finset.range (effectiveSide h t tr),
        ∑ _bw in Finset.range (effectiveSide w t tc), 255 := by
        apply Finset.sum_le_sum
        intro bh _
        apply Finset.sum_le_sum
        intro bw _
        have := getD_lt_of_forall hl (3 * ((tr * t + bh) * w + (tc * t + bw)) + c)
        omega
    _ = effectiveSide w t tc * effectiveSide h t tr * 255 := by
        simp only [Finset.sum_const, Finset.card_range, smul_eq_mul]
        ring

/-- Without overflow of the `int` block sum the stored value is the truncated mean. -/
theorem storedValue_eq_tileMean {pixels : List Nat} (hl : ∀ b, b ∈ pixels → b < 256)
    {w h t tr tc c : Nat} (hsum : tileChannelSum pixels w h t tr tc c < 2147483648) :
    storedValue pixels w h t tr tc c = tileMean pixels w h t tr tc c := by
  unfold storedValue tileMean
  rw [toI32_of_range (by omega) (by omega), ← Int.ofNat_tdiv]
  apply toU8_of_lt
  have hle := tileChannelSum_le hl w h t tr tc c
  have : tileChannelSum pixels w h t tr tc c /
      (effectiveSide w t tc * effectiveSide h t tr) ≤ 255 :=
    Nat.div_le_of_le_mul (by rw [Nat.mul_comm] at hle; rw [Nat.mul_comm]; exact hle)
  omega

theorem wellFormed_uniformImage {w h v : Nat} (hw : 0 < w) (hh : 0 < h)
    (hsz : 3 * w * h < 2147483648) (hv : v < 256) : WellFormed (uniformImage w h v) := by
  refine ⟨hw, hh, hsz, List.length_replicate _ _, ?_⟩
  intro b hb
  rw [List.eq_of_mem_replicate hb]
  exact hv

theorem tileChannelSum_uniform {w h t tr tc c v : Nat} (hc : c < 3) :
    tileChannelSum (List.replicate (3 * w * h) v) w h t tr tc c =
      effectiveSide h t tr * (effectiveSide w t tc * v) := by
  unfold tileChannelSum
  have hcell : ∀ bh, bh ∈ Finset.range (effectiveSide h t tr) →
      ∀ bw, bw ∈ Finset.range (effectiveSide w t tc) →
      (List.replicate (3 * w * h) v).getD
        (3 * ((tr * t + bh) * w + (tc * t + bw)) + c) 0 = v := by
    intro bh hbh bw hbw
    rw [Finset.mem_range] at hbh hbw
    have hlt := cellIndex_lt hbh hbw
    unfold cellIndex at hlt
    have hwh : 3 * w * h = 3 * (h * w) := by ring
    have hi : 3 * ((tr * t + bh) * w + (tc * t + bw)) + c <
        (List.replicate (3 * w * h) v).length := by
      rw [List.length_replicate]; omega
    rw [List.getD_eq_getElem _ _ hi, List.getElem_replicate]
  rw [Finset.sum_congr rfl (fun bh hbh => Finset.sum_congr rfl (hcell bh hbh))]
  simp only [Finset.sum_const, Finset.card_range, smul_eq_mul]

theorem storedValue_uniform {w h t tr tc c v : Nat} (hc : c < 3) :
    storedValue (List.replicate (3 * w * h) v) w h t tr tc c =
      toU8 (Int.tdiv (toI32 ((effectiveSide h t tr * (effectiveSide w t tc * v) : Nat) : Int))
        ((effectiveSide w t tc * effectiveSide h t tr : Nat) : Int)) := by
  unfold storedValue
  rw [tileChannelSum_uniform hc]

theorem tileMean_uniform {w h t tr tc c v : Nat} (hc : c < 3) :
    tileMean (List.replicate (3 * w * h) v) w h t tr tc c =
      effectiveSide h t tr * (effectiveSide w t tc * v) /
        (effectiveSide w t tc * effectiveSide h t tr) := by
  unfold tileMean
  rw [tileChannelSum_uniform hc]

/-! ## Claims on the mosaic engine -/

/-- C1 (as amended): for a well-formed image (positive dimensions, `3 * w * h < 2^31` samples
below 256), a mode other than `ALL` and a tile size `1 ≤ t ≤ w`, `t ≤ h`, if no tile's channel
sum reaches `2^31` then `CPU_mosaic` returns and every channel of every pixel holds the
integer-truncated quotient of the channel sum over the original pixels of its tile by the
clipped tile area. -/
theorem CPU_mosaic_tile_mean (mode : MODE) (t : Nat) (ppm : PPM) (_hm : mode ≠ MODE.ALL)
    (hwf : WellFormed ppm) (ht : 1 ≤ t) (htw : t ≤ ppm.width) (_hth : t ≤ ppm.height)
    (hsum : ∀ tr, tr < blocks ppm.height t → ∀ tc, tc < blocks ppm.width t → ∀ c, c < 3 →
      tileChannelSum ppm.pixels ppm.width ppm.height t tr tc c < 2147483648) :
    ∃ r, CPU_mosaic mode t ppm = some r ∧
      r.ppm.pixels.length = 3 * ppm.width * ppm.height ∧
      ∀ y, y < ppm.height → ∀ x, x < ppm.width → ∀ c, c < 3 →
        r.ppm.pixels.getD (3 * (y * ppm.width + x) + c) 0 =
          tileMean ppm.pixels ppm.width ppm.height t (y / t) (x / t) c := by
  obtain ⟨r, hr, hl, hres⟩ := CPU_mosaic_stored mode hwf ht htw
  obtain ⟨hw, hh, hsz, _, hbytes⟩ := hwf
  have hwh1 : ppm.width ≤ ppm.width * ppm.height := Nat.le_mul_of_pos_right _ hh
  have hwh2 : ppm.height ≤ ppm.width * ppm.height := Nat.le_mul_of_pos_left _ hw
  have hsz' : 3 * (ppm.width * ppm.height) < 2147483648 := by
    rw [← Nat.mul_assoc]; exact hsz
  refine ⟨r, hr, hl, fun y hy x hx c hc => ?_⟩
  rw [hres y hy x hx c hc]
  apply storedValue_eq_tileMean hbytes
  apply hsum _ _ _ _ c hc
  · exact (lt_blocks_iff ht (by omega)).mpr (lt_of_le_of_lt (Nat.div_mul_le_self y t) hy)
  · exact (lt_blocks_iff ht (by omega)).mpr (lt_of_le_of_lt (Nat.div_mul_le_self x t) hx)

/-- C1, worked example: the `2 × 2` tile `(10,20,30),(12,22,32),(14,24,34),(16,26,36)`
with tile size 2 satisfies the hypotheses of the theorem above, and the transform
leaves `(13,23,33)` in every pixel. -/
theorem CPU_mosaic_tile_mean_witness :
    (∃ r, CPU_mosaic MODE.CPU 2 example2x2 = some r ∧
      r.ppm.pixels.length = 3 * example2x2.width * example2x2.height ∧
      ∀ y, y < example2x2.height → ∀ x, x < example2x2.width → ∀ c, c < 3 →
        r.ppm.pixels.getD (3 * (y * example2x2.width + x) + c) 0 =
          tileMean example2x2.pixels example2x2.width example2x2.height 2 (y / 2) (x / 2) c) ∧
    (CPU_mosaic MODE.CPU 2 example2x2).map (fun r => r.ppm.pixels) =
      some [13, 23, 33, 13, 23, 33, 13, 23, 33, 13, 23, 33] :=
  ⟨CPU_mosaic_tile_mean MODE.CPU 2 example2x2 (by decide)
    (by decide) (by decide) (by decide) (by decide) (by decide), by decide⟩

/-- C1 (as stated) fails when an `int` block sum overflows: on the `4096 × 6153` image
with every sample 255 and tile size 4096, the bottom tile (`4096 × 2057`) sums to
`2148495360 > 2^31 - 1`; `CPU_mosaic` leaves 2 in the red channel of pixel `(4096, 0)`, and
the truncated mean of the tile is 255. -/
theorem CPU_mosaic_tile_mean_overflow :
    WellFormed (uniformImage 4096 6153 255) ∧ 4096 ≤ (uniformImage 4096 6153 255).width ∧
    4096 ≤ (uniformImage 4096 6153 255).height ∧
    ∃ r, CPU_mosaic MODE.CPU 4096 (uniformImage 4096 6153 255) = some r ∧
      r.ppm.pixels.getD (3 * (4096 * 4096 + 0) + 0) 0 = 2 ∧
      tileMean (uniformImage 4096 6153 255).pixels 4096 6153 4096 (4096 / 4096) (0 / 4096) 0
        = 255 := by
  have hwf : WellFormed (uniformImage 4096 6153 255) :=
    wellFormed_uniformImage (by decide) (by decide) (by decide) (by decide)
  have hw : (uniformImage 4096 6153 255).width = 4096 := rfl
  have hh : (uniformImage 4096 6153 255).height = 6153 := rfl
  have hp : (uniformImage 4096 6153 255).pixels = List.replicate (3 * 4096 * 6153) 255 := rfl
  refine ⟨hwf, by rw [hw], by rw [hh]; decide, ?_⟩
  obtain ⟨r, hr, _, hres⟩ := CPU_mosaic_stored MODE.CPU (t := 4096) hwf (by decide)
    (by rw [hw])
  refine ⟨r, hr, ?_, ?_⟩
  · have h := hres 4096 (by rw [hh]; decide) 0 (by rw [hw]; decide) 0 (by decide)
    rw [hw, hh, hp] at h
    rw [h, storedValue_uniform (by decide)]
    decide
  · rw [hp, tileMean_uniform (by decide)]
    decide

/-- C2: for a well-formed image and a tile size that is a power of two and exceeds neither
the width nor the height, `CPU_mosaic` and `OPENMP_mosaic` (each in a mode other than `ALL`)
both return, with the same struct and byte-identical pixel buffers, whatever order
`schedule` the tile rows are processed in. -/
theorem CPU_OPENMP_same_output (mode mode' : MODE) (t : Nat) (ppm : PPM)
    (_hm : mode ≠ MODE.ALL) (hm' : mode' ≠ MODE.ALL) (hwf : WellFormed ppm)
    (hpow : ∃ k, t = 2 ^ k) (htw : t ≤ ppm.width) (_hth : t ≤ ppm.height)
    (schedule : List Nat) (hperm : schedule.Perm (List.range (blocks ppm.height t))) :
    ∃ r, CPU_mosaic mode t ppm = some r ∧ OPENMP_mosaic mode' t schedule ppm = some r.ppm := by
  obtain ⟨k, hk⟩ := hpow
  have ht : 0 < t := by rw [hk]; exact Nat.pos_pow_of_pos k (by decide)
  obtain ⟨r, hr, hpix⟩ := CPU_mosaic_eq mode htw
  refine ⟨r, hr, ?_⟩
  rw [OPENMP_mosaic_eq hm' htw, hpix]
  have hsz := hwf.2.2.1
  have hh := hwf.2.1
  have hwh1 : ppm.width ≤ ppm.width * ppm.height := Nat.le_mul_of_pos_right _ hh
  have hsz' : 3 * (ppm.width * ppm.height) < 2147483648 := by
    rw [← Nat.mul_assoc]; exact hsz
  obtain ⟨hl1, h1⟩ := runBlocks_full hwf ht (by omega) (List.range (blocks ppm.height t))
    (List.Perm.refl _)
  obtain ⟨hl2, h2⟩ := runBlocks_full hwf ht (by omega) schedule hperm
  congr 2
  exact ext_getD hl2 hl1 (fun j hj => by rw [h1 j hj, h2 j hj])

/-- C2, instance: the `4 × 4` example with tile size 2, the second tile row processed
before the first. -/
theorem CPU_OPENMP_same_output_witness :
    ∃ r, CPU_mosaic MODE.CPU 2 example4x4 = some r ∧
      OPENMP_mosaic MODE.OPENMP 2 [1, 0] example4x4 = some r.ppm :=
  CPU_OPENMP_same_output MODE.CPU MODE.OPENMP 2 example4x4 (by decide) (by decide)
    (by decide) ⟨1, rfl⟩ (by decide) (by decide) [1, 0]
    (by decide)

/-- C3 (code defect): with width 4, height 2 and block size 4 only the height is exceeded;
`checkBlockSize` returns instead of exiting and `CPU_mosaic` completes, overwriting every
pixel with the mean of the clipped `4 × 2` tile. -/
theorem checkBlockSize_misses_height :
    4 > example4x2.height ∧ checkBlockSize 4 example4x2 = none ∧
    (CPU_mosaic MODE.CPU 4 example4x2).map (fun r => r.ppm.pixels) =
      some [28, 28, 28, 28, 28, 28, 28, 28, 28, 28, 28, 28, 28, 28, 28, 28, 28, 28, 28, 28,
        28, 28, 28, 28] ∧
    (OPENMP_mosaic MODE.OPENMP 4 [0] example4x2).map (fun r => r.pixels) =
      some [28, 28, 28, 28, 28, 28, 28, 28, 28, 28, 28, 28, 28, 28, 28, 28, 28, 28, 28, 28,
        28, 28, 28, 28] := by
  decide

theorem blocks_eq_ceil {dim t : Nat} (hd : 0 < dim) (hd2 : dim < 4294967296) (ht : 0 < t) :
    blocks dim t = ⌈(dim : ℚ) / (t : ℚ)⌉₊ := by
  have hpos : 0 < blocks dim t := (lt_blocks_iff ht hd2).mpr (by omega)
  have h1 : (blocks dim t - 1) * t < dim :=
    (lt_blocks_iff ht hd2).mp (by omega)
  have h2 : dim ≤ blocks dim t * t := by
    by_contra hc
    exact absurd ((lt_blocks_iff ht hd2).mpr (Nat.lt_of_not_le hc)) (lt_irrefl _)
  have htq : (0 : ℚ) < (t : ℚ) := by exact_mod_cast ht
  symm
  rw [Nat.ceil_eq_iff (by omega)]
  constructor
  · rw [lt_div_iff₀ htq]
    exact_mod_cast h1
  · rw [div_le_iff₀ htq]
    exact_mod_cast h2

/-- C10: for an image whose byte count `3 * w * h` fits the 32-bit `size` field and a tile
size `t ≥ 1`, the block loops run over `ceil(w / t)` columns and `ceil(h / t)` rows; the
tile at `(tileRow, tileCol)` has effective width `min t (w - tileCol * t)` and effective
height `min t (h - tileRow * t)`, both at least 1, and the averaging divisor is their
product. -/
theorem tile_grid {w h t : Nat} (hw : 0 < w) (hh : 0 < h) (hsz : 3 * w * h < 4294967296)
    (ht : 1 ≤ t) (ht2 : t < 4294967296) :
    blocks w t = ⌈(w : ℚ) / (t : ℚ)⌉₊ ∧ blocks h t = ⌈(h : ℚ) / (t : ℚ)⌉₊ ∧
    ∀ tileRow, tileRow < blocks h t → ∀ tileCol, tileCol < blocks w t →
      dynamicBlock w t tileCol = min t (w - tileCol * t) ∧
      dynamicBlock h t tileRow = min t (h - tileRow * t) ∧
      1 ≤ dynamicBlock w t tileCol ∧ 1 ≤ dynamicBlock h t tileRow ∧
      averageDynamicSize (dynamicBlock w t tileCol) (dynamicBlock h t tileRow) =
        ((min t (w - tileCol * t) * min t (h - tileRow * t) : Nat) : Int) := by
  have hwh1 : w ≤ w * h := Nat.le_mul_of_pos_right _ hh
  have hwh2 : h ≤ w * h := Nat.le_mul_of_pos_left _ hw
  have hsz' : 3 * (w * h) < 4294967296 := by rw [← Nat.mul_assoc]; exact hsz
  refine ⟨blocks_eq_ceil hw (by omega) ht, blocks_eq_ceil hh (by omega) ht, ?_⟩
  intro tileRow hr tileCol hc
  have hr' := (lt_blocks_iff ht (by omega)).mp hr
  have hc' := (lt_blocks_iff ht (by omega)).mp hc
  have e1 := dynamicBlock_eq (by omega : w ≤ 2147483648) ht2 hc'
  have e2 := dynamicBlock_eq (by omega : h ≤ 2147483648) ht2 hr'
  have harea := effectiveSide_mul_le hr' hc'
  have p1 := effectiveSide_pos ht hc'
  have p2 := effectiveSide_pos ht hr'
  unfold averageDynamicSize
  rw [e1, e2]
  unfold effectiveSide at harea p1 p2 ⊢
  refine ⟨rfl, rfl, p1, p2, ?_⟩
  rw [u32_of_lt (by omega), toI32_of_range (by omega) (by omega)]

/-- C10, worked example: a `5 × 5` image with tile size 4 satisfies the hypotheses of the
theorem above; its grid has `2 × 2` tiles and the divisors are 16, 4, 4 and 1. -/
theorem tile_grid_witness :
    (blocks 5 4 = ⌈((5 : Nat) : ℚ) / ((4 : Nat) : ℚ)⌉₊ ∧
      blocks 5 4 = ⌈((5 : Nat) : ℚ) / ((4 : Nat) : ℚ)⌉₊ ∧
      ∀ tileRow, tileRow < blocks 5 4 → ∀ tileCol, tileCol < blocks 5 4 →
        dynamicBlock 5 4 tileCol = min 4 (5 - tileCol * 4) ∧
        dynamicBlock 5 4 tileRow = min 4 (5 - tileRow * 4) ∧
        1 ≤ dynamicBlock 5 4 tileCol ∧ 1 ≤ dynamicBlock 5 4 tileRow ∧
        averageDynamicSize (dynamicBlock 5 4 tileCol) (dynamicBlock 5 4 tileRow) =
          ((min 4 (5 - tileCol * 4) * min 4 (5 - tileRow * 4) : Nat) : Int)) ∧
    blocks 5 4 = 2 ∧
    (List.range (blocks 5 4) ×ˢ List.range (blocks 5 4)).map
      (fun T => averageDynamicSize (dynamicBlock 5 4 T.2) (dynamicBlock 5 4 T.1)) =
      [16, 4, 4, 1] :=
  ⟨tile_grid (w := 5) (h := 5) (t := 4) (by decide) (by decide) (by decide) (by decide)
    (by decide), by decide, by decide⟩

/-! ## The decoder at concrete inputs -/

/-- C4 (code defect): the PlainText file `P3 / 1 1 / 255 / 7 8` declares three samples and
holds two.  At the end of the input `fscanf` returns `EOF`, which `!fscanf(...)` does not
catch: `readPixels` stores 0 for the missing sample and returns 3, and `readPPM` returns
`SUCCESS`.  The same body in a Binary file is reported short (count 3 of 6 read as bytes
`'7'`, `' '`, `'8'`). -/
theorem readPPM_pads_short_plain_text :
    readPPM (some (bytes "P3\n1 1\n255\n7 8")) zeroPPM =
      some { exit := ReadExit.pixelsRead 3
             ppm := { tag := 3, width := 1, height := 1, maxColor := 255, pixels_count := 1
                      size := 3, pixels := [7, 8, 0], outputPixels := [] } } ∧
    (readPPM (some (bytes "P3\n1 1\n255\n7 8")) zeroPPM).map ReadResult.value = some true ∧
    (readPPM (some (bytes "P6\n1 2\n255\n7 8")) zeroPPM).map ReadResult.exit =
      some (ReadExit.pixelsRead 3) ∧
    (readPPM (some (bytes "P6\n1 2\n255\n7 8")) zeroPPM).map ReadResult.value = some false := by
  decide

/-- C5 (code defect): an empty file, and a file that ends after the height, leave the loop
without reaching `case PIXELS`, and `readPPM` returns `SUCCESS` by the `return` of line
149. -/
theorem readPPM_success_without_pixels :
    (∀ ppm : PPM, readPPM (some []) ppm = some { exit := ReadExit.loopEnd, ppm := ppm }) ∧
    (readPPM (some []) zeroPPM).map ReadResult.value = some true ∧
    (readPPM (some (bytes "P6\n4 4\n")) zeroPPM).map ReadResult.exit
      = some ReadExit.loopEnd ∧
    (readPPM (some (bytes "P6\n4 4\n")) zeroPPM).map ReadResult.value = some true := by
  refine ⟨fun ppm => rfl, by decide, by decide, by decide⟩

/-- C6 (code defect): the file `XX` has a first token that is neither `P6` nor `P3`; the
state becomes `FAILURE`, the loop is left and `readPPM` returns `SUCCESS` by the `return`
of line 149. -/
theorem readPPM_success_on_bad_tag :
    tokenLoop [] READING_PARAMS.TAG zeroPPM [bytes "XX"] =
      Sum.inl (READING_PARAMS.FAILURE, zeroPPM) ∧
    readPPM (some (bytes "XX\n")) zeroPPM =
      some { exit := ReadExit.loopEnd, ppm := zeroPPM } ∧
    (readPPM (some (bytes "XX\n")) zeroPPM).map ReadResult.value = some true := by
  decide

/-- C7 (as stated) fails: in `P6 / 12abc 1 / 255` followed by 36 bytes the width token
`12abc` is not a decimal integer, and `atoi` converts it to 12: `readPPM` allocates and
reads the 36 samples and returns `SUCCESS`.  The token `-5` converts to the nonzero width
4294967291, and the token `abc` (converted to 0) ends the parse with `SUCCESS`. -/
theorem readPPM_accepts_trailing_garbage :
    (readPPM (some (bytes "P6\n12abc 1\n255\n" ++ List.replicate 36 7)) zeroPPM).map
        (fun r => (r.exit, r.value, r.ppm.width, r.ppm.size, r.ppm.pixels.length)) =
      some (ReadExit.pixelsRead 36, true, 12, 36, 36) ∧
    toU32 (atoi (bytes "-5")) = 4294967291 ∧
    (readPPM (some (bytes "P6\nabc 1\n255\n")) zeroPPM).map
        (fun r => (r.exit, r.value)) = some (ReadExit.loopEnd, true) := by
  decide

/-! ## The decoder returns -/

theorem fgetsAux_length_le (k : Nat) (f : List Nat) : (fgetsAux k f).2.length ≤ f.length := by
  induction k generalizing f with
  | zero => simp [fgetsAux]
  | succ k ih =>
    cases f with
    | nil => simp [fgetsAux]
    | cons c f =>
      unfold fgetsAux
      split
      · simp
      · have := ih f
        simp only [List.length_cons]
        omega

theorem fgets_length_lt {f buf f' : List Nat} (h : fgets MAX_LINE f = some (buf, f')) :
    f'.length < f.length := by
  cases f with
  | nil => simp [fgets] at h
  | cons c f =>
    simp only [fgets, MAX_LINE, Option.some.injEq] at h
    have e : (fgetsAux (100 - 1) (c :: f)).2 = f' := by rw [h]
    rw [← e]
    show (fgetsAux (98 + 1) (c :: f)).2.length < (c :: f).length
    unfold fgetsAux
    split
    · simp
    · have := fgetsAux_length_le 98 f
      simp only [List.length_cons]
      omega

theorem readLines_returns (fuel : Nat) (rp : READING_PARAMS) (ppm : PPM) (f : List Nat)
    (hf : f.length < fuel) : ∃ r, readLines fuel rp ppm f = some r := by
  induction fuel generalizing rp ppm f with
  | zero => omega
  | succ fuel ih =>
    unfold readLines
    split
    · exact ⟨_, rfl⟩
    · split
      · exact ⟨_, rfl⟩
      · rename_i buf f' hg
        have hlt := fgets_length_lt hg
        split
        · split
          · exact ih _ _ _ (by omega)
          · exact ⟨_, rfl⟩
        · split
          · exact ih _ _ _ (by omega)
          · exact ⟨_, rfl⟩

/-- `readPPM` always returns: the bound on the number of lines is never reached. -/
theorem readPPM_returns (file : Option (List Nat)) (ppm : PPM) :
    ∃ r, readPPM file ppm = some r := by
  cases file with
  | none => exact ⟨_, rfl⟩
  | some f => exact readLines_returns _ _ _ _ (Nat.lt_succ_self _)

/-! ## The header fields that lead to the pixel read -/

theorem readPixels_fields (ppm : PPM) (f : List Nat) :
    (readPixels ppm f).2.width = ppm.width ∧ (readPixels ppm f).2.height = ppm.height ∧
    (readPixels ppm f).2.maxColor = ppm.maxColor ∧ (readPixels ppm f).2.size = ppm.size ∧
    (readPixels ppm f).2.tag = ppm.tag := by
  unfold readPixels
  split <;> exact ⟨rfl, rfl, rfl, rfl, rfl⟩

theorem readBody_fields (ppm : PPM) (f : List Nat) :
    (readBody ppm f).ppm.width = ppm.width ∧ (readBody ppm f).ppm.height = ppm.height ∧
    (readBody ppm f).ppm.maxColor = ppm.maxColor := by
  unfold readBody
  simp only []
  obtain ⟨h1, h2, h3, _, _⟩ := readPixels_fields
    { ppm with pixels_count := u32 (ppm.width * ppm.height)
               size := u32 (u32 (ppm.width * ppm.height) * 3)
               pixels := List.replicate (u32 (u32 (ppm.width * ppm.height) * 3)) 0 } f
  exact ⟨h1, h2, h3⟩

theorem headerInv_tag (c : Prop) [Decidable c] (ppm : PPM) :
    HeaderInv (if c then READING_PARAMS.WIDTH else READING_PARAMS.FAILURE) ppm := by
  split <;> simp [HeaderInv]

theorem tokenLoop_inv (f : List Nat) (toks : List (List Nat)) :
    ∀ (rp : READING_PARAMS) (ppm : PPM), HeaderInv rp ppm →
      (∀ rp' ppm', tokenLoop f rp ppm toks = Sum.inl (rp', ppm') → HeaderInv rp' ppm') ∧
      (∀ r, tokenLoop f rp ppm toks = Sum.inr r →
        r.ppm.width ≠ 0 ∧ r.ppm.height ≠ 0 ∧ r.ppm.maxColor ≠ 0) := by
  induction toks with
  | nil =>
    intro rp ppm hinv
    refine ⟨fun rp' ppm' h => ?_, fun r h => ?_⟩
    · cases rp <;> simp only [tokenLoop, Sum.inl.injEq, Prod.mk.injEq] at h <;>
        (obtain ⟨h1, h2⟩ := h; subst h1 h2; exact hinv)
    · cases rp <;> simp [tokenLoop] at h
  | cons token rest ih =>
    intro rp ppm hinv
    cases rp with
    | FAILURE =>
      refine ⟨fun rp' ppm' h => ?_, fun r h => ?_⟩
      · simp only [tokenLoop, Sum.inl.injEq, Prod.mk.injEq] at h
        obtain ⟨h1, h2⟩ := h; subst h1 h2; exact hinv
      · simp [tokenLoop] at h
    | TAG =>
      simp only [tokenLoop]
      apply ih
      exact headerInv_tag _ _
    | WIDTH =>
      simp only [tokenLoop]
      apply ih
      split
      · rename_i hw
        exact ⟨by simp, fun _ => hw, by simp⟩
      · simp [HeaderInv]
    | HEIGHT =>
      simp only [tokenLoop]
      apply ih
      split
      · rename_i hh
        exact ⟨by simp, by simp, fun _ => ⟨hinv.2.1 rfl, hh⟩⟩
      · simp [HeaderInv]
    | MAX_COLOR =>
      simp only [tokenLoop]
      split
      · rename_i hm
        refine ⟨fun rp' ppm' h => by simp at h, fun r h => ?_⟩
        simp only [Sum.inr.injEq] at h
        subst h
        obtain ⟨e1, e2, e3⟩ := readBody_fields
          { ppm with maxColor := toU32 (atoi token) } f
        rw [e1, e2, e3]
        exact ⟨(hinv.2.2 rfl).1, (hinv.2.2 rfl).2, hm⟩
      · apply ih
        simp [HeaderInv]
    | PIXELS => exact absurd rfl hinv.1

theorem readLines_inv (fuel : Nat) :
    ∀ (rp : READING_PARAMS) (ppm : PPM) (f : List Nat), HeaderInv rp ppm →
      ∀ r n, readLines fuel rp ppm f = some r → r.exit = ReadExit.pixelsRead n →
        r.ppm.width ≠ 0 ∧ r.ppm.height ≠ 0 ∧ r.ppm.maxColor ≠ 0 := by
  induction fuel with
  | zero => intro rp ppm f _ r n h; simp [readLines] at h
  | succ fuel ih =>
    intro rp ppm f hinv r n h hex
    unfold readLines at h
    split at h
    · simp only [Option.some.injEq] at h; subst h; simp at hex
    · split at h
      · simp only [Option.some.injEq] at h; subst h; simp at hex
      · split at h
        · split at h
          · exact ih _ _ _ hinv r n h hex
          · simp only [Option.some.injEq] at h; subst h; simp at hex
        · rename_i buf f' _ _
          obtain ⟨hl, hr⟩ := tokenLoop_inv f' (strtok (cstr buf)) rp ppm hinv
          split at h
          · rename_i rp' ppm' htl
            exact ih _ _ _ (hl _ _ htl) r n h hex
          · rename_i res htl
            simp only [Option.some.injEq] at h
            subst h
            exact hr _ htl

theorem tokenLoop_failure (f : List Nat) (ppm : PPM) (toks : List (List Nat)) :
    tokenLoop f READING_PARAMS.FAILURE ppm toks = Sum.inl (READING_PARAMS.FAILURE, ppm) := by
  cases toks <;> rfl

/-- C7 (as amended): `readPPM` gets to the allocation and the read of the pixels only with
a nonzero width, height and maxColor, each the value `atoi` gives for its token, reduced to
32 bits.  A token that `atoi` converts to zero (`0`, `abc`) in the state Width, Height or
MaxColor puts the parser in the failure state, from which the loop is left without any
allocation or read.  (Tokens such as `12abc` or `-5` convert to nonzero values and are
accepted; so is a numeral beyond the range of `long`, which `atoi` saturates to a value
whose low 32 bits are all ones, see `numerals_saturate`.) -/
theorem readPPM_pixels_need_nonzero_fields (file : List Nat) (ppm : PPM) (r : ReadResult)
    (n : Nat) (h : readPPM (some file) ppm = some r) (hex : r.exit = ReadExit.pixelsRead n) :
    (r.ppm.width ≠ 0 ∧ r.ppm.height ≠ 0 ∧ r.ppm.maxColor ≠ 0) ∧
    (∀ (f : List Nat) (p : PPM) (token : List Nat) (rest : List (List Nat)),
      toU32 (atoi token) = 0 →
        tokenLoop f READING_PARAMS.WIDTH p (token :: rest) =
          Sum.inl (READING_PARAMS.FAILURE, { p with width := 0 }) ∧
        tokenLoop f READING_PARAMS.HEIGHT p (token :: rest) =
          Sum.inl (READING_PARAMS.FAILURE, { p with height := 0 }) ∧
        tokenLoop f READING_PARAMS.MAX_COLOR p (token :: rest) =
          Sum.inl (READING_PARAMS.FAILURE, { p with maxColor := 0 })) ∧
    (∀ (fuel : Nat) (p : PPM) (f : List Nat),
      readLines (fuel + 1) READING_PARAMS.FAILURE p f =
        some { exit := ReadExit.loopEnd, ppm := p }) := by
  refine ⟨?_, ?_, fun fuel p f => rfl⟩
  · exact readLines_inv _ _ _ _ ⟨by simp, by simp, by simp⟩ r n h hex
  · intro f p token rest hz
    refine ⟨?_, ?_, ?_⟩ <;> simp only [tokenLoop, hz, ne_eq, not_true_eq_false, if_false] <;>
      exact tokenLoop_failure _ _ _

/-- C7, instance: a complete `2 × 2` Binary file reaches the pixel read, with the fields of
its header. -/
theorem readPPM_pixels_need_nonzero_fields_witness :
    readPPM (some (bytes "P6\n2 2\n255\n" ++ example2x2.pixels)) zeroPPM =
      some { exit := ReadExit.pixelsRead 12, ppm := example2x2 } ∧
    (example2x2.width ≠ 0 ∧ example2x2.height ≠ 0 ∧ example2x2.maxColor ≠ 0) ∧
    toU32 (atoi (bytes "abc")) = 0 ∧
    tokenLoop [] READING_PARAMS.WIDTH zeroPPM [bytes "abc"] =
      Sum.inl (READING_PARAMS.FAILURE, { zeroPPM with width := 0 }) :=
  ⟨by decide,
   (readPPM_pixels_need_nonzero_fields (bytes "P6\n2 2\n255\n" ++ example2x2.pixels) zeroPPM
      { exit := ReadExit.pixelsRead 12, ppm := example2x2 } 12 (by decide) rfl).1,
   by decide,
   ((readPPM_pixels_need_nonzero_fields (bytes "P6\n2 2\n255\n" ++ example2x2.pixels) zeroPPM
      { exit := ReadExit.pixelsRead 12, ppm := example2x2 } 12 (by decide) rfl).2.1
      [] zeroPPM (bytes "abc") [] (by decide)).1⟩

/-! ## The plain-text pixel loop -/

theorem storeValues_length (pixels : List Nat) (i : Nat) (vs : List Int) :
    (storeValues pixels i vs).length = pixels.length := by
  induction vs generalizing pixels i with
  | nil => rfl
  | cons v vs ih => simp [storeValues, ih]

theorem storeValues_getD (vs : List Int) :
    ∀ (pixels : List Nat) (i j : Nat), i + vs.length ≤ pixels.length →
      (storeValues pixels i vs).getD j 0 =
        if i ≤ j ∧ j < i + vs.length then toU8 (toU32 (vs.getD (j - i) 0))
        else pixels.getD j 0 := by
  induction vs with
  | nil =>
    intro pixels i j _
    have h : ¬ (i ≤ j ∧ j < i + ([] : List Int).length) := by
      simp only [List.length_nil]; omega
    rw [if_neg h]
    rfl
  | cons v vs ih =>
    intro pixels i j hlen
    simp only [List.length_cons] at hlen
    simp only [storeValues, List.length_cons]
    rw [ih _ _ _ (by simp only [List.length_set]; omega), getD_set_eq]
    by_cases h1 : i + 1 ≤ j ∧ j < i + 1 + vs.length
    · have h2 : i ≤ j ∧ j < i + (vs.length + 1) := by omega
      have h3 : j - i = (j - (i + 1)) + 1 := by omega
      rw [if_pos h1, if_pos h2, h3, List.getD_cons_succ]
    · rw [if_neg h1]
      by_cases h4 : i = j
      · subst h4
        have h5 : i = i ∧ i < pixels.length := ⟨rfl, by omega⟩
        have h6 : i ≤ i ∧ i < i + (vs.length + 1) := by omega
        rw [if_pos h5, if_pos h6, Nat.sub_self, List.getD_cons_zero]
      · have h5 : ¬ (i = j ∧ i < pixels.length) := fun h => h4 h.1
        have h6 : ¬ (i ≤ j ∧ j < i + (vs.length + 1)) := by omega
        rw [if_neg h5, if_neg h6]

theorem readPixelsLoop_stops (maxColor : Nat) (vs : List Int) :
    ∀ (body rest : List Nat) (remaining i : Nat) (pixels : List Nat),
      scanMany vs.length body = some (vs, rest) →
      (∀ v, v ∈ vs → toU32 v ≤ maxColor) → vs.length < remaining →
      (fscanf_d rest = ScanResult.noMatch ∨
        ∃ v r, fscanf_d rest = ScanResult.value v r ∧ toU32 v > maxColor) →
      readPixelsLoop maxColor remaining i pixels body =
        (i + vs.length, storeValues pixels i vs) := by
  induction vs with
  | nil =>
    intro body rest remaining i pixels hscan _ hrem hbad
    simp only [scanMany, List.length_nil, Option.some.injEq, Prod.mk.injEq, true_and] at hscan
    subst hscan
    obtain ⟨k, rfl⟩ : ∃ k, remaining = k + 1 := ⟨remaining - 1, by
      simp only [List.length_nil] at hrem; omega⟩
    unfold readPixelsLoop
    rcases hbad with h | ⟨v, r, h, hv⟩
    · rw [h]; rfl
    · rw [h]; simp only [hv, if_true]; rfl
  | cons v vs ih =>
    intro body rest remaining i pixels hscan hok hrem hbad
    simp only [List.length_cons] at hscan hrem
    obtain ⟨k, rfl⟩ : ∃ k, remaining = k + 1 := ⟨remaining - 1, by omega⟩
    unfold scanMany at hscan
    split at hscan
    · rename_i v' rest' hf
      split at hscan
      · rename_i r' hr'
        simp only [Option.some.injEq, Prod.mk.injEq, List.cons.injEq] at hscan
        obtain ⟨⟨hv, hvs⟩, hrest⟩ := hscan
        subst hv
        have hle : ¬ (toU32 v' > maxColor) := by
          have := hok v' (List.mem_cons_self _ _)
          omega
        have hscan' : scanMany vs.length rest' = some (vs, rest) := by
          rw [hr', ← hvs, ← hrest]
        unfold readPixelsLoop
        rw [hf]
        simp only [hle, if_false]
        rw [ih rest' rest k (i + 1) _ hscan'
          (fun w hw => hok w (List.mem_cons_of_mem _ hw)) (by omega) hbad]
        simp only [storeValues, List.length_cons]
        congr 1
        omega
      · simp at hscan
    · simp at hscan

/-- C9 (as stated) fails for a maxColor above 255: with maxColor 1000 and the body
`300 2000`, `readPixels` stops at 2000 and returns 1, and the sample before that index is
44, not the parsed value 300. -/
theorem readPixels_sample_differs_from_value :
    fscanf_d (bytes "300 2000") = ScanResult.value 300 (bytes " 2000") ∧
    readPixels (plainPixel 1000) (bytes "300 2000") =
      (1, { plainPixel 1000 with pixels := [44, 0, 0] }) ∧
    (readPixels (plainPixel 1000) (bytes "300 2000")).2.pixels.getD 0 0 ≠ 300 ∧
    (readPPM (some (bytes "P3\n1 1\n1000\n300 2000")) zeroPPM).map
      (fun r => (r.exit, r.value, r.ppm.pixels)) =
      some (ReadExit.pixelsRead 1, false, [44, 0, 0]) := by
  decide

/-- C9 (as amended): in a PlainText body, let `vs` be the values of the successful
`fscanf` calls (as `fscanf_d` gives them, saturated at the range of `long`) up to the first
position where `fscanf` reports a matching failure or gives
a value that, as an `unsigned int`, exceeds maxColor, this position being among the `size`
samples.  Then `readPixels` returns the number of values before it, every sample before
that index holds the value converted to `unsigned char` (the value itself, as an
`unsigned int`, when maxColor is at most 255), the samples from that index on are as they
were, and the value returned by `readPPM`, `processed_pixels == ppm->size`, is `FAILURE`. -/
theorem readPixels_stops_at_offending_value (ppm : PPM) (body : List Nat) (vs : List Int)
    (rest : List Nat) (htag : ppm.tag ≠ OUTPUT_FORMAT.PPM_BINARY.code)
    (hlen : ppm.pixels.length = ppm.size)
    (hscan : scanMany vs.length body = some (vs, rest))
    (hok : ∀ v, v ∈ vs → toU32 v ≤ ppm.maxColor) (hk : vs.length < ppm.size)
    (hbad : fscanf_d rest = ScanResult.noMatch ∨
      ∃ v r, fscanf_d rest = ScanResult.value v r ∧ toU32 v > ppm.maxColor) :
    (readPixels ppm body).1 = vs.length ∧
    (∀ j, j < vs.length →
      (readPixels ppm body).2.pixels.getD j 0 = toU8 (toU32 (vs.getD j 0))) ∧
    (ppm.maxColor ≤ 255 → ∀ j, j < vs.length →
      (readPixels ppm body).2.pixels.getD j 0 = toU32 (vs.getD j 0)) ∧
    (∀ j, vs.length ≤ j →
      (readPixels ppm body).2.pixels.getD j 0 = ppm.pixels.getD j 0) ∧
    ReadResult.value { exit := ReadExit.pixelsRead (readPixels ppm body).1
                       ppm := (readPixels ppm body).2 } = false := by
  have hloop := readPixelsLoop_stops ppm.maxColor vs body rest ppm.size 0 ppm.pixels hscan hok
    hk hbad
  have hrp : readPixels ppm body =
      (vs.length, { ppm with pixels := storeValues ppm.pixels 0 vs }) := by
    unfold readPixels
    rw [if_neg htag, hloop]
    simp
  have hget := storeValues_getD vs ppm.pixels 0
  have hstored : ∀ j, j < vs.length →
      (storeValues ppm.pixels 0 vs).getD j 0 = toU8 (toU32 (vs.getD j 0)) := by
    intro j hj
    rw [hget j (by omega), if_pos (by omega), Nat.sub_zero]
  rw [hrp]
  refine ⟨rfl, hstored, ?_, ?_, ?_⟩
  · intro hmc j hj
    show (storeValues ppm.pixels 0 vs).getD j 0 = _
    rw [hstored j hj]
    have hmem : vs.getD j 0 ∈ vs := by
      rw [List.getD_eq_getElem _ _ hj]; exact List.getElem_mem hj
    have := hok _ hmem
    unfold toU8
    omega
  · intro j hj
    show (storeValues ppm.pixels 0 vs).getD j 0 = _
    rw [hget j (by omega), if_neg (by omega)]
  · show (vs.length == ppm.size) = false
    simp only [beq_eq_false_iff_ne, ne_eq]
    omega

/-- C9, instance: maxColor 255 and the body `7 300 9`; the loop stops at 300 with one value
read. -/
theorem readPixels_stops_at_offending_value_witness :
    (readPixels (plainPixel 255) (bytes "7 300 9")).1 = [(7 : Int)].length ∧
    (∀ j, j < [(7 : Int)].length →
      (readPixels (plainPixel 255) (bytes "7 300 9")).2.pixels.getD j 0 =
        toU8 (toU32 ([(7 : Int)].getD j 0))) ∧
    ((plainPixel 255).maxColor ≤ 255 → ∀ j, j < [(7 : Int)].length →
      (readPixels (plainPixel 255) (bytes "7 300 9")).2.pixels.getD j 0 =
        toU32 ([(7 : Int)].getD j 0)) ∧
    (∀ j, [(7 : Int)].length ≤ j →
      (readPixels (plainPixel 255) (bytes "7 300 9")).2.pixels.getD j 0 =
        (plainPixel 255).pixels.getD j 0) ∧
    ReadResult.value { exit := ReadExit.pixelsRead
                         (readPixels (plainPixel 255) (bytes "7 300 9")).1
                       ppm := (readPixels (plainPixel 255) (bytes "7 300 9")).2 } = false :=
  readPixels_stops_at_offending_value (plainPixel 255) (bytes "7 300 9") [7] (bytes " 300 9")
    (by decide) (by decide) (by decide) (by decide) (by decide)
    (Or.inr ⟨300, bytes " 9", by decide, by decide⟩)

/-! ## Printing and reading decimal numbers -/

theorem decimalFuel_eq (fuel₁ : Nat) :
    ∀ (fuel₂ n : Nat), n < fuel₁ → n < fuel₂ → decimalFuel fuel₁ n = decimalFuel fuel₂ n := by
  induction fuel₁ with
  | zero => intro _ n h; omega
  | succ fuel₁ ih =>
    intro fuel₂ n h₁ h₂
    obtain ⟨k, rfl⟩ : ∃ k, fuel₂ = k + 1 := ⟨fuel₂ - 1, by omega⟩
    unfold decimalFuel
    split
    · rfl
    · have hd : n / 10 < n := Nat.div_lt_self (by omega) (by decide)
      rw [ih k (n / 10) (by omega) (by omega)]

theorem decimal_eq (n : Nat) :
    decimal n = if n < 10 then [48 + n] else decimal (n / 10) ++ [48 + n % 10] := by
  show decimalFuel (n + 1) n = _
  rw [decimalFuel]
  split
  · rfl
  · have hd : n / 10 < n := Nat.div_lt_self (by omega) (by decide)
    rw [decimalFuel_eq n (n / 10 + 1) (n / 10) hd (Nat.lt_succ_self _)]
    rfl

theorem decimal_spec (n : Nat) :
    (∀ c, c ∈ decimal n → isDigit c = true) ∧ decimal n ≠ [] ∧ digitsValue (decimal n) 0 = n := by
  induction n using Nat.strong_induction_on with
  | _ n ih =>
    rw [decimal_eq]
    split
    · rename_i h
      refine ⟨?_, by simp, ?_⟩
      · intro c hc
        simp only [List.mem_singleton] at hc
        subst hc
        simp only [isDigit, Bool.and_eq_true, decide_eq_true_eq]
        omega
      · simp [digitsValue]
    · rename_i h
      have hd : n / 10 < n := Nat.div_lt_self (by omega) (by decide)
      obtain ⟨h1, _, h3⟩ := ih (n / 10) hd
      refine ⟨?_, by simp, ?_⟩
      · intro c hc
        rcases List.mem_append.mp hc with hc | hc
        · exact h1 c hc
        · simp only [List.mem_singleton] at hc
          subst hc
          simp only [isDigit, Bool.and_eq_true, decide_eq_true_eq]
          omega
      · unfold digitsValue at h3 ⊢
        rw [List.foldl_append, h3]
        simp only [List.foldl_cons, List.foldl_nil]
        omega

theorem decimal_length_le (k : Nat) : ∀ n, n < 10 ^ (k + 1) → (decimal n).length ≤ k + 1 := by
  induction k with
  | zero =>
    intro n h
    rw [decimal_eq, if_pos (by simpa using h)]
    simp
  | succ k ih =>
    intro n h
    rw [decimal_eq]
    split
    · simp
    · have : n / 10 < 10 ^ (k + 1) := by
        rw [Nat.div_lt_iff_lt_mul (by decide)]
        rw [pow_succ] at h
        exact h
      have := ih _ this
      simp only [List.length_append, List.length_singleton]
      omega

theorem scanDigits_append (ds : List Nat) (hds : ∀ c, c ∈ ds → isDigit c = true) :
    ∀ (rest : List Nat) (acc : Nat),
      scanDigits (ds ++ rest) acc = scanDigits rest (digitsValue ds acc) := by
  induction ds with
  | nil => intro rest acc; rfl
  | cons d ds ih =>
    intro rest acc
    have hd := hds d (List.mem_cons_self _ _)
    show (if isDigit d = true then scanDigits (ds ++ rest) (acc * 10 + (d - 48))
      else (acc, d :: (ds ++ rest))) = _
    rw [if_pos hd, ih (fun c hc => hds c (List.mem_cons_of_mem _ hc))]
    rfl

theorem scanDigits_stop (rest : List Nat) (acc : Nat)
    (h : ∀ c, rest.head? = some c → isDigit c = false) : scanDigits rest acc = (acc, rest) := by
  cases rest with
  | nil => rfl
  | cons c cs =>
    have := h c rfl
    simp [scanDigits, this]

/-- Reading back a printed natural number that is followed by a non-digit. -/
theorem scanDigits_decimal (n : Nat) (rest : List Nat)
    (h : ∀ c, rest.head? = some c → isDigit c = false) :
    scanDigits (decimal n ++ rest) 0 = (n, rest) := by
  obtain ⟨h1, _, h3⟩ := decimal_spec n
  rw [scanDigits_append _ h1, h3, scanDigits_stop _ _ h]

theorem decimal_head (n : Nat) : ∃ c cs, decimal n = c :: cs ∧ isDigit c = true := by
  obtain ⟨h1, h2, _⟩ := decimal_spec n
  cases hd : decimal n with
  | nil => exact absurd hd h2
  | cons c cs => exact ⟨c, cs, rfl, h1 c (by rw [hd]; exact List.mem_cons_self _ _)⟩

theorem printInt_natCast (n : Nat) : printInt (n : Int) = decimal n := by
  unfold printInt
  have : ¬ ((n : Int) < 0) := by omega
  rw [if_neg this, Int.toNat_ofNat]

theorem printInt_chars (z : Int) : ∀ c, c ∈ printInt z → c = 45 ∨ isDigit c = true := by
  intro c hc
  unfold printInt at hc
  split at hc
  · rcases List.mem_cons.mp hc with h | h
    · exact Or.inl h
    · exact Or.inr ((decimal_spec _).1 c h)
  · exact Or.inr ((decimal_spec _).1 c hc)

theorem printInt_ne_nil (z : Int) : printInt z ≠ [] := by
  unfold printInt
  split
  · simp
  · exact (decimal_spec _).2.1

theorem printInt_length (z : Int) (h1 : -10000000000 < z) (h2 : z < 10000000000) :
    (printInt z).length ≤ 11 := by
  unfold printInt
  split
  · have := decimal_length_le 9 (-z).toNat (by norm_num; omega)
    simp only [List.length_cons]
    omega
  · have := decimal_length_le 9 z.toNat (by norm_num; omega)
    omega

theorem dropWhile_isSpace_of_head (c : Nat) (cs : List Nat) (h : isSpace c = false) :
    (c :: cs).dropWhile isSpace = c :: cs := by
  simp [List.dropWhile, h]

theorem isDigit_facts {c : Nat} (h : isDigit c = true) :
    isSpace c = false ∧ isDelim c = false ∧ c ≠ 45 ∧ c ≠ 43 ∧ c ≠ 0 ∧ c ≠ 35 ∧ c ≠ 10 := by
  simp only [isDigit, Bool.and_eq_true, decide_eq_true_eq] at h
  refine ⟨?_, ?_, by omega, by omega, by omega, by omega, by omega⟩
  · simp only [isSpace, Bool.or_eq_false_iff, beq_eq_false_iff_ne, ne_eq, Bool.and_eq_false_imp,
      decide_eq_true_eq, decide_eq_false_iff_not]
    omega
  · simp only [isDelim, Bool.or_eq_false_iff, beq_eq_false_iff_ne, ne_eq]
    omega

theorem clampLong_of_range {z : Int} (h1 : -9223372036854775808 ≤ z)
    (h2 : z ≤ 9223372036854775807) : clampLong z = z := by
  unfold clampLong
  rw [if_neg (by omega), if_neg (by omega)]

theorem atoi_printInt (z : Int) (h1 : -9223372036854775808 ≤ z)
    (h2 : z ≤ 9223372036854775807) : atoi (printInt z) = z := by
  unfold printInt
  split
  · rename_i hz
    unfold atoi
    rw [dropWhile_isSpace_of_head 45 _ (by decide)]
    have := scanDigits_decimal (-z).toNat [] (by simp)
    rw [List.append_nil] at this
    simp only [if_true, this]
    rw [clampLong_of_range (by omega) (by omega)]
    omega
  · rename_i hz
    obtain ⟨c, cs, hc, hd⟩ := decimal_head z.toNat
    obtain ⟨h1, _, h3, h4, _⟩ := isDigit_facts hd
    have := scanDigits_decimal z.toNat [] (by simp)
    rw [List.append_nil, hc] at this
    unfold atoi
    rw [hc, dropWhile_isSpace_of_head c cs h1]
    simp only [h3, h4, if_false, this]
    rw [clampLong_of_range (by omega) (by omega)]
    omega

theorem tokenChars_printInt (z : Int) :
    TokenChars (printInt z) ∧ (printInt z).head? ≠ some 35 := by
  constructor
  · intro c hc
    rcases printInt_chars z c hc with h | h
    · subst h; decide
    · obtain ⟨_, h2, _, _, h5, _⟩ := isDigit_facts h
      exact ⟨h5, h2⟩
  · intro hh
    have hmem : 35 ∈ printInt z := List.mem_of_mem_head? hh
    rcases printInt_chars z 35 hmem with h | h
    · omega
    · exact absurd h (by decide)

theorem fgetsAux_line (l rest : List Nat) (hl : ∀ c, c ∈ l → c ≠ 10) :
    ∀ k, l.length < k → fgetsAux k (l ++ 10 :: rest) = (l ++ [10], rest) := by
  induction l with
  | nil =>
    intro k hk
    obtain ⟨k', rfl⟩ : ∃ k', k = k' + 1 := ⟨k - 1, by simp at hk; omega⟩
    simp [fgetsAux]
  | cons c l ih =>
    intro k hk
    simp only [List.length_cons] at hk
    obtain ⟨k', rfl⟩ : ∃ k', k = k' + 1 := ⟨k - 1, by omega⟩
    have hc : c ≠ 10 := hl c (List.mem_cons_self _ _)
    have := ih (fun d hd => hl d (List.mem_cons_of_mem _ hd)) k' (by omega)
    simp only [List.cons_append, fgetsAux, hc, if_false, List.append_eq, this]

theorem isDelim_ten : isDelim 10 = true := by decide

theorem tokenChars_ne_ten {l : List Nat} (h : TokenChars l) : ∀ c, c ∈ l → c ≠ 10 := by
  intro c hc h10
  have := (h c hc).2
  rw [h10] at this
  exact absurd this (by decide)

theorem cstr_line {l : List Nat} (h : TokenChars l) : cstr (l ++ [10]) = l ++ [10] := by
  unfold cstr
  rw [List.takeWhile_eq_self_iff]
  intro c hc
  rcases List.mem_append.mp hc with hc | hc
  · simpa using (h c hc).1
  · simp only [List.mem_singleton] at hc
    subst hc
    decide

theorem tokensAux_line (l : List Nat) (h : TokenChars l) :
    ∀ cur : List Nat, cur.reverse ++ l ≠ [] →
      tokensAux (l ++ [10]) cur = [cur.reverse ++ l] := by
  induction l with
  | nil =>
    intro cur hne
    have hc : cur ≠ [] := by
      intro h0; apply hne; simp [h0]
    simp [tokensAux, isDelim_ten, hc]
  | cons c l ih =>
    intro cur _
    have hd : isDelim c = false := (h c (List.mem_cons_self _ _)).2
    simp only [List.cons_append, tokensAux, hd, List.append_eq]
    rw [if_neg (by simp)]
    rw [ih (fun d hd => h d (List.mem_cons_of_mem _ hd)) (c :: cur) (by simp)]
    simp

theorem strtok_line {l : List Nat} (h : TokenChars l) (hne : l ≠ []) :
    strtok (l ++ [10]) = [l] := by
  unfold strtok
  rw [tokensAux_line l h [] (by simpa using hne)]
  simp

/-- One pass of the loop of `readPPM` over a line that holds a single token. -/
theorem readLines_line (fuel : Nat) (rp : READING_PARAMS) (ppm : PPM) (l rest : List Nat)
    (hrp : rp ≠ READING_PARAMS.FAILURE) (hne : l ≠ []) (hch : TokenChars l)
    (hhead : l.head? ≠ some 35) (hlen : l.length < 99) :
    readLines (fuel + 1) rp ppm (l ++ 10 :: rest) =
      match tokenLoop rest rp ppm [l] with
      | Sum.inl (rp', ppm') => readLines fuel rp' ppm' rest
      | Sum.inr result => some result := by
  have hfg : fgets MAX_LINE (l ++ 10 :: rest) = some (l ++ [10], rest) := by
    cases hl : l ++ 10 :: rest with
    | nil => simp at hl
    | cons c cs =>
      show some (fgetsAux (100 - 1) (c :: cs)) = _
      rw [← hl, fgetsAux_line l rest (tokenChars_ne_ten hch) _ (by omega)]
  have hhd : (l ++ [10]).head? = l.head? := by
    cases l with
    | nil => exact absurd rfl hne
    | cons c cs => rfl
  conv_lhs => unfold readLines
  rw [if_neg hrp, hfg]
  simp only [cstr_line hch, hhd, hhead, if_false, strtok_line hch hne]

/-! ## Reading back a written header -/

theorem toU32_toI32 {n : Nat} (h : n < 4294967296) : toU32 (toI32 (n : Int)) = n := by
  unfold toU32 toI32; omega

theorem toI32_bounds (z : Int) : -2147483648 ≤ toI32 z ∧ toI32 z < 2147483648 := by
  unfold toI32; omega

theorem tokenLoop_tag (f : List Nat) (ppm : PPM) (F : OUTPUT_FORMAT) :
    tokenLoop f READING_PARAMS.TAG ppm [80 :: printInt (F.code : Nat)] =
      Sum.inl (READING_PARAMS.WIDTH, { ppm with tag := F.code }) := by
  cases F
  · have e : (80 :: printInt ((OUTPUT_FORMAT.PPM_BINARY.code : Nat) : Int)) = bytes "P6" := by
      decide
    rw [e]
    have h2 : ¬ (bytes "P6" = bytes "P3") := by decide
    simp only [tokenLoop, if_true, h2, if_false]
  · have e : (80 :: printInt ((OUTPUT_FORMAT.PPM_PLAIN_TEXT.code : Nat) : Int)) =
        bytes "P3" := by decide
    rw [e]
    have h2 : ¬ (bytes "P3" = bytes "P6") := by decide
    simp only [tokenLoop, if_true, h2, if_false]

theorem tokenLoop_width (f : List Nat) (ppm : PPM) (token : List Nat)
    (h : toU32 (atoi token) ≠ 0) :
    tokenLoop f READING_PARAMS.WIDTH ppm [token] =
      Sum.inl (READING_PARAMS.HEIGHT, { ppm with width := toU32 (atoi token) }) := by
  simp only [tokenLoop, ne_eq, h, not_false_eq_true, if_true]

theorem tokenLoop_height (f : List Nat) (ppm : PPM) (token : List Nat)
    (h : toU32 (atoi token) ≠ 0) :
    tokenLoop f READING_PARAMS.HEIGHT ppm [token] =
      Sum.inl (READING_PARAMS.MAX_COLOR, { ppm with height := toU32 (atoi token) }) := by
  simp only [tokenLoop, ne_eq, h, not_false_eq_true, if_true]

theorem tokenLoop_maxColor (f : List Nat) (ppm : PPM) (token : List Nat)
    (h : toU32 (atoi token) ≠ 0) :
    tokenLoop f READING_PARAMS.MAX_COLOR ppm [token] =
      Sum.inr (readBody { ppm with maxColor := toU32 (atoi token) } f) := by
  simp only [tokenLoop, ne_eq, h, not_false_eq_true, if_true]

theorem tokenChars_tag (F : OUTPUT_FORMAT) :
    TokenChars (80 :: printInt (F.code : Nat)) ∧
    (80 :: printInt (F.code : Nat)).head? ≠ some 35 ∧
    (80 :: printInt (F.code : Nat)).length < 99 := by
  refine ⟨?_, by simp, ?_⟩
  · intro c hc
    rcases List.mem_cons.mp hc with h | h
    · subst h; decide
    · exact (tokenChars_printInt _).1 c h
  · have := printInt_length (F.code : Nat) (by cases F <;> decide) (by cases F <;> decide)
    simp only [List.length_cons]
    omega

theorem printInt_field {n : Nat} :
    printInt (toI32 (n : Int)) ≠ [] ∧ TokenChars (printInt (toI32 (n : Int))) ∧
    (printInt (toI32 (n : Int))).head? ≠ some 35 ∧ (printInt (toI32 (n : Int))).length < 99 := by
  obtain ⟨b1, b2⟩ := toI32_bounds (n : Int)
  have := printInt_length (toI32 (n : Int)) (by omega) (by omega)
  exact ⟨printInt_ne_nil _, (tokenChars_printInt _).1, (tokenChars_printInt _).2, by omega⟩

theorem header_shape (A B C D body : List Nat) :
    [80] ++ A ++ [10] ++ B ++ [10] ++ C ++ [10] ++ D ++ [10] ++ body =
      (80 :: A) ++ 10 :: (B ++ 10 :: (C ++ 10 :: (D ++ 10 :: body))) := by
  simp

theorem header_length (A B C D body : List Nat) :
    ∃ k, ((80 :: A) ++ 10 :: (B ++ 10 :: (C ++ 10 :: (D ++ 10 :: body)))).length + 1 = k + 4 := by
  refine ⟨((80 :: A) ++ 10 :: (B ++ 10 :: (C ++ 10 :: (D ++ 10 :: body)))).length - 3, ?_⟩
  simp only [List.length_append, List.length_cons]
  omega

theorem toU32_atoi_printInt {n : Nat} (h : n < 4294967296) :
    toU32 (atoi (printInt (toI32 (n : Int)))) = n := by
  have hb := toI32_bounds (n : Int)
  have e := atoi_printInt (toI32 (n : Int)) (by omega) (by omega)
  rw [e, toU32_toI32 h]

/-- `readPPM` on a file that starts with a header written by `writeToFile`: the four fields
are read back and the pixel read starts right after the header. -/
theorem readPPM_writeHeader (p : PPM) (F : OUTPUT_FORMAT) (body : List Nat) (ppm0 : PPM)
    (hw : p.width ≠ 0) (hw2 : p.width < 4294967296) (hh : p.height ≠ 0)
    (hh2 : p.height < 4294967296) (hm : p.maxColor ≠ 0) (hm2 : p.maxColor < 4294967296) :
    readPPM (some (writeHeader p F ++ body)) ppm0 =
      some (readBody { ppm0 with tag := F.code, width := p.width, height := p.height
                                 maxColor := p.maxColor } body) := by
  have hfile : writeHeader p F ++ body =
      (80 :: printInt (F.code : Nat)) ++ 10 :: (printInt (toI32 (p.width : Int)) ++ 10 ::
        (printInt (toI32 (p.height : Int)) ++ 10 ::
          (printInt (toI32 (p.maxColor : Int)) ++ 10 :: body))) :=
    header_shape _ _ _ _ body
  obtain ⟨k, hk⟩ := header_length (printInt (F.code : Nat)) (printInt (toI32 (p.width : Int)))
    (printInt (toI32 (p.height : Int))) (printInt (toI32 (p.maxColor : Int))) body
  obtain ⟨t1, t2, t3⟩ := tokenChars_tag F
  obtain ⟨w0, w1, w2, w3⟩ := printInt_field (n := p.width)
  obtain ⟨h0, h1, h2, h3⟩ := printInt_field (n := p.height)
  obtain ⟨m0, m1, m2, m3⟩ := printInt_field (n := p.maxColor)
  have aw : toU32 (atoi (printInt (toI32 (p.width : Int)))) = p.width :=
    toU32_atoi_printInt hw2
  have ah : toU32 (atoi (printInt (toI32 (p.height : Int)))) = p.height :=
    toU32_atoi_printInt hh2
  have am : toU32 (atoi (printInt (toI32 (p.maxColor : Int)))) = p.maxColor :=
    toU32_atoi_printInt hm2
  have hne : (80 :: printInt (F.code : Nat)) ≠ [] := List.cons_ne_nil _ _
  show readLines ((writeHeader p F ++ body).length + 1) READING_PARAMS.TAG ppm0
    (writeHeader p F ++ body) = _
  rw [hfile, hk]
  rw [readLines_line (k + 3) _ _ _ _ (by decide) hne t1 t2 t3, tokenLoop_tag]
  show readLines (k + 2 + 1) _ _ _ = _
  rw [readLines_line (k + 2) _ _ _ _ (by decide) w0 w1 w2 w3,
    tokenLoop_width _ _ _ (by rw [aw]; exact hw)]
  show readLines (k + 1 + 1) _ _ _ = _
  rw [readLines_line (k + 1) _ _ _ _ (by decide) h0 h1 h2 h3,
    tokenLoop_height _ _ _ (by rw [ah]; exact hh)]
  show readLines (k + 1) _ _ _ = _
  rw [readLines_line k _ _ _ _ (by decide) m0 m1 m2 m3,
    tokenLoop_maxColor _ _ _ (by rw [am]; exact hm)]
  show some _ = some _
  rw [aw, ah, am]

/-! ## Reading back a written body -/

theorem textOf_append (l₁ l₂ : List Nat) : textOf (l₁ ++ l₂) = textOf l₁ ++ textOf l₂ := by
  induction l₁ with
  | nil => rfl
  | cons b l ih =>
    show decimal b ++ 32 :: textOf (l ++ l₂) = (decimal b ++ 32 :: textOf l) ++ textOf l₂
    rw [ih, List.append_assoc]
    rfl

theorem take_succ_getD (l : List Nat) (k : Nat) (hk : k < l.length) :
    l.take (k + 1) = l.take k ++ [l.getD k 0] := by
  rw [List.take_succ, List.getD_eq_getElem _ _ hk, List.getElem?_eq_getElem hk]
  rfl

theorem textOf_take_succ (l : List Nat) (k : Nat) (hk : k < l.length) :
    textOf (l.take (k + 1)) = textOf (l.take k) ++ decimal (l.getD k 0) ++ [32] := by
  rw [take_succ_getD l k hk, textOf_append, List.append_assoc]
  rfl

theorem writeStep_eq (pixels : List Nat) (k : Nat) (hk : k + 3 ≤ pixels.length)
    (hk2 : k + 3 < 2147483648) :
    writeStep pixels (((k : Nat) : Int), textOf (pixels.take k)) =
      (((k + 3 : Nat) : Int), textOf (pixels.take (k + 3))) := by
  have e1 : toI32 ((k : Int) + 1) = ((k + 1 : Nat) : Int) := by
    rw [toI32_of_range (by omega) (by omega)]; push_cast; rfl
  have e2 : toI32 (((k + 1 : Nat) : Int) + 1) = ((k + 2 : Nat) : Int) := by
    rw [toI32_of_range (by omega) (by omega)]; push_cast; omega
  have e3 : toI32 (((k + 2 : Nat) : Int) + 1) = ((k + 3 : Nat) : Int) := by
    rw [toI32_of_range (by omega) (by omega)]; push_cast; omega
  unfold writeStep
  simp only [e1, e2, e3, rd_natCast, printInt_natCast]
  rw [textOf_take_succ pixels (k + 2) (by omega), textOf_take_succ pixels (k + 1) (by omega),
    textOf_take_succ pixels k (by omega)]

theorem writeLoop_eq (pixels : List Nat) (hlen : pixels.length < 2147483648) :
    ∀ n, 3 * n ≤ pixels.length →
      forLoop n (fun _ s => writeStep pixels s) ((0 : Int), ([] : List Nat)) =
        (((3 * n : Nat) : Int), textOf (pixels.take (3 * n))) := by
  intro n
  induction n with
  | zero => intro _; rfl
  | succ n ih =>
    intro h
    rw [forLoop_succ, ih (by omega)]
    have := writeStep_eq pixels (3 * n) (by omega) (by omega)
    rw [this]
    rfl

theorem fscanf_d_decimal (b : Nat) (more : List Nat) (hb : b < 4294967296) :
    fscanf_d (decimal b ++ 32 :: more) = ScanResult.value (b : Int) (32 :: more) ∧
    fscanf_d (32 :: (decimal b ++ 32 :: more)) = ScanResult.value (b : Int) (32 :: more) := by
  obtain ⟨c, cs, hc, hd⟩ := decimal_head b
  obtain ⟨h1, _, h3, h4, _⟩ := isDigit_facts hd
  have hs := scanDigits_decimal b (32 :: more) (by
    intro c hc; simp only [List.head?_cons, Option.some.injEq] at hc; subst hc; decide)
  have hfirst : fscanf_d (decimal b ++ 32 :: more) =
      ScanResult.value (b : Int) (32 :: more) := by
    rw [hc] at hs ⊢
    unfold fscanf_d
    rw [List.cons_append, dropWhile_isSpace_of_head c _ h1]
    simp only [h3, h4, if_false, scanNumber, hd, if_true]
    rw [← List.cons_append, hs, clampLong_of_range (by omega) (by omega)]
  refine ⟨hfirst, ?_⟩
  have hdrop : (32 :: (decimal b ++ 32 :: more)).dropWhile isSpace =
      (decimal b ++ 32 :: more).dropWhile isSpace := by
    simp [List.dropWhile, isSpace]
  unfold fscanf_d at hfirst ⊢
  rw [hdrop]
  exact hfirst

theorem readPixelsLoop_text (maxColor : Nat) (l : List Nat)
    (hl : ∀ b, b ∈ l → b ≤ maxColor ∧ b < 4294967296) :
    ∀ (i : Nat) (pixels : List Nat),
      readPixelsLoop maxColor l.length i pixels (textOf l) =
        (i + l.length, storeValues pixels i (l.map (fun b : Nat => (b : Int)))) ∧
      readPixelsLoop maxColor l.length i pixels (32 :: textOf l) =
        (i + l.length, storeValues pixels i (l.map (fun b : Nat => (b : Int)))) := by
  induction l with
  | nil => intro i pixels; exact ⟨rfl, rfl⟩
  | cons b l ih =>
    intro i pixels
    obtain ⟨hb1, hb2⟩ := hl b (List.mem_cons_self _ _)
    obtain ⟨f1, f2⟩ := fscanf_d_decimal b (textOf l) hb2
    have hu : toU32 (b : Int) = b := by unfold toU32; omega
    have hle : ¬ (toU32 (b : Int) > maxColor) := by rw [hu]; omega
    have ih' := (ih (fun c hc => hl c (List.mem_cons_of_mem _ hc)) (i + 1)
      (pixels.set i (toU8 (toU32 (b : Int))))).2
    have e : i + 1 + l.length = i + (b :: l).length := by
      simp only [List.length_cons]; omega
    constructor
    · show readPixelsLoop maxColor (l.length + 1) i pixels (decimal b ++ 32 :: textOf l) = _
      unfold readPixelsLoop
      rw [f1]
      simp only [hle, if_false]
      rw [ih', e]
      rfl
    · show readPixelsLoop maxColor (l.length + 1) i pixels
        (32 :: (decimal b ++ 32 :: textOf l)) = _
      unfold readPixelsLoop
      rw [f2]
      simp only [hle, if_false]
      rw [ih', e]
      rfl

theorem storeValues_all (l : List Nat) (hl : ∀ b, b ∈ l → b < 256) :
    storeValues (List.replicate l.length 0) 0 (l.map (fun b : Nat => (b : Int))) = l := by
  apply ext_getD (n := l.length)
  · rw [storeValues_length, List.length_replicate]
  · rfl
  · intro j hj
    rw [storeValues_getD _ _ _ _ (by simp), if_pos (by simp; omega), Nat.sub_zero]
    have hj' : j < (l.map (fun b : Nat => (b : Int))).length := by simpa using hj
    rw [List.getD_eq_getElem _ _ hj', List.getElem_map, List.getD_eq_getElem _ _ hj]
    have hb := hl _ (List.getElem_mem hj)
    unfold toU8 toU32
    omega

theorem toU32_natCast {n : Nat} (h : n < 4294967296) : toU32 (n : Int) = n := by
  unfold toU32; omega

theorem writePixels_eq (ppm : PPM) (F : OUTPUT_FORMAT) (hwf : WellFormed ppm)
    (hsize : ppm.size = 3 * ppm.width * ppm.height) :
    writePixels ppm ppm.pixels F =
      (ppm.size, if F = OUTPUT_FORMAT.PPM_PLAIN_TEXT then textOf ppm.pixels else ppm.pixels) := by
  obtain ⟨hw, hh, hsz, hlen, _⟩ := hwf
  have hwh1 : ppm.width ≤ ppm.width * ppm.height := Nat.le_mul_of_pos_right _ hh
  have hsz' : 3 * (ppm.width * ppm.height) < 2147483648 := by
    rw [← Nat.mul_assoc]; exact hsz
  have hlen' : ppm.pixels.length = 3 * (ppm.width * ppm.height) := by
    rw [hlen, Nat.mul_assoc]
  have hsize' : ppm.size = 3 * (ppm.width * ppm.height) := by
    rw [hsize, Nat.mul_assoc]
  unfold writePixels
  split
  · have hu : u32 (ppm.height * ppm.width) = ppm.width * ppm.height := by
      rw [Nat.mul_comm, u32_of_lt (by omega)]
    rw [hu]
    simp only []
    rw [writeLoop_eq ppm.pixels (by omega) (ppm.width * ppm.height) (by omega)]
    have ht : ppm.pixels.take (3 * (ppm.width * ppm.height)) = ppm.pixels := by
      rw [← hlen', List.take_length]
    show (toU32 ((3 * (ppm.width * ppm.height) : Nat) : Int),
      textOf (ppm.pixels.take (3 * (ppm.width * ppm.height)))) = _
    rw [ht, toU32_natCast (by omega), hsize']
  · have ht : ppm.pixels.take ppm.size = ppm.pixels := by
      rw [hsize', ← hlen', List.take_length]
    rw [ht, hlen', hsize']

theorem readBody_binary (p : PPM) (body : List Nat) (htag : p.tag = OUTPUT_FORMAT.PPM_BINARY.code)
    (hsz : 3 * p.width * p.height < 4294967296) (hlen : body.length = 3 * p.width * p.height) :
    readBody p body =
      { exit := ReadExit.pixelsRead (3 * p.width * p.height)
        ppm := { p with pixels_count := p.width * p.height, size := 3 * p.width * p.height
                        pixels := body } } := by
  have hh : p.width * p.height < 4294967296 := by
    have : 3 * p.width * p.height = 3 * (p.width * p.height) := Nat.mul_assoc _ _ _
    omega
  have e1 : u32 (p.width * p.height) = p.width * p.height := u32_of_lt hh
  have e2 : u32 (p.width * p.height * 3) = 3 * p.width * p.height := by
    rw [u32_of_lt (by rw [Nat.mul_comm, ← Nat.mul_assoc]; exact hsz), Nat.mul_comm,
      Nat.mul_assoc]
  unfold readBody readPixels
  simp only [e1, e2, htag, if_true]
  unfold fread
  have ht : body.take (3 * p.width * p.height) = body := by rw [← hlen, List.take_length]
  rw [ht, hlen]
  simp

theorem readBody_text (p : PPM) (pixels : List Nat)
    (htag : p.tag = OUTPUT_FORMAT.PPM_PLAIN_TEXT.code)
    (hsz : 3 * p.width * p.height < 4294967296) (hlen : pixels.length = 3 * p.width * p.height)
    (hb : ∀ b, b ∈ pixels → b < 256) (hmc : ∀ b, b ∈ pixels → b ≤ p.maxColor) :
    readBody p (textOf pixels) =
      { exit := ReadExit.pixelsRead (3 * p.width * p.height)
        ppm := { p with pixels_count := p.width * p.height, size := 3 * p.width * p.height
                        pixels := pixels } } := by
  have hh : p.width * p.height < 4294967296 := by
    have : 3 * p.width * p.height = 3 * (p.width * p.height) := Nat.mul_assoc _ _ _
    omega
  have e1 : u32 (p.width * p.height) = p.width * p.height := u32_of_lt hh
  have e2 : u32 (p.width * p.height * 3) = 3 * p.width * p.height := by
    rw [u32_of_lt (by rw [Nat.mul_comm, ← Nat.mul_assoc]; exact hsz), Nat.mul_comm,
      Nat.mul_assoc]
  have hne : ¬ (p.tag = OUTPUT_FORMAT.PPM_BINARY.code) := by rw [htag]; decide
  have hloop := (readPixelsLoop_text p.maxColor pixels
    (fun b hb' => ⟨hmc b hb', by have := hb b hb'; omega⟩) 0
    (List.replicate pixels.length 0)).1
  rw [storeValues_all pixels hb, Nat.zero_add, hlen] at hloop
  unfold readBody readPixels
  simp only [e1, e2, hne, if_false, hloop]

/-- C8: for a well-formed image with a positive maxColor and `size = 3 * width * height`
(every sample at most maxColor for PlainText), in a mode other than `ALL`: `writeToFile`
succeeds, and `readPPM` on the bytes it wrote returns `SUCCESS` with the same tag code,
width, height, maxColor and size and a pixel buffer identical to the original. -/
theorem write_read_roundtrip (ppm : PPM) (F : OUTPUT_FORMAT) (mode : MODE) (ppm0 : PPM)
    (hmode : mode ≠ MODE.ALL) (hwf : WellFormed ppm)
    (hsize : ppm.size = 3 * ppm.width * ppm.height)
    (hmc : 0 < ppm.maxColor) (hmc2 : ppm.maxColor < 4294967296)
    (hrange : F = OUTPUT_FORMAT.PPM_PLAIN_TEXT → ∀ b, b ∈ ppm.pixels → b ≤ ppm.maxColor) :
    ∃ file r, writeToFile true ppm F mode = (true, some file) ∧
      readPPM (some file) ppm0 = some r ∧ r.value = true ∧
      r.ppm.tag = F.code ∧ r.ppm.width = ppm.width ∧ r.ppm.height = ppm.height ∧
      r.ppm.maxColor = ppm.maxColor ∧ r.ppm.size = ppm.size ∧
      r.ppm.pixels = ppm.pixels := by
  have hwp := writePixels_eq ppm F hwf hsize
  obtain ⟨hw, hh, hsz, hlen, hbytes⟩ := hwf
  have hwh1 : ppm.width ≤ ppm.width * ppm.height := Nat.le_mul_of_pos_right _ hh
  have hwh2 : ppm.height ≤ ppm.width * ppm.height := Nat.le_mul_of_pos_left _ hw
  have hsz' : 3 * (ppm.width * ppm.height) < 2147483648 := by
    rw [← Nat.mul_assoc]; exact hsz
  have hwrite : writeToFile true ppm F mode = (true, some (writeHeader ppm F ++
      (if F = OUTPUT_FORMAT.PPM_PLAIN_TEXT then textOf ppm.pixels else ppm.pixels))) := by
    unfold writeToFile
    simp only [if_true, hmode, if_false, hwp, beq_self_eq_true]
  have hread := readPPM_writeHeader ppm F
    (if F = OUTPUT_FORMAT.PPM_PLAIN_TEXT then textOf ppm.pixels else ppm.pixels) ppm0
    (by omega) (by omega) (by omega) (by omega) (by omega) hmc2
  refine ⟨_, _, hwrite, hread, ?_⟩
  cases F with
  | PPM_BINARY =>
    rw [if_neg (by decide)]
    rw [readBody_binary { ppm0 with tag := OUTPUT_FORMAT.PPM_BINARY.code, width := ppm.width
                                    height := ppm.height, maxColor := ppm.maxColor }
      ppm.pixels rfl (by show 3 * ppm.width * ppm.height < _; omega) hlen]
    refine ⟨?_, rfl, rfl, rfl, rfl, hsize.symm, rfl⟩
    simp [ReadResult.value]
  | PPM_PLAIN_TEXT =>
    rw [if_pos rfl]
    rw [readBody_text { ppm0 with tag := OUTPUT_FORMAT.PPM_PLAIN_TEXT.code, width := ppm.width
                                  height := ppm.height, maxColor := ppm.maxColor }
      ppm.pixels rfl (by show 3 * ppm.width * ppm.height < _; omega) hlen hbytes
      (hrange rfl)]
    refine ⟨?_, rfl, rfl, rfl, rfl, hsize.symm, rfl⟩
    simp [ReadResult.value]

/-- C8, instance: the `2 × 2` example written as PlainText and read back into a zeroed
struct. -/
theorem write_read_roundtrip_witness :
    ∃ file r, writeToFile true example2x2 OUTPUT_FORMAT.PPM_PLAIN_TEXT MODE.CPU =
        (true, some file) ∧
      readPPM (some file) zeroPPM = some r ∧ r.value = true ∧
      r.ppm.tag = OUTPUT_FORMAT.PPM_PLAIN_TEXT.code ∧ r.ppm.width = example2x2.width ∧
      r.ppm.height = example2x2.height ∧ r.ppm.maxColor = example2x2.maxColor ∧
      r.ppm.size = example2x2.size ∧ r.ppm.pixels = example2x2.pixels :=
  write_read_roundtrip example2x2 OUTPUT_FORMAT.PPM_PLAIN_TEXT MODE.CPU zeroPPM (by decide)
    (by decide) (by decide) (by decide) (by decide) (by decide)

/-! ## Mode `ALL` and the size fields -/

/-- C18 (code defect): in mode `ALL`, on the `2 × 2` example with a zeroed output buffer
and tile size 2, `CPU_mosaic` overwrites `pixels` with the tile mean and leaves
`outputPixels` untouched; `OPENMP_mosaic` on the same input leaves `pixels` as it was and
writes the tile mean to `outputPixels`. -/
theorem CPU_mosaic_ALL_overwrites_pixels :
    (CPU_mosaic MODE.ALL 2 example2x2ALL).map (fun r => (r.ppm.pixels, r.ppm.outputPixels)) =
      some ([13, 23, 33, 13, 23, 33, 13, 23, 33, 13, 23, 33],
            [0, 0, 0, 0, 0, 0, 0, 0, 0, 0, 0, 0]) ∧
    (OPENMP_mosaic MODE.ALL 2 [0] example2x2ALL).map (fun q => (q.pixels, q.outputPixels)) =
      some ([10, 20, 30, 12, 22, 32, 14, 24, 34, 16, 26, 36],
            [13, 23, 33, 13, 23, 33, 13, 23, 33, 13, 23, 33]) := by
  decide

theorem tokenLoop_inr (f : List Nat) (toks : List (List Nat)) :
    ∀ (rp : READING_PARAMS) (ppm : PPM) (r : ReadResult),
      tokenLoop f rp ppm toks = Sum.inr r → ∃ p, r = readBody p f := by
  induction toks with
  | nil => intro rp ppm r h; cases rp <;> simp [tokenLoop] at h
  | cons token rest ih =>
    intro rp ppm r h
    cases rp with
    | FAILURE => simp [tokenLoop] at h
    | TAG => simp only [tokenLoop] at h; exact ih _ _ _ h
    | WIDTH => simp only [tokenLoop] at h; exact ih _ _ _ h
    | HEIGHT => simp only [tokenLoop] at h; exact ih _ _ _ h
    | MAX_COLOR =>
      simp only [tokenLoop] at h
      split at h
      · simp only [Sum.inr.injEq] at h
        exact ⟨_, h.symm⟩
      · exact ih _ _ _ h
    | PIXELS =>
      simp only [tokenLoop, Sum.inr.injEq] at h
      exact ⟨_, h.symm⟩

/-- A result of `readPPM` by the `return` of line 138 is the outcome of `case PIXELS`. -/
theorem readLines_pixelsRead (fuel : Nat) :
    ∀ (rp : READING_PARAMS) (ppm : PPM) (f : List Nat) (r : ReadResult) (n : Nat),
      readLines fuel rp ppm f = some r → r.exit = ReadExit.pixelsRead n →
        ∃ p f', r = readBody p f' := by
  induction fuel with
  | zero => intro rp ppm f r n h; simp [readLines] at h
  | succ fuel ih =>
    intro rp ppm f r n h hex
    unfold readLines at h
    split at h
    · simp only [Option.some.injEq] at h; subst h; simp at hex
    · split at h
      · simp only [Option.some.injEq] at h; subst h; simp at hex
      · split at h
        · split at h
          · exact ih _ _ _ r n h hex
          · simp only [Option.some.injEq] at h; subst h; simp at hex
        · rename_i buf f' _ _
          split at h
          · exact ih _ _ _ r n h hex
          · rename_i res htl
            simp only [Option.some.injEq] at h
            subst h
            obtain ⟨p, hp⟩ := tokenLoop_inr _ _ _ _ _ htl
            exact ⟨p, f', hp⟩

theorem readBody_sizes (p : PPM) (f : List Nat) :
    (readBody p f).ppm.width = p.width ∧ (readBody p f).ppm.height = p.height ∧
    (readBody p f).ppm.pixels_count = u32 (p.width * p.height) ∧
    (readBody p f).ppm.size = u32 (u32 (p.width * p.height) * 3) := by
  unfold readBody
  simp only []
  obtain ⟨h1, h2, _, h4, _⟩ := readPixels_fields
    { p with pixels_count := u32 (p.width * p.height)
             size := u32 (u32 (p.width * p.height) * 3)
             pixels := List.replicate (u32 (u32 (p.width * p.height) * 3)) 0 } f
  refine ⟨h1, h2, ?_, h4⟩
  unfold readPixels
  split <;> rfl

/-- C20 (as stated) fails: the header `P6 / 65536 65536 / 255` is accepted with width and
height 65536; the products wrap around, `pixels_count` and `size` are 0 (not `2^32` and
`3 * 2^32`) and `readPPM` returns `SUCCESS` with an empty buffer. -/
theorem readPPM_size_wraps :
    (readPPM (some (bytes "P6\n65536 65536\n255\n")) zeroPPM).map
        (fun r => (r.exit, r.value, r.ppm.width, r.ppm.height, r.ppm.pixels_count, r.ppm.size)) =
      some (ReadExit.pixelsRead 0, true, 65536, 65536, 0, 0) ∧
    3 * 65536 * 65536 ≠ 0 := by
  decide

/-- C20 (as amended): for every input that `readPPM` takes to the pixel read,
`pixels_count` is `width * height` reduced modulo `2^32` and `size` is `3 * width * height`
reduced modulo `2^32`; they are the products themselves whenever `3 * width * height` is
below `2^32`. -/
theorem readPPM_size_fields (file : List Nat) (ppm0 : PPM) (r : ReadResult) (n : Nat)
    (h : readPPM (some file) ppm0 = some r) (hex : r.exit = ReadExit.pixelsRead n) :
    r.ppm.pixels_count = (r.ppm.width * r.ppm.height) % 4294967296 ∧
    r.ppm.size = (3 * r.ppm.width * r.ppm.height) % 4294967296 ∧
    (3 * r.ppm.width * r.ppm.height < 4294967296 →
      r.ppm.pixels_count = r.ppm.width * r.ppm.height ∧
      r.ppm.size = 3 * r.ppm.width * r.ppm.height) := by
  obtain ⟨p, f', hr⟩ := readLines_pixelsRead _ _ _ _ r n h hex
  obtain ⟨h1, h2, h3, h4⟩ := readBody_sizes p f'
  rw [hr, h1, h2, h3, h4]
  have e : 3 * p.width * p.height = 3 * (p.width * p.height) := Nat.mul_assoc _ _ _
  rw [e]
  unfold u32
  refine ⟨rfl, by omega, fun hlt => ⟨by omega, by omega⟩⟩

/-- C20, instance: the `2 × 2` Binary file; 12 samples, no wrap-around. -/
theorem readPPM_size_fields_witness :
    example2x2.pixels_count = (example2x2.width * example2x2.height) % 4294967296 ∧
    example2x2.size = (3 * example2x2.width * example2x2.height) % 4294967296 ∧
    (3 * example2x2.width * example2x2.height < 4294967296 →
      example2x2.pixels_count = example2x2.width * example2x2.height ∧
      example2x2.size = 3 * example2x2.width * example2x2.height) :=
  readPPM_size_fields (bytes "P6\n2 2\n255\n" ++ example2x2.pixels) zeroPPM
    { exit := ReadExit.pixelsRead 12, ppm := example2x2 } 12 (by decide) rfl

/-! ## The bytes written by `writeToFile` -/

theorem printInt_toI32 (n : Nat) (h : n < 4294967296) :
    printInt (toI32 (n : Int)) = signedDecimal n := by
  unfold signedDecimal
  split
  · rename_i hn
    rw [toI32_of_range (by omega) (by omega), printInt_natCast]
  · rename_i hn
    have e : toI32 (n : Int) = (n : Int) - 4294967296 := by unfold toI32; omega
    unfold printInt
    rw [if_pos (by rw [e]; omega)]
    have e2 : (-toI32 (n : Int)).toNat = 4294967296 - n := by rw [e]; omega
    rw [e2]

theorem writePixels_buf (ppm : PPM) (buf : List Nat) (F : OUTPUT_FORMAT)
    (hsize : ppm.size = 3 * ppm.width * ppm.height) (hlen : buf.length = ppm.size)
    (hsz : 3 * ppm.width * ppm.height < 2147483648) :
    writePixels ppm buf F =
      (ppm.size, if F = OUTPUT_FORMAT.PPM_PLAIN_TEXT then textOf buf else buf) := by
  have hsz' : 3 * (ppm.width * ppm.height) < 2147483648 := by
    rw [← Nat.mul_assoc]; exact hsz
  have hsize' : ppm.size = 3 * (ppm.width * ppm.height) := by
    rw [hsize, Nat.mul_assoc]
  have hlen' : buf.length = 3 * (ppm.width * ppm.height) := by rw [hlen, hsize']
  unfold writePixels
  split
  · have hu : u32 (ppm.height * ppm.width) = ppm.width * ppm.height := by
      rw [Nat.mul_comm, u32_of_lt (by omega)]
    rw [hu]
    simp only []
    rw [writeLoop_eq buf (by omega) (ppm.width * ppm.height) (by omega)]
    have ht : buf.take (3 * (ppm.width * ppm.height)) = buf := by
      rw [← hlen', List.take_length]
    show (toU32 ((3 * (ppm.width * ppm.height) : Nat) : Int),
      textOf (buf.take (3 * (ppm.width * ppm.height)))) = _
    rw [ht, toU32_natCast (by omega), hsize']
  · have ht : buf.take ppm.size = buf := by
      rw [← hlen, List.take_length]
    rw [ht, hlen]

theorem textOf_chars (l : List Nat) : ∀ c, c ∈ textOf l → c = 32 ∨ isDigit c = true := by
  induction l with
  | nil => intro c hc; simp [textOf] at hc
  | cons b l ih =>
    intro c hc
    unfold textOf at hc
    rcases List.mem_append.mp hc with h | h
    · exact Or.inr ((decimal_spec b).1 c h)
    · rcases List.mem_cons.mp h with h | h
      · exact Or.inl h
      · exact ih c h

/-- C12 (as stated) fails for a field of `2^31` or more: the image with maxColor
`4294967295` (decoded from the maxColor token `-1`) is written with the header line `-1`,
not `4294967295`. -/
theorem writeToFile_prints_negative :
    (readPPM (some (bytes "P6\n1 1\n-1\n" ++ [1, 2, 3])) zeroPPM).map (fun r => r.ppm) =
      some exampleMaxColor ∧
    writeToFile true exampleMaxColor OUTPUT_FORMAT.PPM_BINARY MODE.CPU =
      (true, some (bytes "P6\n1\n1\n-1\n" ++ [1, 2, 3])) ∧
    bytes "P6\n1\n1\n-1\n" ++ [1, 2, 3] ≠
      bytes "P6\n1\n1\n" ++ decimal exampleMaxColor.maxColor ++ bytes "\n" ++ [1, 2, 3] := by
  decide

/-- C12 (as amended): when the serialised buffer (`outputPixels` in mode `ALL`, `pixels`
otherwise) holds `size = 3 * width * height < 2^31` samples, `writeToFile` succeeds and
writes exactly `P<code>`, width, height and maxColor, each followed by a newline, with code
6 for Binary and 3 for PlainText whatever the tag of the struct, a field being printed in
decimal when it is below `2^31` and as the negative number `field - 2^32` otherwise; then,
for Binary, the buffer unchanged and, for PlainText, every sample in buffer order in
decimal followed by one space, without any line break. -/
theorem writeToFile_bytes (ppm : PPM) (F : OUTPUT_FORMAT) (mode : MODE)
    (hw : ppm.width < 4294967296) (hh : ppm.height < 4294967296)
    (hm : ppm.maxColor < 4294967296)
    (hsize : ppm.size = 3 * ppm.width * ppm.height)
    (hlen : (if mode = MODE.ALL then ppm.outputPixels else ppm.pixels).length = ppm.size)
    (hsz : 3 * ppm.width * ppm.height < 2147483648) :
    writeToFile true ppm F mode =
      (true, some (fileBytes (if F = OUTPUT_FORMAT.PPM_BINARY then 6 else 3) ppm.width
        ppm.height ppm.maxColor (decide (F = OUTPUT_FORMAT.PPM_PLAIN_TEXT))
        (if mode = MODE.ALL then ppm.outputPixels else ppm.pixels))) ∧
    (∀ n, n < 2147483648 → signedDecimal n = decimal n) ∧
    10 ∉ textOf (if mode = MODE.ALL then ppm.outputPixels else ppm.pixels) := by
  refine ⟨?_, ?_, ?_⟩
  · have hwp := writePixels_buf ppm (if mode = MODE.ALL then ppm.outputPixels else ppm.pixels)
      F hsize hlen hsz
    have hpix : (if mode = MODE.ALL then writePixels ppm ppm.outputPixels F
        else writePixels ppm ppm.pixels F) =
        writePixels ppm (if mode = MODE.ALL then ppm.outputPixels else ppm.pixels) F := by
      split <;> rfl
    have hcode : printInt ((F.code : Nat) : Int) =
        decimal (if F = OUTPUT_FORMAT.PPM_BINARY then 6 else 3) := by
      cases F <;> decide
    unfold writeToFile
    simp only [if_true]
    rw [hpix, hwp]
    unfold writeHeader fileBytes
    rw [printInt_toI32 _ hw, printInt_toI32 _ hh, printInt_toI32 _ hm, hcode]
    cases F <;> simp
  · intro n hn
    unfold signedDecimal
    rw [if_pos hn]
  · intro hmem
    rcases textOf_chars _ 10 hmem with h | h
    · omega
    · exact absurd h (by decide)

/-- C12, instance: the `2 × 2` example written as PlainText in mode `CPU`. -/
theorem writeToFile_bytes_witness :
    writeToFile true example2x2 OUTPUT_FORMAT.PPM_PLAIN_TEXT MODE.CPU =
      (true, some (bytes "P3\n2\n2\n255\n10 20 30 12 22 32 14 24 34 16 26 36 ")) ∧
    writeToFile true example2x2 OUTPUT_FORMAT.PPM_PLAIN_TEXT MODE.CPU =
      (true, some (fileBytes
        (if OUTPUT_FORMAT.PPM_PLAIN_TEXT = OUTPUT_FORMAT.PPM_BINARY then 6 else 3)
        example2x2.width example2x2.height example2x2.maxColor
        (decide (OUTPUT_FORMAT.PPM_PLAIN_TEXT = OUTPUT_FORMAT.PPM_PLAIN_TEXT))
        (if MODE.CPU = MODE.ALL then example2x2.outputPixels else example2x2.pixels))) :=
  ⟨by decide,
   (writeToFile_bytes example2x2 OUTPUT_FORMAT.PPM_PLAIN_TEXT MODE.CPU (by decide) (by decide)
     (by decide) (by decide) (by decide) (by decide)).1⟩

/-! ## Images of a single colour -/

theorem withPixels_self (ppm : PPM) : withPixels ppm ppm.pixels = ppm := by
  cases ppm; rfl

theorem tileChannelSum_const {pixels : List Nat} {w h t tr tc c v : Nat}
    (hcell : ∀ p, p < w * h → pixels.getD (3 * p + c) 0 = v) :
    tileChannelSum pixels w h t tr tc c = effectiveSide h t tr * (effectiveSide w t tc * v) := by
  unfold tileChannelSum
  have hc : ∀ bh, bh ∈ Finset.range (effectiveSide h t tr) →
      ∀ bw, bw ∈ Finset.range (effectiveSide w t tc) →
      pixels.getD (3 * ((tr * t + bh) * w + (tc * t + bw)) + c) 0 = v := by
    intro bh hbh bw hbw
    rw [Finset.mem_range] at hbh hbw
    have hlt := cellIndex_lt hbh hbw
    unfold cellIndex at hlt
    rw [Nat.mul_comm h w] at hlt
    exact hcell _ hlt
  rw [Finset.sum_congr rfl (fun bh hbh => Finset.sum_congr rfl (hc bh hbh))]
  simp only [Finset.sum_const, Finset.card_range, smul_eq_mul]

/-- The value stored for a tile whose cells all hold `v` in channel `c`, when `v` times the
tile area stays below `2^31`. -/
theorem storedValue_const {pixels : List Nat} {w h t tr tc c v : Nat} (ht : 0 < t)
    (htr : tr * t < h) (htc : tc * t < w) (hv : v < 256)
    (hcell : ∀ p, p < w * h → pixels.getD (3 * p + c) 0 = v)
    (hov : effectiveSide h t tr * (effectiveSide w t tc * v) < 2147483648) :
    storedValue pixels w h t tr tc c = v := by
  unfold storedValue
  rw [tileChannelSum_const hcell, toI32_of_range (by omega) (by omega), ← Int.ofNat_tdiv]
  have h1 : 0 < effectiveSide h t tr := effectiveSide_pos ht htr
  have h2 : 0 < effectiveSide w t tc := effectiveSide_pos ht htc
  have e : effectiveSide h t tr * (effectiveSide w t tc * v) /
      (effectiveSide w t tc * effectiveSide h t tr) = v := by
    have : effectiveSide h t tr * (effectiveSide w t tc * v) =
        v * (effectiveSide w t tc * effectiveSide h t tr) := by ring
    rw [this]
    exact Nat.mul_div_cancel _ (Nat.mul_pos h2 h1)
  rw [e]
  exact toU8_of_lt hv

theorem area_mul_le {w h t tr tc v : Nat} :
    effectiveSide h t tr * (effectiveSide w t tc * v) ≤ v * (t * t) := by
  have h1 : effectiveSide h t tr ≤ t := effectiveSide_le
  have h2 : effectiveSide w t tc ≤ t := effectiveSide_le
  calc effectiveSide h t tr * (effectiveSide w t tc * v)
      ≤ t * (t * v) := Nat.mul_le_mul h1 (Nat.mul_le_mul_right _ h2)
    _ = v * (t * t) := by ring

/-- On an image of a single colour whose tile sums stay below `2^31`, the blocks of the
whole grid leave the buffer as it is. -/
theorem runBlocks_const {t : Nat} {ppm : PPM} (hwf : WellFormed ppm) (ht : 0 < t)
    (col : Nat → Nat)
    (hcol : ∀ p, p < ppm.width * ppm.height → ∀ c, c < 3 →
      ppm.pixels.getD (3 * p + c) 0 = col c)
    (hov : ∀ c, c < 3 → col c * (t * t) < 2147483648)
    (schedule : List Nat) (hperm : schedule.Perm (List.range (blocks ppm.height t)))
    (ht2 : t < 4294967296) :
    runBlocks t ppm.width ppm.height (schedule ×ˢ List.range (blocks ppm.width t)) ppm.pixels
      = ppm.pixels := by
  obtain ⟨hl, hres⟩ := runBlocks_full hwf ht ht2 schedule hperm
  obtain ⟨hw, hh, hsz, hlen, hbytes⟩ := hwf
  apply ext_getD hl hlen
  intro j hj
  rw [hres j hj]
  obtain ⟨hv1, hv2⟩ := blockOf_valid (t := t) ht hw hj
  have hc : j % 3 < 3 := Nat.mod_lt _ (by decide)
  have hj3 : j / 3 < ppm.width * ppm.height := by
    have : 3 * ppm.width * ppm.height = 3 * (ppm.width * ppm.height) := Nat.mul_assoc _ _ _
    omega
  have hjv : ppm.pixels.getD j 0 = col (j % 3) := by
    have := hcol (j / 3) hj3 (j % 3) hc
    rwa [Nat.div_add_mod] at this
  have hcv : col (j % 3) < 256 := by
    rw [← hjv]; exact getD_lt_of_forall hbytes j
  rw [hjv]
  apply storedValue_const ht hv1 hv2 hcv (fun p hp => hcol p hp _ hc)
  exact lt_of_le_of_lt area_mul_le (hov _ hc)

theorem OPENMP_mosaic_stored {mode : MODE} (hm : mode ≠ MODE.ALL) {t : Nat} {ppm : PPM}
    (hwf : WellFormed ppm) (ht : 0 < t) (htw : t ≤ ppm.width) :
    ∃ r, OPENMP_mosaic mode t (List.range (blocks ppm.height t)) ppm = some r ∧
      ∀ y, y < ppm.height → ∀ x, x < ppm.width → ∀ c, c < 3 →
        r.pixels.getD (3 * (y * ppm.width + x) + c) 0 =
          storedValue ppm.pixels ppm.width ppm.height t (y / t) (x / t) c := by
  have hsz := hwf.2.2.1
  have hh := hwf.2.1
  have hwh1 : ppm.width ≤ ppm.width * ppm.height := Nat.le_mul_of_pos_right _ hh
  have hsz' : 3 * (ppm.width * ppm.height) < 2147483648 := by
    rw [← Nat.mul_assoc]; exact hsz
  obtain ⟨_, hres⟩ := runBlocks_full hwf ht (by omega) (List.range (blocks ppm.height t))
    (List.Perm.refl _)
  refine ⟨_, OPENMP_mosaic_eq hm htw _, ?_⟩
  intro y hy x hx c hc
  obtain ⟨hb, hm⟩ := blockOf_pixel (t := t) (y := y) hx hc
  show (runBlocks _ _ _ _ _).getD _ 0 = _
  rw [hres _ (pixel_offset_lt hy hx hc), hb, hm]

/-- C11 (as stated) fails when an `int` block sum overflows: on the `4096 × 6153` image
with every sample 255 and tile size 4096, both transforms replace the red sample 255 of
pixel `(4096, 0)` by 2. -/
theorem mosaic_uniform_changed_by_overflow :
    WellFormed (uniformImage 4096 6153 255) ∧ 4096 ≤ (uniformImage 4096 6153 255).width ∧
    4096 ≤ (uniformImage 4096 6153 255).height ∧
    (uniformImage 4096 6153 255).pixels.getD (3 * (4096 * 4096 + 0) + 0) 0 = 255 ∧
    (∃ r, CPU_mosaic MODE.CPU 4096 (uniformImage 4096 6153 255) = some r ∧
      r.ppm.pixels.getD (3 * (4096 * 4096 + 0) + 0) 0 = 2) ∧
    (∃ r, OPENMP_mosaic MODE.OPENMP 4096 (List.range (blocks 6153 4096))
        (uniformImage 4096 6153 255) = some r ∧
      r.pixels.getD (3 * (4096 * 4096 + 0) + 0) 0 = 2) := by
  have hwf : WellFormed (uniformImage 4096 6153 255) :=
    wellFormed_uniformImage (by decide) (by decide) (by decide) (by decide)
  have hw : (uniformImage 4096 6153 255).width = 4096 := rfl
  have hh : (uniformImage 4096 6153 255).height = 6153 := rfl
  have hp : (uniformImage 4096 6153 255).pixels = List.replicate (3 * 4096 * 6153) 255 := rfl
  refine ⟨hwf, by rw [hw], by rw [hh]; decide, ?_, ?_, ?_⟩
  · rw [hp, List.getD_eq_getElem _ _ (by rw [List.length_replicate]; decide),
      List.getElem_replicate]
  · obtain ⟨r, hr, _, hres⟩ := CPU_mosaic_stored MODE.CPU (t := 4096) hwf (by decide)
      (by rw [hw])
    refine ⟨r, hr, ?_⟩
    have h := hres 4096 (by rw [hh]; decide) 0 (by rw [hw]; decide) 0 (by decide)
    rw [hw, hh, hp] at h
    rw [h, storedValue_uniform (by decide)]
    decide
  · obtain ⟨r, hr, hres⟩ := OPENMP_mosaic_stored (by decide : MODE.OPENMP ≠ MODE.ALL) (t := 4096)
      hwf (by decide) (by rw [hw])
    rw [hh] at hr
    refine ⟨r, hr, ?_⟩
    have h := hres 4096 (by rw [hh]; decide) 0 (by rw [hw]; decide) 0 (by decide)
    rw [hw, hh, hp] at h
    rw [h, storedValue_uniform (by decide)]
    decide

/-- C11 (as amended): for a well-formed image whose pixels all carry the same triplet
`(col 0, col 1, col 2)` and a tile size `1 ≤ t ≤ width`, `t ≤ height` with
`col c * t * t < 2^31` for each channel (no `int` block sum overflows), `CPU_mosaic` (in any
mode) and `OPENMP_mosaic` (in a mode other than `ALL`, for any order of the tile rows)
return the struct unchanged, so every pixel byte is as before. -/
theorem mosaic_uniform_unchanged (mode mode' : MODE) (t : Nat) (ppm : PPM) (col : Nat → Nat)
    (hm' : mode' ≠ MODE.ALL) (hwf : WellFormed ppm) (ht : 1 ≤ t) (htw : t ≤ ppm.width)
    (_hth : t ≤ ppm.height)
    (hcol : ∀ p, p < ppm.width * ppm.height → ∀ c, c < 3 →
      ppm.pixels.getD (3 * p + c) 0 = col c)
    (hov : ∀ c, c < 3 → col c * (t * t) < 2147483648)
    (schedule : List Nat) (hperm : schedule.Perm (List.range (blocks ppm.height t))) :
    (∃ r, CPU_mosaic mode t ppm = some r ∧ r.ppm = ppm) ∧
    OPENMP_mosaic mode' t schedule ppm = some ppm := by
  have hsz := hwf.2.2.1
  have hh := hwf.2.1
  have hwh1 : ppm.width ≤ ppm.width * ppm.height := Nat.le_mul_of_pos_right _ hh
  have hsz' : 3 * (ppm.width * ppm.height) < 2147483648 := by
    rw [← Nat.mul_assoc]; exact hsz
  have ht2 : t < 4294967296 := by omega
  refine ⟨?_, ?_⟩
  · obtain ⟨r, hr, hpix⟩ := CPU_mosaic_eq mode htw
    refine ⟨r, hr, ?_⟩
    rw [hpix, runBlocks_const hwf ht col hcol hov _ (List.Perm.refl _) ht2, withPixels_self]
  · rw [OPENMP_mosaic_eq hm' htw, runBlocks_const hwf ht col hcol hov _ hperm ht2,
      withPixels_self]

/-- C11, instance: the `4 × 4` image of colour `(7, 8, 9)` with tile size 3 (clipped tiles
on the right and at the bottom), the second tile row processed before the first. -/
theorem mosaic_uniform_unchanged_witness :
    (∃ r, CPU_mosaic MODE.CPU 3 (withPixels example4x4
        [7, 8, 9, 7, 8, 9, 7, 8, 9, 7, 8, 9, 7, 8, 9, 7, 8, 9, 7, 8, 9, 7, 8, 9,
         7, 8, 9, 7, 8, 9, 7, 8, 9, 7, 8, 9, 7, 8, 9, 7, 8, 9, 7, 8, 9, 7, 8, 9]) = some r ∧
      r.ppm = withPixels example4x4
        [7, 8, 9, 7, 8, 9, 7, 8, 9, 7, 8, 9, 7, 8, 9, 7, 8, 9, 7, 8, 9, 7, 8, 9,
         7, 8, 9, 7, 8, 9, 7, 8, 9, 7, 8, 9, 7, 8, 9, 7, 8, 9, 7, 8, 9, 7, 8, 9]) ∧
    OPENMP_mosaic MODE.OPENMP 3 [1, 0] (withPixels example4x4
        [7, 8, 9, 7, 8, 9, 7, 8, 9, 7, 8, 9, 7, 8, 9, 7, 8, 9, 7, 8, 9, 7, 8, 9,
         7, 8, 9, 7, 8, 9, 7, 8, 9, 7, 8, 9, 7, 8, 9, 7, 8, 9, 7, 8, 9, 7, 8, 9]) =
      some (withPixels example4x4
        [7, 8, 9, 7, 8, 9, 7, 8, 9, 7, 8, 9, 7, 8, 9, 7, 8, 9, 7, 8, 9, 7, 8, 9,
         7, 8, 9, 7, 8, 9, 7, 8, 9, 7, 8, 9, 7, 8, 9, 7, 8, 9, 7, 8, 9, 7, 8, 9]) :=
  mosaic_uniform_unchanged MODE.CPU MODE.OPENMP 3 _ (fun c => 7 + c) (by decide) (by decide)
    (by decide) (by decide) (by decide) (by decide) (by decide) [1, 0] (by decide)

/-! ## The index map of the four nested loops -/

theorem inGrid_iff {w h t tr tc bh bw : Nat} (ht : 0 < t) (ht2 : t < 4294967296)
    (hw : w ≤ 2147483648) (hh : h ≤ 2147483648) :
    InGrid w h t tr tc bh bw ↔
      tr * t < h ∧ tc * t < w ∧ bh < effectiveSide h t tr ∧ bw < effectiveSide w t tc := by
  unfold InGrid
  rw [lt_blocks_iff ht (by omega), lt_blocks_iff ht (by omega)]
  constructor
  · rintro ⟨h1, h2, h3, h4⟩
    rw [dynamicBlock_eq hh ht2 h1] at h3
    rw [dynamicBlock_eq hw ht2 h2] at h4
    exact ⟨h1, h2, h3, h4⟩
  · rintro ⟨h1, h2, h3, h4⟩
    rw [dynamicBlock_eq hh ht2 h1, dynamicBlock_eq hw ht2 h2]
    exact ⟨h1, h2, h3, h4⟩

theorem cellIndex_inj {t w h tr tc bh bw tr' tc' bh' bw' : Nat} (ht : 0 < t)
    (hbh : bh < effectiveSide h t tr) (hbw : bw < effectiveSide w t tc)
    (hbh' : bh' < effectiveSide h t tr') (hbw' : bw' < effectiveSide w t tc')
    (he : cellIndex t w tr tc bh bw = cellIndex t w tr' tc' bh' bw') :
    tr = tr' ∧ tc = tc' ∧ bh = bh' ∧ bw = bw' := by
  have e0 : (3 * cellIndex t w tr tc bh bw) / 3 = cellIndex t w tr tc bh bw := by omega
  have e0' : (3 * cellIndex t w tr tc bh bw) / 3 = cellIndex t w tr' tc' bh' bw' := by omega
  have b1 := blockOf_of_inBlock (j := 3 * cellIndex t w tr tc bh bw) ht
    ⟨bh, hbh, bw, hbw, e0⟩
  have b2 := blockOf_of_inBlock (j := 3 * cellIndex t w tr tc bh bw) ht
    ⟨bh', hbh', bw', hbw', e0'⟩
  rw [b1] at b2
  have htr : tr = tr' := congrArg Prod.fst b2
  have htc : tc = tc' := congrArg Prod.snd b2
  subst htr htc
  have hx := effectiveSide_add_lt hbw
  have hx' := effectiveSide_add_lt hbw'
  unfold cellIndex at he
  have hw : 0 < w := by omega
  have hrow : tr * t + bh = tr * t + bh' := by
    have d1 : ((tr * t + bh) * w + (tc * t + bw)) / w = tr * t + bh := by
      rw [Nat.add_comm, Nat.add_mul_div_right _ _ hw, Nat.div_eq_of_lt hx, Nat.zero_add]
    have d2 : ((tr * t + bh') * w + (tc * t + bw')) / w = tr * t + bh' := by
      rw [Nat.add_comm, Nat.add_mul_div_right _ _ hw, Nat.div_eq_of_lt hx', Nat.zero_add]
    rw [← d1, ← d2, he]
  have hcol : tc * t + bw = tc * t + bw' := by
    have d1 : ((tr * t + bh) * w + (tc * t + bw)) % w = tc * t + bw := by
      rw [Nat.add_comm, Nat.add_mul_mod_self_right, Nat.mod_eq_of_lt hx]
    have d2 : ((tr * t + bh') * w + (tc * t + bw')) % w = tc * t + bw' := by
      rw [Nat.add_comm, Nat.add_mul_mod_self_right, Nat.mod_eq_of_lt hx']
    rw [← d1, ← d2, he]
  exact ⟨rfl, rfl, by omega, by omega⟩

/-- C15: for positive dimensions with `3 * w * h < 2^31` and a tile size `1 ≤ t < 2^32`, the
subscript `i` computed at lines 213 and 242 for the quadruples visited by the four nested
loops is a bijection onto the pixel indices `0 .. w * h - 1`: it stays inside the buffer,
every pixel index is reached, and two visited quadruples with the same subscript are
equal. -/
theorem pixelIndex_bijection {w h t : Nat} (hw : 0 < w) (hh : 0 < h)
    (hsz : 3 * w * h < 2147483648) (ht : 1 ≤ t) (ht2 : t < 4294967296) :
    (∀ tr tc bh bw, InGrid w h t tr tc bh bw →
      ∃ p : Nat, p < w * h ∧ pixelIndex t w tr tc bh bw = (p : Int)) ∧
    (∀ p : Nat, p < w * h →
      ∃ tr tc bh bw, InGrid w h t tr tc bh bw ∧ pixelIndex t w tr tc bh bw = (p : Int)) ∧
    (∀ tr tc bh bw tr' tc' bh' bw', InGrid w h t tr tc bh bw → InGrid w h t tr' tc' bh' bw' →
      pixelIndex t w tr tc bh bw = pixelIndex t w tr' tc' bh' bw' →
      tr = tr' ∧ tc = tc' ∧ bh = bh' ∧ bw = bw') := by
  have hwh1 : w ≤ w * h := Nat.le_mul_of_pos_right _ hh
  have hwh2 : h ≤ w * h := Nat.le_mul_of_pos_left _ hw
  have hsz' : 3 * (w * h) < 2147483648 := by rw [← Nat.mul_assoc]; exact hsz
  have hgrid := fun tr tc bh bw =>
    @inGrid_iff w h t tr tc bh bw ht ht2
      (by omega) (by omega)
  refine ⟨?_, ?_, ?_⟩
  · intro tr tc bh bw hg
    obtain ⟨_, _, hbh, hbw⟩ := (hgrid tr tc bh bw).mp hg
    refine ⟨cellIndex t w tr tc bh bw, ?_, pixelIndex_eq hsz hbh hbw⟩
    rw [Nat.mul_comm]; exact cellIndex_lt hbh hbw
  · intro p hp
    have hj : 3 * p < 3 * w * h := by rw [Nat.mul_assoc]; omega
    obtain ⟨bh, hbh, bw, hbw, hcell⟩ := inBlock_blockOf (t := t) ht hw hj
    obtain ⟨hv1, hv2⟩ := blockOf_valid (t := t) ht hw hj
    refine ⟨(blockOf t w (3 * p)).1, (blockOf t w (3 * p)).2, bh, bw,
      (hgrid _ _ _ _).mpr ⟨hv1, hv2, hbh, hbw⟩, ?_⟩
    rw [pixelIndex_eq hsz hbh hbw, ← hcell]
    congr 1
    omega
  · intro tr tc bh bw tr' tc' bh' bw' hg hg' he
    obtain ⟨_, _, hbh, hbw⟩ := (hgrid tr tc bh bw).mp hg
    obtain ⟨_, _, hbh', hbw'⟩ := (hgrid tr' tc' bh' bw').mp hg'
    rw [pixelIndex_eq hsz hbh hbw, pixelIndex_eq hsz hbh' hbw'] at he
    exact cellIndex_inj ht hbh hbw hbh' hbw' (Int.ofNat_inj.mp he)

/-- C15, instance: a `5 × 3` image with tile size 2, where the last tile column and the
last tile row are clipped; pixel 14 (the last one) is reached from tile `(1, 2)` at offset
`(0, 0)`. -/
theorem pixelIndex_bijection_witness :
    ((∀ tr tc bh bw, InGrid 5 3 2 tr tc bh bw →
      ∃ p : Nat, p < 5 * 3 ∧ pixelIndex 2 5 tr tc bh bw = (p : Int)) ∧
    (∀ p : Nat, p < 5 * 3 →
      ∃ tr tc bh bw, InGrid 5 3 2 tr tc bh bw ∧ pixelIndex 2 5 tr tc bh bw = (p : Int)) ∧
    (∀ tr tc bh bw tr' tc' bh' bw', InGrid 5 3 2 tr tc bh bw → InGrid 5 3 2 tr' tc' bh' bw' →
      pixelIndex 2 5 tr tc bh bw = pixelIndex 2 5 tr' tc' bh' bw' →
      tr = tr' ∧ tc = tc' ∧ bh = bh' ∧ bw = bw')) ∧
    InGrid 5 3 2 1 2 0 0 ∧ pixelIndex 2 5 1 2 0 0 = 14 :=
  ⟨pixelIndex_bijection (w := 5) (h := 3) (t := 2) (by decide) (by decide) (by decide) (by decide) (by decide),
    by decide, by decide⟩

/-! ## Lines and comments -/

/-- The bound on the number of lines does not matter once it exceeds the input length. -/
theorem readLines_fuel (fuel₁ : Nat) :
    ∀ (fuel₂ : Nat) (rp : READING_PARAMS) (ppm : PPM) (f : List Nat),
      f.length < fuel₁ → f.length < fuel₂ →
      readLines fuel₁ rp ppm f = readLines fuel₂ rp ppm f := by
  induction fuel₁ with
  | zero => intro _ _ _ _ h; omega
  | succ fuel₁ ih =>
    intro fuel₂ rp ppm f h1 h2
    obtain ⟨m, rfl⟩ : ∃ m, fuel₂ = m + 1 := ⟨fuel₂ - 1, by omega⟩
    unfold readLines
    split
    · rfl
    · split
      · rfl
      · rename_i buf f' hg
        have hlt := fgets_length_lt hg
        split
        · split
          · exact ih _ _ _ _ (by omega) (by omega)
          · rfl
        · split
          · exact ih _ _ _ _ (by omega) (by omega)
          · rfl

theorem readPPM_eq_readLines (f : List Nat) (ppm : PPM) (fuel : Nat) (h : f.length < fuel) :
    readPPM (some f) ppm = readLines fuel READING_PARAMS.TAG ppm f :=
  readLines_fuel _ _ _ _ _ (Nat.lt_succ_self _) h

theorem fgets_line (l rest : List Nat) (hl : ∀ c, c ∈ l → c ≠ 10) (hlen : l.length < 99) :
    fgets MAX_LINE (l ++ 10 :: rest) = some (l ++ [10], rest) := by
  cases h : l ++ 10 :: rest with
  | nil => simp at h
  | cons c cs =>
    show some (fgetsAux (100 - 1) (c :: cs)) = _
    rw [← h, fgetsAux_line l rest hl _ (by omega)]

theorem fgetsAux_long (k : Nat) : ∀ (l rest : List Nat), (∀ c, c ∈ l → c ≠ 10) →
    k ≤ l.length → fgetsAux k (l ++ rest) = (l.take k, l.drop k ++ rest) := by
  induction k with
  | zero => intro l rest _ _; simp [fgetsAux]
  | succ k ih =>
    intro l rest hl hk
    cases l with
    | nil => simp at hk
    | cons c l =>
      have hc : c ≠ 10 := hl c (List.mem_cons_self _ _)
      have := ih l rest (fun d hd => hl d (List.mem_cons_of_mem _ hd))
        (by simp only [List.length_cons] at hk; omega)
      simp only [List.cons_append, fgetsAux, hc, if_false, List.append_eq, this,
        List.take_succ_cons, List.drop_succ_cons]

theorem cstr_of_noNul (l : List Nat) (h : ∀ c, c ∈ l → c ≠ 0) : cstr l = l := by
  unfold cstr
  rw [List.takeWhile_eq_self_iff]
  intro c hc
  simpa using h c hc

theorem lineChars_newline {l : List Nat} (h : LineChars l) :
    ∀ c, c ∈ l ++ [10] → c ≠ 0 := by
  intro c hc
  rcases List.mem_append.mp hc with h1 | h1
  · exact (h c h1).2
  · rw [List.mem_singleton.mp h1]; decide

/-- One pass of the loop of `readPPM` over a complete line that fits the line buffer. -/
theorem readLines_step (fuel : Nat) (rp : READING_PARAMS) (ppm : PPM) (l rest : List Nat)
    (hrp : rp ≠ READING_PARAMS.FAILURE) (hch : LineChars l) (hlen : l.length < 99) :
    readLines (fuel + 1) rp ppm (l ++ 10 :: rest) =
      if l.head? = some 35 then readLines fuel rp ppm rest
      else match tokenLoop rest rp ppm (strtok (l ++ [10])) with
        | Sum.inl (rp', ppm') => readLines fuel rp' ppm' rest
        | Sum.inr result => some result := by
  have hfg := fgets_line l rest (fun c hc => (hch c hc).1) hlen
  have hhd : (l ++ [10]).head? = some 35 ↔ l.head? = some 35 := by
    cases l with
    | nil => simp
    | cons c cs => simp
  conv_lhs => unfold readLines
  rw [if_neg hrp, hfg]
  simp only [cstr_of_noNul _ (lineChars_newline hch)]
  by_cases hc : l.head? = some 35
  · rw [if_pos (hhd.mpr hc), if_pos hc, if_pos (by simp)]
  · rw [if_neg (fun h => hc (hhd.mp h)), if_neg hc]

/-- A comment whose text does not fit the line buffer ends `readPPM`. -/
theorem readLines_long_comment (fuel : Nat) (rp : READING_PARAMS) (ppm : PPM)
    (c rest : List Nat) (hrp : rp ≠ READING_PARAMS.FAILURE) (hc : c.head? = some 35)
    (hch : LineChars c) (hlen : 99 ≤ c.length) :
    readLines (fuel + 1) rp ppm (c ++ 10 :: rest) =
      some { exit := ReadExit.commentTooLong, ppm := ppm } := by
  have hfg : fgets MAX_LINE (c ++ 10 :: rest) = some (c.take 99, c.drop 99 ++ 10 :: rest) := by
    cases h : c ++ 10 :: rest with
    | nil => simp at h
    | cons x xs =>
      show some (fgetsAux (100 - 1) (x :: xs)) = _
      rw [← h, fgetsAux_long 99 c _ (fun d hd => (hch d hd).1) hlen]
  have hmem : ∀ d, d ∈ c.take 99 → d ∈ c := fun d hd => List.mem_of_mem_take hd
  have hcs : cstr (c.take 99) = c.take 99 := cstr_of_noNul _ (fun d hd => (hch d (hmem d hd)).2)
  have hhd : (c.take 99).head? = some 35 := by
    cases c with
    | nil => simp at hc
    | cons x xs => simpa using hc
  have hnl : 10 ∉ c.take 99 := fun h => (hch 10 (hmem 10 h)).1 rfl
  conv_lhs => unfold readLines
  rw [if_neg hrp, hfg]
  simp only [hcs, hhd, if_true, hnl, if_false]

/-- C13 (as stated) fails at the boundary: the line buffer of 100 bytes holds 99 characters,
so a comment of 99 characters followed by its newline (100 characters in all) makes
`readPPM` return `FAILURE`, while the image that follows it is decoded when the comment is
left out. -/
theorem readPPM_rejects_comment_of_99 :
    exampleLongComment.length = 100 + 14 ∧
    (readPPM (some exampleLongComment) zeroPPM).map (fun r => (r.exit, r.value)) =
      some (ReadExit.commentTooLong, false) ∧
    (readPPM (some (exampleLongComment.drop 100)) zeroPPM).map (fun r => (r.exit, r.value)) =
      some (ReadExit.pixelsRead 3, true) := by
  decide

/-- C13 (as amended): a line that begins with `#`, holds neither a NUL nor a newline before
its end and is reached with the parser in a live state makes `readPPM` fail (return
`FAILURE` at line 94) exactly when its text, the newline not counted, has 99 characters or
more; with 98 characters or fewer the line is skipped, the decoder going on from the
next line in the same state and with the same struct, so that the result is the one
obtained without the line.  In particular this holds for a comment at the head of the
file. -/
theorem readPPM_comment_line (rp : READING_PARAMS) (ppm : PPM) (c rest : List Nat)
    (fuel : Nat) (hrp : rp ≠ READING_PARAMS.FAILURE) (hc : c.head? = some 35)
    (hch : LineChars c) (hfuel : (c ++ 10 :: rest).length < fuel) :
    (c.length < 99 →
      readLines fuel rp ppm (c ++ 10 :: rest) = readLines fuel rp ppm rest ∧
      readPPM (some (c ++ 10 :: rest)) ppm = readPPM (some rest) ppm) ∧
    (99 ≤ c.length →
      readLines fuel rp ppm (c ++ 10 :: rest) =
        some { exit := ReadExit.commentTooLong, ppm := ppm } ∧
      readPPM (some (c ++ 10 :: rest)) ppm =
        some { exit := ReadExit.commentTooLong, ppm := ppm }) := by
  obtain ⟨k, rfl⟩ : ∃ k, fuel = k + 1 := ⟨fuel - 1, by omega⟩
  have hl : rest.length < k := by
    simp only [List.length_append, List.length_cons] at hfuel; omega
  refine ⟨fun hlen => ⟨?_, ?_⟩, fun hlen => ⟨?_, ?_⟩⟩
  · rw [readLines_step k rp ppm c rest hrp hch hlen, if_pos hc]
    exact readLines_fuel _ _ _ _ _ hl (by omega)
  · rw [readPPM_eq_readLines _ ppm (k + 1) hfuel,
      readLines_step k _ ppm c rest (by decide) hch hlen, if_pos hc]
    exact (readPPM_eq_readLines _ ppm k hl).symm
  · exact readLines_long_comment k rp ppm c rest hrp hc hch hlen
  · rw [readPPM_eq_readLines _ ppm (k + 1) hfuel]
    exact readLines_long_comment k _ ppm c rest (by decide) hc hch hlen

/-- C13, instance: the comment `# made by hand` in front of a `1 × 1` Binary image is
skipped, in the parser state Width as well as at the head of the file. -/
theorem readPPM_comment_line_witness :
    (bytes "# made by hand").length < 99 ∧
    readLines 40 READING_PARAMS.WIDTH zeroPPM
        (bytes "# made by hand" ++ 10 :: (bytes "1 1\n255\n" ++ [1, 2, 3])) =
      readLines 40 READING_PARAMS.WIDTH zeroPPM (bytes "1 1\n255\n" ++ [1, 2, 3]) ∧
    readPPM (some (bytes "# made by hand" ++ 10 :: (bytes "1 1\n255\n" ++ [1, 2, 3])))
        zeroPPM = readPPM (some (bytes "1 1\n255\n" ++ [1, 2, 3])) zeroPPM :=
  ⟨by decide,
   (readPPM_comment_line READING_PARAMS.WIDTH zeroPPM (bytes "# made by hand")
      (bytes "1 1\n255\n" ++ [1, 2, 3]) 40 (by decide) (by decide) (by decide)
      (by decide)).1 (by decide)⟩

/-! ## The layout of the header -/

theorem tokenLoop_cons (f : List Nat) (rp : READING_PARAMS) (ppm : PPM) (token : List Nat)
    (rest : List (List Nat)) :
    tokenLoop f rp ppm (token :: rest) =
      match tokenLoop f rp ppm [token] with
      | Sum.inl (rp', ppm') => tokenLoop f rp' ppm' rest
      | Sum.inr r => Sum.inr r := by
  cases rp with
  | FAILURE => simp only [tokenLoop]; exact (tokenLoop_failure _ _ _).symm
  | TAG => simp only [tokenLoop]
  | WIDTH => simp only [tokenLoop]
  | HEIGHT => simp only [tokenLoop]
  | MAX_COLOR =>
    simp only [tokenLoop]
    split
    · rfl
    · simp only [tokenLoop_failure]
  | PIXELS => simp only [tokenLoop]

theorem tokenLoop_append (f : List Nat) (toks₁ : List (List Nat)) :
    ∀ (rp : READING_PARAMS) (ppm : PPM) (toks₂ : List (List Nat)),
      tokenLoop f rp ppm (toks₁ ++ toks₂) =
        match tokenLoop f rp ppm toks₁ with
        | Sum.inl (rp', ppm') => tokenLoop f rp' ppm' toks₂
        | Sum.inr r => Sum.inr r := by
  induction toks₁ with
  | nil => intro rp ppm toks₂; cases rp <;> simp [tokenLoop]
  | cons token rest ih =>
    intro rp ppm toks₂
    rw [List.cons_append, tokenLoop_cons f rp ppm token (rest ++ toks₂),
      tokenLoop_cons f rp ppm token rest]
    cases h : tokenLoop f rp ppm [token] with
    | inl x => obtain ⟨rp', ppm'⟩ := x; exact ih rp' ppm' toks₂
    | inr r => rfl

/-- A pass over the tokens of a line that does not reach the pixel read does not depend on
the input that follows the line. -/
theorem tokenLoop_inl_indep (f f' : List Nat) (toks : List (List Nat)) :
    ∀ (rp : READING_PARAMS) (ppm : PPM) (x : READING_PARAMS × PPM),
      tokenLoop f rp ppm toks = Sum.inl x → tokenLoop f' rp ppm toks = Sum.inl x := by
  induction toks with
  | nil => intro rp ppm x h; cases rp <;> simpa [tokenLoop] using h
  | cons token rest ih =>
    intro rp ppm x h
    cases rp with
    | FAILURE => simpa [tokenLoop] using h
    | TAG => simp only [tokenLoop] at h ⊢; exact ih _ _ _ h
    | WIDTH => simp only [tokenLoop] at h ⊢; exact ih _ _ _ h
    | HEIGHT => simp only [tokenLoop] at h ⊢; exact ih _ _ _ h
    | MAX_COLOR =>
      simp only [tokenLoop] at h ⊢
      split at h
      · simp at h
      · rename_i hz
        rw [if_neg hz]
        exact ih _ _ _ h
    | PIXELS => simp [tokenLoop] at h

theorem readLines_failure (fuel : Nat) (ppm : PPM) (f : List Nat) :
    readLines (fuel + 1) READING_PARAMS.FAILURE ppm f =
      some { exit := ReadExit.loopEnd, ppm := ppm } := rfl

/-- The passes of the loop of `readPPM` over complete lines that fit the line buffer, when
their tokens leave the parser in a live state. -/
theorem readLines_lines (f₀ rest : List Nat) (ls : List (List Nat)) :
    ∀ (rp : READING_PARAMS) (ppm : PPM) (rp' : READING_PARAMS) (ppm' : PPM) (fuel : Nat),
      (∀ l, l ∈ ls → LineChars l ∧ l.length < 99) →
      tokenLoop f₀ rp ppm (headerTokens ls) = Sum.inl (rp', ppm') →
      rp' ≠ READING_PARAMS.FAILURE → (fileOfLines ls rest).length < fuel →
      readLines fuel rp ppm (fileOfLines ls rest) = readLines fuel rp' ppm' rest := by
  induction ls with
  | nil =>
    intro rp ppm rp' ppm' fuel _ htl _ _
    have : (rp, ppm) = (rp', ppm') := by
      cases rp <;> simpa [headerTokens, tokenLoop] using htl
    rw [Prod.mk.injEq] at this
    rw [this.1, this.2]
    rfl
  | cons l ls ih =>
    intro rp ppm rp' ppm' fuel hls htl hrp' hfuel
    have hl := hls l (List.mem_cons_self _ _)
    have hls' : ∀ l', l' ∈ ls → LineChars l' ∧ l'.length < 99 :=
      fun l' h => hls l' (List.mem_cons_of_mem _ h)
    have hrp : rp ≠ READING_PARAMS.FAILURE := by
      intro h
      rw [h, tokenLoop_failure] at htl
      simp only [Sum.inl.injEq, Prod.mk.injEq] at htl
      exact hrp' htl.1.symm
    obtain ⟨k, rfl⟩ : ∃ k, fuel = k + 1 := ⟨fuel - 1, by omega⟩
    have hk : (fileOfLines ls rest).length < k := by
      simp only [fileOfLines, List.length_append, List.length_cons] at hfuel; omega
    have hrest : rest.length ≤ (fileOfLines ls rest).length := by
      clear ih hls hls' htl hfuel hk
      induction ls with
      | nil => exact Nat.le_refl _
      | cons a ls ih2 =>
        simp only [fileOfLines, List.length_append, List.length_cons]; omega
    show readLines (k + 1) rp ppm (l ++ 10 :: fileOfLines ls rest) = _
    rw [readLines_step k rp ppm l _ hrp hl.1 hl.2]
    unfold headerTokens at htl
    by_cases hc : l.head? = some 35
    · rw [if_pos hc] at htl ⊢
      rw [ih rp ppm rp' ppm' k hls' htl hrp' hk]
      exact readLines_fuel _ _ _ _ _ (by omega) (by omega)
    · rw [if_neg hc] at htl ⊢
      rw [tokenLoop_append] at htl
      cases h1 : tokenLoop f₀ rp ppm (strtok (l ++ [10])) with
      | inr r => rw [h1] at htl; simp at htl
      | inl x =>
        obtain ⟨rp₁, ppm₁⟩ := x
        rw [h1] at htl
        rw [tokenLoop_inl_indep f₀ (fileOfLines ls rest) _ rp ppm _ h1]
        show readLines k rp₁ ppm₁ (fileOfLines ls rest) = _
        rw [ih rp₁ ppm₁ rp' ppm' k hls' htl hrp' hk]
        exact readLines_fuel _ _ _ _ _ (by omega) (by omega)

theorem headerTokens_append (ls : List (List Nat)) (last : List Nat)
    (hlast : last.head? ≠ some 35) :
    headerTokens (ls ++ [last]) = headerTokens ls ++ strtok (last ++ [10]) := by
  induction ls with
  | nil => simp [headerTokens, hlast]
  | cons l ls ih =>
    simp only [List.cons_append, headerTokens, List.append_eq]
    split
    · exact ih
    · rw [ih, List.append_assoc]

theorem fileOfLines_append (ls : List (List Nat)) (last rest : List Nat) :
    fileOfLines (ls ++ [last]) rest = fileOfLines ls (last ++ 10 :: rest) := by
  induction ls with
  | nil => rfl
  | cons l ls ih => simp only [List.cons_append, fileOfLines, List.append_eq, ih]

theorem toU32_atoi_decimal {n : Nat} (h : n < 4294967296) : toU32 (atoi (decimal n)) = n := by
  have e := atoi_printInt (n : Int) (by omega) (by omega)
  rw [← printInt_natCast, e, toU32_natCast h]

theorem tagToken_eq (F : OUTPUT_FORMAT) :
    bytes (if F = OUTPUT_FORMAT.PPM_BINARY then "P6" else "P3") =
      80 :: printInt ((F.code : Nat) : Int) := by
  cases F <;> decide

/-- The state of the parser after a proper prefix of the four header tokens, and the
result of the pass over the tokens that remain. -/
theorem tokenLoop_header (f : List Nat) (ppm0 : PPM) (F : OUTPUT_FORMAT) (w h m : Nat)
    (hw : 0 < w ∧ w < 4294967296) (hh : 0 < h ∧ h < 4294967296)
    (hm : 0 < m ∧ m < 4294967296) (A B : List (List Nat)) (hB : B ≠ [])
    (hAB : A ++ B = [bytes (if F = OUTPUT_FORMAT.PPM_BINARY then "P6" else "P3"),
      decimal w, decimal h, decimal m]) :
    ∃ rp' ppm', tokenLoop f READING_PARAMS.TAG ppm0 A = Sum.inl (rp', ppm') ∧
      rp' ≠ READING_PARAMS.FAILURE ∧
      tokenLoop f rp' ppm' B =
        Sum.inr (readBody { ppm0 with tag := F.code, width := w, height := h, maxColor := m }
          f) := by
  rw [tagToken_eq] at hAB
  have ew := toU32_atoi_decimal hw.2
  have eh := toU32_atoi_decimal hh.2
  have em := toU32_atoi_decimal hm.2
  have hM : ∀ p : PPM, tokenLoop f READING_PARAMS.MAX_COLOR p [decimal m] =
      Sum.inr (readBody { p with maxColor := m } f) := by
    intro p
    rw [tokenLoop_maxColor f p _ (by rw [em]; omega), em]
  have hH : ∀ p : PPM, tokenLoop f READING_PARAMS.HEIGHT p [decimal h] =
      Sum.inl (READING_PARAMS.MAX_COLOR, { p with height := h }) := by
    intro p
    rw [tokenLoop_height f p _ (by rw [eh]; omega), eh]
  have hW : ∀ p : PPM, tokenLoop f READING_PARAMS.WIDTH p [decimal w] =
      Sum.inl (READING_PARAMS.HEIGHT, { p with width := w }) := by
    intro p
    rw [tokenLoop_width f p _ (by rw [ew]; omega), ew]
  have hT := tokenLoop_tag f ppm0 F
  match A, hAB with
  | [], hAB =>
    rw [List.nil_append] at hAB
    subst hAB
    refine ⟨_, _, rfl, by decide, ?_⟩
    rw [tokenLoop_cons, hT]
    simp only []
    rw [tokenLoop_cons, hW]
    simp only []
    rw [tokenLoop_cons, hH]
    simp only []
    rw [hM]
  | [a], hAB =>
    simp only [List.cons_append, List.nil_append, List.cons.injEq] at hAB
    obtain ⟨rfl, rfl⟩ := hAB
    refine ⟨_, _, hT, by decide, ?_⟩
    rw [tokenLoop_cons, hW]
    simp only []
    rw [tokenLoop_cons, hH]
    simp only []
    rw [hM]
  | [a, b], hAB =>
    simp only [List.cons_append, List.nil_append, List.cons.injEq] at hAB
    obtain ⟨rfl, rfl, rfl⟩ := hAB
    refine ⟨READING_PARAMS.HEIGHT, { ppm0 with tag := F.code, width := w }, ?_, by decide, ?_⟩
    · rw [tokenLoop_cons, hT]
      simp only []
      rw [hW]
    · rw [tokenLoop_cons, hH]
      simp only []
      rw [hM]
  | [a, b, c], hAB =>
    simp only [List.cons_append, List.nil_append, List.cons.injEq] at hAB
    obtain ⟨rfl, rfl, rfl, rfl⟩ := hAB
    refine ⟨READING_PARAMS.MAX_COLOR, { ppm0 with tag := F.code, width := w, height := h },
      ?_, by decide, ?_⟩
    · rw [tokenLoop_cons, hT]
      simp only []
      rw [tokenLoop_cons, hW]
      simp only []
      rw [hH]
    · rw [hM]
  | a :: b :: c :: d :: A', hAB =>
    simp only [List.cons_append, List.cons.injEq] at hAB
    obtain ⟨_, _, _, _, hnil⟩ := hAB
    have : B = [] := (List.append_eq_nil.mp hnil).2
    exact absurd this hB

set_option maxRecDepth 4000 in
theorem readPPM_exampleLongLine :
    (readPPM (some exampleLongLine) zeroPPM).map
        (fun r => (r.value, r.ppm.tag, r.ppm.width, r.ppm.height, r.ppm.maxColor)) =
      some (true, 6, 1, 2, 1) := by
  decide

/-- C16 (as stated) fails for a header line longer than the line buffer: with 98 spaces in
front of the width `12`, `fgets` cuts the line after the `1`; the decoder takes width 1,
height 2 and maxColor 1 and returns `SUCCESS`, though the tokens are `12`, `1` and `255`. -/
theorem readPPM_splits_long_line :
    exampleLongLine =
      fileOfLines [bytes "P6", List.replicate 98 32 ++ bytes "12 1", bytes "255"]
        (List.replicate 36 7) ∧
    headerTokens [bytes "P6", List.replicate 98 32 ++ bytes "12 1", bytes "255"] =
      [bytes "P6", bytes "12", bytes "1", bytes "255"] ∧
    (readPPM (some exampleLongLine) zeroPPM).map
        (fun r => (r.value, r.ppm.tag, r.ppm.width, r.ppm.height, r.ppm.maxColor)) =
      some (true, 6, 1, 2, 1) :=
  ⟨by decide, by decide, readPPM_exampleLongLine⟩

/-- C16 (as amended): let the header be a sequence of lines, each shorter than 99 characters
and free of NUL bytes, the last of which is not a comment and holds a token, and let the
tokens of the lines that do not start with `#` be, in order, the tag (`P6` or `P3`) and the
decimal numerals of a width, a height and a maxColor, each positive and below `2^31`.
Then, however the tokens are spread over the lines and wherever the comment lines sit,
`readPPM` reaches the pixel read at the body that follows the last line, with tag, width,
height and maxColor equal to the token values; and when the body is complete (the raw bytes
for `P6`, the samples in decimal for `P3`, none above maxColor) it returns `SUCCESS` with
these samples. -/
theorem readPPM_header_layout (ls : List (List Nat)) (last body : List Nat)
    (F : OUTPUT_FORMAT) (w h m : Nat) (ppm0 : PPM)
    (hlines : ∀ l, l ∈ ls ++ [last] → LineChars l ∧ l.length < 99)
    (hlast : last.head? ≠ some 35) (hlastTok : strtok (last ++ [10]) ≠ [])
    (htoks : headerTokens (ls ++ [last]) =
      [bytes (if F = OUTPUT_FORMAT.PPM_BINARY then "P6" else "P3"),
        decimal w, decimal h, decimal m])
    (hw : 0 < w ∧ w < 2147483648) (hh : 0 < h ∧ h < 2147483648)
    (hm : 0 < m ∧ m < 2147483648) :
    ∃ r, readPPM (some (fileOfLines (ls ++ [last]) body)) ppm0 = some r ∧
      r = readBody { ppm0 with tag := F.code, width := w, height := h, maxColor := m } body ∧
      r.ppm.tag = F.code ∧ r.ppm.width = w ∧ r.ppm.height = h ∧ r.ppm.maxColor = m ∧
      ∀ pixels : List Nat, pixels.length = 3 * w * h → 3 * w * h < 4294967296 →
        (∀ b, b ∈ pixels → b < 256 ∧ b ≤ m) →
        body = (if F = OUTPUT_FORMAT.PPM_BINARY then pixels else textOf pixels) →
        r.value = true ∧ r.ppm.pixels = pixels := by
  have hsplit := headerTokens_append ls last hlast
  rw [hsplit] at htoks
  obtain ⟨rp', ppm', hA, hrp', hB⟩ := tokenLoop_header body ppm0 F w h m
    ⟨hw.1, by omega⟩ ⟨hh.1, by omega⟩ ⟨hm.1, by omega⟩ _ _ hlastTok htoks
  have hl := hlines last (List.mem_append_right _ (List.mem_singleton_self _))
  have hls : ∀ l, l ∈ ls → LineChars l ∧ l.length < 99 :=
    fun l hl => hlines l (List.mem_append_left _ hl)
  have hread : readPPM (some (fileOfLines (ls ++ [last]) body)) ppm0 =
      some (readBody { ppm0 with tag := F.code, width := w, height := h, maxColor := m }
        body) := by
    rw [fileOfLines_append]
    rw [readPPM_eq_readLines _ ppm0 ((fileOfLines ls (last ++ 10 :: body)).length + 1)
      (Nat.lt_succ_self _)]
    rw [readLines_lines body (last ++ 10 :: body) ls _ ppm0 rp' ppm' _ hls hA hrp'
      (Nat.lt_succ_self _)]
    rw [readLines_step _ rp' ppm' last body hrp' hl.1 hl.2, if_neg hlast, hB]
  refine ⟨_, hread, rfl, ?_, ?_, ?_, ?_, ?_⟩
  · unfold readBody
    exact (readPixels_fields _ _).2.2.2.2
  · exact (readBody_fields _ _).1
  · exact (readBody_fields _ _).2.1
  · exact (readBody_fields _ _).2.2
  · intro pixels hlen hsz hb hbody
    cases F with
    | PPM_BINARY =>
      rw [if_pos rfl] at hbody
      subst hbody
      rw [readBody_binary _ body rfl hsz hlen]
      exact ⟨by simp [ReadResult.value], rfl⟩
    | PPM_PLAIN_TEXT =>
      rw [if_neg (by decide)] at hbody
      subst hbody
      rw [readBody_text _ pixels rfl hsz hlen (fun b hb' => (hb b hb').1)
        (fun b hb' => (hb b hb').2)]
      exact ⟨by simp [ReadResult.value], rfl⟩

/-- C16, instance: a PlainText header with a comment before the tag, the width and the
height on one line after a tab, a comment between the lines and the maxColor between
spaces, followed by the six samples of a `2 × 1` image. -/
theorem readPPM_header_layout_witness :
    fileOfLines ([bytes "# a", bytes "P3", bytes "\t2  1", bytes "# b"] ++ [bytes " 255 "])
        (textOf [1, 2, 3, 4, 5, 6]) =
      bytes "# a\nP3\n\t2  1\n# b\n 255 \n1 2 3 4 5 6 " ∧
    ∃ r, readPPM (some (fileOfLines
        ([bytes "# a", bytes "P3", bytes "\t2  1", bytes "# b"] ++ [bytes " 255 "])
        (textOf [1, 2, 3, 4, 5, 6]))) zeroPPM = some r ∧
      r.ppm.tag = 3 ∧ r.ppm.width = 2 ∧ r.ppm.height = 1 ∧ r.ppm.maxColor = 255 ∧
      r.value = true ∧ r.ppm.pixels = [1, 2, 3, 4, 5, 6] := by
  refine ⟨by decide, ?_⟩
  obtain ⟨r, h1, _, h3, h4, h5, h6, h7⟩ := readPPM_header_layout
    [bytes "# a", bytes "P3", bytes "\t2  1", bytes "# b"] (bytes " 255 ")
    (textOf [1, 2, 3, 4, 5, 6]) OUTPUT_FORMAT.PPM_PLAIN_TEXT 2 1 255 zeroPPM
    (by decide) (by decide) (by decide) (by decide) (by decide) (by decide) (by decide)
  obtain ⟨h8, h9⟩ := h7 [1, 2, 3, 4, 5, 6] (by decide) (by decide) (by decide) (by decide)
  exact ⟨r, h1, h3, h4, h5, h6, h8, h9⟩

/-! ## The two transforms run one after the other (mode `ALL`) -/

theorem tileChannelSum_const_tile {pixels : List Nat} {w h t tr tc c v : Nat}
    (hcell : ∀ bh, bh < effectiveSide h t tr → ∀ bw, bw < effectiveSide w t tc →
      pixels.getD (3 * ((tr * t + bh) * w + (tc * t + bw)) + c) 0 = v) :
    tileChannelSum pixels w h t tr tc c = effectiveSide h t tr * (effectiveSide w t tc * v) := by
  unfold tileChannelSum
  rw [Finset.sum_congr rfl (fun bh hbh => Finset.sum_congr rfl
    (fun bw hbw => hcell bh (Finset.mem_range.mp hbh) bw (Finset.mem_range.mp hbw)))]
  simp only [Finset.sum_const, Finset.card_range, smul_eq_mul]

/-- The cells of a tile of a buffer that holds the stored values of `pixels`. -/
theorem stored_cell {pixels R : List Nat} {w h t tr tc c : Nat} (ht : 0 < t) (hc : c < 3)
    (hR : ∀ j, j < 3 * w * h → R.getD j 0 =
      storedValue pixels w h t (blockOf t w j).1 (blockOf t w j).2 (j % 3))
    (bh : Nat) (hbh : bh < effectiveSide h t tr) (bw : Nat) (hbw : bw < effectiveSide w t tc) :
    R.getD (3 * ((tr * t + bh) * w + (tc * t + bw)) + c) 0 =
      storedValue pixels w h t tr tc c := by
  have hlt := cellIndex_lt hbh hbw
  unfold cellIndex at hlt
  have hwh : 3 * w * h = 3 * (h * w) := by ring
  have hj : 3 * ((tr * t + bh) * w + (tc * t + bw)) + c < 3 * w * h := by omega
  have hb : blockOf t w (3 * ((tr * t + bh) * w + (tc * t + bw)) + c) = (tr, tc) := by
    apply blockOf_of_inBlock (h := h) ht
    refine ⟨bh, hbh, bw, hbw, ?_⟩
    unfold cellIndex
    omega
  have hm : (3 * ((tr * t + bh) * w + (tc * t + bw)) + c) % 3 = c := by omega
  rw [hR _ hj, hb, hm]

/-- Without overflow the transform is idempotent on every tile: the stored value computed
from a buffer of stored values is the stored value itself. -/
theorem storedValue_of_stored {pixels R : List Nat} {w h t tr tc c : Nat}
    (hbytes : ∀ b, b ∈ pixels → b < 256) (ht : 0 < t) (htr : tr * t < h) (htc : tc * t < w)
    (hc : c < 3)
    (hR : ∀ j, j < 3 * w * h → R.getD j 0 =
      storedValue pixels w h t (blockOf t w j).1 (blockOf t w j).2 (j % 3))
    (hsum : tileChannelSum pixels w h t tr tc c < 2147483648) :
    storedValue R w h t tr tc c = storedValue pixels w h t tr tc c := by
  have hv := storedValue_eq_tileMean hbytes hsum
  have h1 : 0 < effectiveSide h t tr := effectiveSide_pos ht htr
  have h2 : 0 < effectiveSide w t tc := effectiveSide_pos ht htc
  have hle := tileChannelSum_le hbytes w h t tr tc c
  have hpos : 0 < effectiveSide w t tc * effectiveSide h t tr := Nat.mul_pos h2 h1
  have hmean : tileMean pixels w h t tr tc c ≤ 255 := by
    unfold tileMean
    exact Nat.div_le_of_le_mul (by rw [Nat.mul_comm] at hle; rw [Nat.mul_comm]; exact hle)
  have hmul : effectiveSide h t tr * (effectiveSide w t tc * tileMean pixels w h t tr tc c) ≤
      tileChannelSum pixels w h t tr tc c := by
    have := Nat.div_mul_le_self (tileChannelSum pixels w h t tr tc c)
      (effectiveSide w t tc * effectiveSide h t tr)
    unfold tileMean
    calc effectiveSide h t tr * (effectiveSide w t tc *
          (tileChannelSum pixels w h t tr tc c /
            (effectiveSide w t tc * effectiveSide h t tr)))
        = tileChannelSum pixels w h t tr tc c /
            (effectiveSide w t tc * effectiveSide h t tr) *
            (effectiveSide w t tc * effectiveSide h t tr) := by ring
      _ ≤ _ := this
  have hcells : tileChannelSum R w h t tr tc c =
      effectiveSide h t tr * (effectiveSide w t tc * tileMean pixels w h t tr tc c) := by
    apply tileChannelSum_const_tile
    intro bh hbh bw hbw
    rw [stored_cell ht hc hR bh hbh bw hbw, hv]
  rw [hv]
  unfold storedValue
  rw [hcells, toI32_of_range (by omega) (by omega), ← Int.ofNat_tdiv]
  have e : effectiveSide h t tr * (effectiveSide w t tc * tileMean pixels w h t tr tc c) /
      (effectiveSide w t tc * effectiveSide h t tr) = tileMean pixels w h t tr tc c := by
    have : effectiveSide h t tr * (effectiveSide w t tc * tileMean pixels w h t tr tc c) =
        tileMean pixels w h t tr tc c * (effectiveSide w t tc * effectiveSide h t tr) := by
      ring
    rw [this]
    exact Nat.mul_div_cancel _ hpos
  rw [e]
  exact toU8_of_lt (by omega)

theorem sum_range_mul (f : Nat → Nat) (w : Nat) : ∀ h : Nat,
    ∑ p in Finset.range (h * w), f p =
      ∑ y in Finset.range h, ∑ x in Finset.range w, f (y * w + x) := by
  intro h
  induction h with
  | zero => simp
  | succ h ih =>
    rw [Nat.succ_mul, Finset.sum_range_add, ih, Finset.sum_range_succ]

theorem sum_blocks_upto (g : Nat → Nat) (dim t : Nat) : ∀ K : Nat,
    ∑ k in Finset.range K, ∑ b in Finset.range (effectiveSide dim t k), g (k * t + b) =
      ∑ i in Finset.range (min (K * t) dim), g i := by
  intro K
  induction K with
  | zero => simp
  | succ K ih =>
    rw [Finset.sum_range_succ, ih]
    have e : min ((K + 1) * t) dim = min (K * t) dim + effectiveSide dim t K := by
      unfold effectiveSide
      have : (K + 1) * t = K * t + t := Nat.succ_mul K t
      omega
    rw [e, Finset.sum_range_add]
    congr 1
    by_cases hk : K * t ≤ dim
    · rw [Nat.min_eq_left hk]
    · have hz : effectiveSide dim t K = 0 := by unfold effectiveSide; omega
      rw [hz]
      simp

theorem blocks_mul_ge {dim t : Nat} (ht : 0 < t) (hd : dim < 4294967296) :
    dim ≤ blocks dim t * t := by
  have h := (lt_blocks_iff (b := blocks dim t) ht hd).not
  have : ¬ (blocks dim t * t < dim) := h.mp (Nat.lt_irrefl _)
  omega

theorem sum_blocks (g : Nat → Nat) {dim t : Nat} (ht : 0 < t) (hd : dim < 4294967296) :
    ∑ k in Finset.range (blocks dim t),
        ∑ b in Finset.range (effectiveSide dim t k), g (k * t + b) =
      ∑ i in Finset.range dim, g i := by
  rw [sum_blocks_upto, Nat.min_eq_right (blocks_mul_ge ht hd)]

/-- The tiles of the grid partition the pixels: a sum over the cells of all the tiles is the
sum over the pixels. -/
theorem sum_tiles (f : Nat → Nat) {w h t : Nat} (ht : 0 < t) (hw : w < 4294967296)
    (hh : h < 4294967296) :
    ∑ tr in Finset.range (blocks h t), ∑ tc in Finset.range (blocks w t),
        ∑ bh in Finset.range (effectiveSide h t tr),
          ∑ bw in Finset.range (effectiveSide w t tc),
            f ((tr * t + bh) * w + (tc * t + bw)) =
      ∑ p in Finset.range (h * w), f p := by
  rw [sum_range_mul f w h, ← sum_blocks (fun y => ∑ x in Finset.range w, f (y * w + x)) ht hh]
  apply Finset.sum_congr rfl
  intro tr _
  rw [Finset.sum_comm]
  apply Finset.sum_congr rfl
  intro bh _
  exact sum_blocks (fun x => f ((tr * t + bh) * w + x)) ht hw

theorem sum_tileChannelSum (pixels : List Nat) {w h t : Nat} (c : Nat) (ht : 0 < t)
    (hw : w < 4294967296) (hh : h < 4294967296) :
    ∑ tr in Finset.range (blocks h t), ∑ tc in Finset.range (blocks w t),
        tileChannelSum pixels w h t tr tc c = channelSum pixels w h c := by
  unfold tileChannelSum channelSum
  rw [Nat.mul_comm w h]
  exact sum_tiles (fun p => pixels.getD (3 * p + c) 0) ht hw hh

theorem sum_tileArea {w h t : Nat} (ht : 0 < t) (hw : w < 4294967296)
    (hh : h < 4294967296) :
    ∑ tr in Finset.range (blocks h t), ∑ tc in Finset.range (blocks w t),
        effectiveSide w t tc * effectiveSide h t tr = w * h := by
  have h1 := sum_tiles (fun _ => 1) ht hw hh
  simp only [Finset.sum_const, Finset.card_range, smul_eq_mul, Nat.mul_one] at h1
  rw [Nat.mul_comm w h, ← h1]
  apply Finset.sum_congr rfl
  intro tr _
  apply Finset.sum_congr rfl
  intro tc _
  exact Nat.mul_comm _ _

theorem channelSum_uniform (w h v c : Nat) (hc : c < 3) :
    channelSum (List.replicate (3 * w * h) v) w h c = w * h * v := by
  unfold channelSum
  have hcell : ∀ p, p ∈ Finset.range (w * h) →
      (List.replicate (3 * w * h) v).getD (3 * p + c) 0 = v := by
    intro p hp
    rw [Finset.mem_range] at hp
    have hi : 3 * p + c < (List.replicate (3 * w * h) v).length := by
      rw [List.length_replicate, Nat.mul_assoc]; omega
    rw [List.getD_eq_getElem _ _ hi, List.getElem_replicate]
  rw [Finset.sum_congr rfl hcell]
  simp only [Finset.sum_const, Finset.card_range, smul_eq_mul]

/-- The sum of a function over a product of two ranges, taken as a list. -/
theorem sum_map_range (g : Nat → Nat) (n : Nat) :
    ((List.range n).map g).sum = ∑ i in Finset.range n, g i := by
  induction n with
  | zero => rfl
  | succ n ih =>
    rw [List.range_succ, List.map_append, List.sum_append, ih, Finset.sum_range_succ]
    simp

/-! ## The image sums of `CPU_mosaic` -/

/-- A loop whose body adds `v k` to an `unsigned int` accumulator leaves the total modulo
`2^32`. -/
theorem forLoop_usum {σ : Type} (proj : σ → Nat) (m : Nat) (body : Nat → σ → σ)
    (v : Nat → Nat)
    (hbody : ∀ k, k < m → ∀ s, proj s < 4294967296 →
      proj (body k s) = (proj s + v k) % 4294967296)
    (s : σ) (hs : proj s < 4294967296) :
    proj (forLoop m body s) = (proj s + ∑ k in Finset.range m, v k) % 4294967296 := by
  induction m with
  | zero => rw [forLoop_zero, Finset.sum_range_zero, Nat.add_zero, Nat.mod_eq_of_lt hs]
  | succ m ih =>
    have ih' := ih (fun k hk => hbody k (Nat.lt_succ_of_lt hk))
    have hlt : proj (forLoop m body s) < 4294967296 := by
      rw [ih']; exact Nat.mod_lt _ (by decide)
    rw [forLoop_succ, hbody m (Nat.lt_succ_self m) _ hlt, ih', Finset.sum_range_succ]
    omega

theorem toU32_add_natCast (a b : Nat) :
    toU32 ((a : Int) + ((b : Nat) : Int)) = (a + b) % 4294967296 := by
  unfold toU32; omega

theorem cpuSumBody_global {t w h hb wb bh bw : Nat} (hsz : 3 * w * h < 2147483648)
    (pixels : List Nat) (hbh : bh < effectiveSide h t hb) (hbw : bw < effectiveSide w t wb)
    (c : Nat) (hc : c < 3) (s : CpuSums) :
    (cpuSumBody pixels t w hb wb bh bw s).global c =
      (s.global c + pixels.getD (3 * cellIndex t w hb wb bh bw + c) 0) % 4294967296 := by
  have hlt := cellIndex_lt hbh hbw
  have hwh : h * w * 3 = 3 * w * h := by ring
  have hp : 3 * cellIndex t w hb wb bh bw + 2 < 3 * w * h := by omega
  have e0 := byteIndex_eq 0 (by omega) hp hsz
  have e1 := byteIndex_eq 1 (by omega) hp hsz
  have e2 := byteIndex_eq 2 (by omega) hp hsz
  simp only [Nat.cast_zero, Nat.cast_one, Nat.cast_ofNat, Nat.add_zero] at e0 e1 e2
  have : c = 0 ∨ c = 1 ∨ c = 2 := by omega
  unfold cpuSumBody CpuSums.global
  dsimp only
  rcases this with h | h | h <;> subst h
  · rw [if_pos rfl, if_pos rfl, pixelIndex_eq hsz hbh hbw, e0, rd_natCast, toU32_add_natCast,
      Nat.add_zero]
  · rw [if_neg (by decide), if_pos rfl, if_neg (by decide), if_pos rfl,
      pixelIndex_eq hsz hbh hbw, e1, rd_natCast, toU32_add_natCast]
  · rw [if_neg (by decide), if_neg (by decide), if_neg (by decide), if_neg (by decide),
      pixelIndex_eq hsz hbh hbw, e2, rd_natCast, toU32_add_natCast]

theorem cpuSums_global (t w h hb wb : Nat) (hsz : 3 * w * h < 2147483648)
    (pixels : List Nat) (c : Nat) (hc : c < 3) (s : CpuSums)
    (hs : s.global c < 4294967296) :
    (forLoop (effectiveSide h t hb) (fun block_h s =>
      forLoop (effectiveSide w t wb) (fun block_w s =>
        cpuSumBody pixels t w hb wb block_h block_w s) s) s).global c =
      (s.global c + tileChannelSum pixels w h t hb wb c) % 4294967296 := by
  rw [forLoop_usum (fun s : CpuSums => s.global c) (effectiveSide h t hb) _
    (fun bh => ∑ bw in Finset.range (effectiveSide w t wb),
      pixels.getD (3 * cellIndex t w hb wb bh bw + c) 0) _ s hs]
  · rfl
  · intro bh hbh s hs
    apply forLoop_usum (fun s : CpuSums => s.global c) (effectiveSide w t wb) _ _ _ s hs
    intro bw hbw s' _
    exact cpuSumBody_global hsz pixels hbh hbw c hc s'

theorem cpuBlock_global (mode : MODE) {t hb wb : Nat} (st : CpuState)
    (hsz : 3 * st.ppm.width * st.ppm.height < 2147483648) (ht2 : t < 4294967296)
    (hhb : hb * t < st.ppm.height) (hwb : wb * t < st.ppm.width) (c : Nat) (hc : c < 3)
    (hs : st.global c < 4294967296) :
    (cpuBlock mode t hb wb st).global c =
      (st.global c + tileChannelSum st.ppm.pixels st.ppm.width st.ppm.height t hb wb c)
        % 4294967296 := by
  have hw : 0 < st.ppm.width := by omega
  have hh : 0 < st.ppm.height := by omega
  have hwh1 : st.ppm.width ≤ st.ppm.width * st.ppm.height := Nat.le_mul_of_pos_right _ hh
  have hwh2 : st.ppm.height ≤ st.ppm.width * st.ppm.height := Nat.le_mul_of_pos_left _ hw
  have hsz' : 3 * (st.ppm.width * st.ppm.height) < 2147483648 := by
    rw [← Nat.mul_assoc]; exact hsz
  have h := cpuSums_global t st.ppm.width st.ppm.height hb wb hsz st.ppm.pixels c hc
    ⟨0, 0, 0, st.globalSumR, st.globalSumG, st.globalSumB⟩ hs
  unfold cpuBlock
  simp only [dynamicBlock_eq (by omega : st.ppm.width ≤ 2147483648) ht2 hwb,
    dynamicBlock_eq (by omega : st.ppm.height ≤ 2147483648) ht2 hhb]
  exact h

/-- A fold over disjoint tiles that also accumulates a quantity read from the cells of
each tile before the tile is overwritten: the quantity is the one read from the input. -/
theorem foldTiles_acc {σ β : Type} {t w h : Nat} (hsz : 3 * w * h < 2147483648) (ht : 0 < t)
    (ht2 : t < 4294967296) (orig : List Nat)
    (P : σ → List Nat) (A : σ → β) (Inv : σ → Prop) (F : Nat × Nat → σ → σ)
    (add : Nat × Nat → List Nat → β → β)
    (hP : ∀ T s, Inv s → P (F T s) = blockStep t w h T.1 T.2 (P s))
    (hInv : ∀ T s, Inv s → T.1 * t < h → T.2 * t < w → Inv (F T s))
    (hA : ∀ T s, Inv s → T.1 * t < h → T.2 * t < w → A (F T s) = add T (P s) (A s))
    (hadd : ∀ T buf, (∀ j, j < 3 * w * h → blockOf t w j = T →
      buf.getD j 0 = orig.getD j 0) → add T buf = add T orig) :
    ∀ (tiles : List (Nat × Nat)), tiles.Nodup →
      (∀ T, T ∈ tiles → T.1 * t < h ∧ T.2 * t < w) →
      ∀ s : σ, Inv s → (P s).length = 3 * w * h →
      (∀ j, j < 3 * w * h → blockOf t w j ∈ tiles → (P s).getD j 0 = orig.getD j 0) →
      A (tiles.foldl (fun s T => F T s) s) = tiles.foldl (fun a T => add T orig a) (A s) := by
  intro tiles
  induction tiles with
  | nil => intro _ _ s _ _ _; rfl
  | cons T tiles ih =>
    intro hnd hval s hinv hlen hagree
    obtain ⟨hT, hnd'⟩ := List.nodup_cons.mp hnd
    obtain ⟨hv1, hv2⟩ := hval T (List.mem_cons_self _ _)
    obtain ⟨hl1, hw1⟩ := blockStep_writes hsz ht2 hv1 hv2 (P s) hlen
    have hagree' : ∀ j, j < 3 * w * h → blockOf t w j ∈ tiles →
        (P (F T s)).getD j 0 = orig.getD j 0 := by
      intro j hj hmem
      have hne : blockOf t w j ≠ T := fun h => hT (h ▸ hmem)
      rw [hP T s hinv, (hw1 j hj).2 (fun hin => hne (blockOf_of_inBlock ht hin))]
      exact hagree j hj (List.mem_cons_of_mem _ hmem)
    simp only [List.foldl_cons]
    rw [ih hnd' (fun T' hT' => hval T' (List.mem_cons_of_mem _ hT')) (F T s)
      (hInv T s hinv hv1 hv2) (by rw [hP T s hinv]; exact hl1) hagree']
    rw [hA T s hinv hv1 hv2, hadd T (P s)
      (fun j hj hb => hagree j hj (by rw [hb]; exact List.mem_cons_self _ _))]

theorem foldl_add_mod (g : Nat × Nat → Nat) (tiles : List (Nat × Nat)) : ∀ a : Nat,
    a < 4294967296 →
    tiles.foldl (fun a T => (a + g T) % 4294967296) a =
      (a + (tiles.map g).sum) % 4294967296 := by
  induction tiles with
  | nil => intro a ha; simp [Nat.mod_eq_of_lt ha]
  | cons T tiles ih =>
    intro a _
    simp only [List.foldl_cons, List.map_cons, List.sum_cons]
    rw [ih _ (Nat.mod_lt _ (by decide))]
    omega

theorem sum_map_product (g : Nat × Nat → Nat) (l₁ l₂ : List Nat) :
    ((l₁ ×ˢ l₂).map g).sum = (l₁.map (fun a => (l₂.map (fun b => g (a, b))).sum)).sum := by
  induction l₁ with
  | nil => rfl
  | cons a l ih =>
    rw [List.product_cons, List.map_append, List.sum_append, List.map_map, ih]
    rfl

theorem sum_map_grid (g : Nat × Nat → Nat) (m n : Nat) :
    ((List.range m ×ˢ List.range n).map g).sum =
      ∑ a in Finset.range m, ∑ b in Finset.range n, g (a, b) := by
  rw [sum_map_product, sum_map_range]
  apply Finset.sum_congr rfl
  intro a _
  exact sum_map_range _ _

/-- The image sums of `CPU_mosaic`: each is the sum of its channel over the pixels of
the input, modulo `2^32`. -/
theorem CPU_mosaic_global (mode : MODE) {t : Nat} {ppm : PPM} (hwf : WellFormed ppm)
    (ht : 0 < t) (htw : t ≤ ppm.width) (c : Nat) (hc : c < 3) :
    ∃ r, CPU_mosaic mode t ppm = some r ∧
      r.average c =
        channelSum ppm.pixels ppm.width ppm.height c % 4294967296 / ppm.pixels_count := by
  obtain ⟨hw, hh, hsz, hlen, hbytes⟩ := hwf
  have hwh1 : ppm.width ≤ ppm.width * ppm.height := Nat.le_mul_of_pos_right _ hh
  have hwh2 : ppm.height ≤ ppm.width * ppm.height := Nat.le_mul_of_pos_left _ hw
  have hsz' : 3 * (ppm.width * ppm.height) < 2147483648 := by
    rw [← Nat.mul_assoc]; exact hsz
  have ht2 : t < 4294967296 := by omega
  have hnd : (List.range (blocks ppm.height t) ×ˢ List.range (blocks ppm.width t)).Nodup :=
    List.Nodup.product (List.nodup_range _) (List.nodup_range _)
  have hval : ∀ T : Nat × Nat,
      T ∈ (List.range (blocks ppm.height t) ×ˢ List.range (blocks ppm.width t)) →
      T.1 * t < ppm.height ∧ T.2 * t < ppm.width := by
    intro T hT
    obtain ⟨h1, h2⟩ := List.mem_product.mp hT
    rw [List.mem_range] at h1 h2
    exact ⟨(lt_blocks_iff ht (by omega)).mp h1, (lt_blocks_iff ht (by omega)).mp h2⟩
  have hzero : (⟨ppm, 0, 0, 0⟩ : CpuState).global c = 0 := by
    unfold CpuState.global; split <;> [rfl; (split <;> rfl)]
  have hfold := foldTiles_acc (σ := CpuState) (β := Nat) hsz ht ht2 ppm.pixels
    (fun st => st.ppm.pixels) (fun st => st.global c)
    (fun st => st.ppm.width = ppm.width ∧ st.ppm.height = ppm.height ∧
      st.ppm.pixels_count = ppm.pixels_count ∧ st.global c < 4294967296)
    (fun T st => cpuBlock mode t T.1 T.2 st)
    (fun T buf a => (a + tileChannelSum buf ppm.width ppm.height t T.1 T.2 c) % 4294967296)
    (fun T st hinv => by
      show (cpuBlock mode t T.1 T.2 st).ppm.pixels = _
      rw [cpuBlock_ppm, hinv.1, hinv.2.1]; rfl)
    (fun T st hinv h1 h2 => by
      refine ⟨?_, ?_, ?_, ?_⟩
      · show (cpuBlock mode t T.1 T.2 st).ppm.width = _
        rw [cpuBlock_ppm]; exact hinv.1
      · show (cpuBlock mode t T.1 T.2 st).ppm.height = _
        rw [cpuBlock_ppm]; exact hinv.2.1
      · show (cpuBlock mode t T.1 T.2 st).ppm.pixels_count = _
        rw [cpuBlock_ppm]; exact hinv.2.2.1
      · rw [cpuBlock_global mode st (by rw [hinv.1, hinv.2.1]; exact hsz) ht2
          (by rw [hinv.2.1]; exact h1) (by rw [hinv.1]; exact h2) c hc hinv.2.2.2]
        exact Nat.mod_lt _ (by decide))
    (fun T st hinv h1 h2 => by
      show (cpuBlock mode t T.1 T.2 st).global c = _
      rw [cpuBlock_global mode st (by rw [hinv.1, hinv.2.1]; exact hsz) ht2
          (by rw [hinv.2.1]; exact h1) (by rw [hinv.1]; exact h2) c hc hinv.2.2.2,
        hinv.1, hinv.2.1])
    (fun T buf hag => by
      show (fun a => _) = (fun a => _)
      funext a
      rw [tileChannelSum_congr ht hc buf ppm.pixels
        (fun j hj hb => hag j hj (by rw [hb]))])
    _ hnd hval ⟨ppm, 0, 0, 0⟩
    ⟨rfl, rfl, rfl, by rw [hzero]; decide⟩ hlen
    (fun _ _ _ => rfl)
  have hcount := foldTiles_acc (σ := CpuState) (β := Nat) hsz ht ht2 ppm.pixels
    (fun st => st.ppm.pixels) (fun st => st.ppm.pixels_count)
    (fun st => st.ppm.width = ppm.width ∧ st.ppm.height = ppm.height)
    (fun T st => cpuBlock mode t T.1 T.2 st)
    (fun _ _ a => a)
    (fun T st hinv => by
      show (cpuBlock mode t T.1 T.2 st).ppm.pixels = _
      rw [cpuBlock_ppm, hinv.1, hinv.2]; rfl)
    (fun T st hinv _ _ => by
      refine ⟨?_, ?_⟩
      · show (cpuBlock mode t T.1 T.2 st).ppm.width = _
        rw [cpuBlock_ppm]; exact hinv.1
      · show (cpuBlock mode t T.1 T.2 st).ppm.height = _
        rw [cpuBlock_ppm]; exact hinv.2)
    (fun T st _ _ _ => by
      show (cpuBlock mode t T.1 T.2 st).ppm.pixels_count = _
      rw [cpuBlock_ppm]; rfl)
    (fun _ _ _ => rfl)
    _ hnd hval ⟨ppm, 0, 0, 0⟩ ⟨rfl, rfl⟩ hlen (fun _ _ _ => rfl)
  have hcount' : ∀ (l : List (Nat × Nat)) (a : Nat), l.foldl (fun a _ => a) a = a := by
    intro l
    induction l with
    | nil => intro a; rfl
    | cons _ l ih => intro a; exact ih a
  beta_reduce at hfold hcount
  rw [hcount'] at hcount
  rw [foldl_add_mod (fun T => tileChannelSum ppm.pixels ppm.width ppm.height t T.1 T.2 c) _ _
    (by rw [hzero]; decide), hzero, Nat.zero_add, sum_map_grid,
    sum_tileChannelSum ppm.pixels c ht (by omega) (by omega)] at hfold
  have hloop : forLoop (blocks ppm.height t) (fun height_block st =>
      forLoop (blocks ppm.width t) (fun width_block st =>
        cpuBlock mode t height_block width_block st) st) ⟨ppm, 0, 0, 0⟩ =
      (List.range (blocks ppm.height t) ×ˢ List.range (blocks ppm.width t)).foldl
        (fun st T => cpuBlock mode t T.1 T.2 st) ⟨ppm, 0, 0, 0⟩ := by
    rw [foldl_product]
    rfl
  unfold CPU_mosaic
  rw [checkBlockSize_of_le htw]
  refine ⟨_, rfl, ?_⟩
  simp only [hloop]
  simp only [] at hfold hcount
  unfold CpuResult.average
  unfold CpuState.global at hfold
  simp only [hcount]
  have : c = 0 ∨ c = 1 ∨ c = 2 := by omega
  rcases this with h | h | h <;> subst h <;> simp at hfold ⊢ <;> rw [hfold]

/-! ## The image sums of `OPENMP_mosaic` -/

theorem ompBlockSums_global (mode : MODE) {t hb wb : Nat} (st : OmpState)
    (hsz : 3 * st.ppm.width * st.ppm.height < 2147483648) (ht2 : t < 4294967296)
    (hhb : hb * t < st.ppm.height) (hwb : wb * t < st.ppm.width) (c : Nat) (hc : c < 3) :
    (ompBlockSums mode t hb wb st).global c =
      st.global c + tileTerm st.ppm.pixels st.ppm.width st.ppm.height t
        st.ppm.pixels_count hb wb c := by
  have hw : 0 < st.ppm.width := by omega
  have hh : 0 < st.ppm.height := by omega
  have hwh1 : st.ppm.width ≤ st.ppm.width * st.ppm.height := Nat.le_mul_of_pos_right _ hh
  have hwh2 : st.ppm.height ≤ st.ppm.width * st.ppm.height := Nat.le_mul_of_pos_left _ hw
  have harea := effectiveSide_mul_le hhb hwb
  have hsz' : 3 * (st.ppm.width * st.ppm.height) < 2147483648 := by
    rw [← Nat.mul_assoc]; exact hsz
  have hch := blockSums_chan t st.ppm.width st.ppm.height hb wb hsz st.ppm.pixels c hc
  unfold blockSums at hch
  unfold ompBlockSums OmpState.global tileTerm averageDynamicSize
  simp only [dynamicBlock_eq (by omega : st.ppm.width ≤ 2147483648) ht2 hwb,
    dynamicBlock_eq (by omega : st.ppm.height ≤ 2147483648) ht2 hhb]
  rw [u32_of_lt (by omega), toI32_of_range (by omega) (by omega), ← hch]
  unfold LocalSums.chan channelValue
  have : c = 0 ∨ c = 1 ∨ c = 2 := by omega
  rcases this with h | h | h <;> subst h <;> simp

theorem foldl_add_sum {α : Type} (g : α → ℚ) (l : List α) : ∀ a : ℚ,
    l.foldl (fun a T => a + g T) a = a + (l.map g).sum := by
  induction l with
  | nil => intro a; simp
  | cons T l ih =>
    intro a
    simp only [List.foldl_cons, List.map_cons, List.sum_cons]
    rw [ih, add_assoc]

theorem sum_map_div {α : Type} (m : α → Nat) (n : ℚ) (l : List α) :
    (l.map (fun T => ((m T : Nat) : ℚ) / n)).sum = (((l.map m).sum : Nat) : ℚ) / n := by
  induction l with
  | nil => simp
  | cons T l ih =>
    simp only [List.map_cons, List.sum_cons]
    rw [ih]
    push_cast
    rw [add_div]

/-- Without overflow of the `int` block sum a tile adds its truncated mean times its area,
divided by the number of pixels. -/
theorem tileTerm_eq {pixels : List Nat} {w h t n tr tc c : Nat}
    (hsum : tileChannelSum pixels w h t tr tc c < 2147483648) :
    tileTerm pixels w h t n tr tc c =
      ((tileChannelSum pixels w h t tr tc c /
          (effectiveSide w t tc * effectiveSide h t tr) *
          (effectiveSide w t tc * effectiveSide h t tr) : Nat) : ℚ) / (n : ℚ) := by
  unfold tileTerm
  rw [toI32_of_range (by omega) (by omega), ← Int.ofNat_tdiv, Int.cast_natCast,
    Nat.cast_mul (tileChannelSum pixels w h t tr tc c /
      (effectiveSide w t tc * effectiveSide h t tr)) (effectiveSide w t tc * effectiveSide h t tr),
    mul_div_assoc]

/-- The image sums of `OPENMP_mosaic`, in exact arithmetic: each is the sum of the terms of
the tiles, computed from the input. -/
theorem OPENMP_mosaic_global {mode : MODE} (hm : mode ≠ MODE.ALL) {t : Nat} {ppm : PPM}
    (hwf : WellFormed ppm) (ht : 0 < t) (htw : t ≤ ppm.width) (schedule : List Nat)
    (hperm : schedule.Perm (List.range (blocks ppm.height t))) (c : Nat) (hc : c < 3) :
    ∃ st, OPENMP_mosaic_sums mode t schedule ppm = some st ∧
      OPENMP_mosaic mode t schedule ppm = some st.ppm ∧
      st.global c = ((schedule ×ˢ List.range (blocks ppm.width t)).map
        (fun T => tileTerm ppm.pixels ppm.width ppm.height t ppm.pixels_count T.1 T.2 c)).sum := by
  obtain ⟨hw, hh, hsz, hlen, hbytes⟩ := hwf
  have hwh1 : ppm.width ≤ ppm.width * ppm.height := Nat.le_mul_of_pos_right _ hh
  have hwh2 : ppm.height ≤ ppm.width * ppm.height := Nat.le_mul_of_pos_left _ hw
  have hsz' : 3 * (ppm.width * ppm.height) < 2147483648 := by
    rw [← Nat.mul_assoc]; exact hsz
  have ht2 : t < 4294967296 := by omega
  have hnd : (schedule ×ˢ List.range (blocks ppm.width t)).Nodup :=
    List.Nodup.product ((hperm.nodup_iff).mpr (List.nodup_range _)) (List.nodup_range _)
  have hval : ∀ T : Nat × Nat, T ∈ (schedule ×ˢ List.range (blocks ppm.width t)) →
      T.1 * t < ppm.height ∧ T.2 * t < ppm.width := by
    intro T hT
    obtain ⟨h1, h2⟩ := List.mem_product.mp hT
    rw [hperm.mem_iff, List.mem_range] at h1
    rw [List.mem_range] at h2
    exact ⟨(lt_blocks_iff ht (by omega)).mp h1, (lt_blocks_iff ht (by omega)).mp h2⟩
  have hstep : ∀ (T : Nat × Nat) (st : OmpState), st.ppm.width = ppm.width →
      st.ppm.height = ppm.height →
      (ompBlockSums mode t T.1 T.2 st).ppm =
        withPixels st.ppm (blockStep t ppm.width ppm.height T.1 T.2 st.ppm.pixels) := by
    intro T st h1 h2
    show ompBlock mode t T.1 T.2 st.ppm = _
    rw [ompBlock_eq hm, h1, h2]
  have hfold := foldTiles_acc (σ := OmpState) (β := ℚ) hsz ht ht2 ppm.pixels
    (fun st => st.ppm.pixels) (fun st => st.global c)
    (fun st => st.ppm.width = ppm.width ∧ st.ppm.height = ppm.height ∧
      st.ppm.pixels_count = ppm.pixels_count)
    (fun T st => ompBlockSums mode t T.1 T.2 st)
    (fun T buf a => a + tileTerm buf ppm.width ppm.height t ppm.pixels_count T.1 T.2 c)
    (fun T st hinv => by
      show (ompBlockSums mode t T.1 T.2 st).ppm.pixels = _
      rw [hstep T st hinv.1 hinv.2.1]; rfl)
    (fun T st hinv _ _ => by
      refine ⟨?_, ?_, ?_⟩
      · show (ompBlockSums mode t T.1 T.2 st).ppm.width = _
        rw [hstep T st hinv.1 hinv.2.1]; exact hinv.1
      · show (ompBlockSums mode t T.1 T.2 st).ppm.height = _
        rw [hstep T st hinv.1 hinv.2.1]; exact hinv.2.1
      · show (ompBlockSums mode t T.1 T.2 st).ppm.pixels_count = _
        rw [hstep T st hinv.1 hinv.2.1]; exact hinv.2.2)
    (fun T st hinv h1 h2 => by
      show (ompBlockSums mode t T.1 T.2 st).global c = _
      rw [ompBlockSums_global mode st (by rw [hinv.1, hinv.2.1]; exact hsz) ht2
          (by rw [hinv.2.1]; exact h1) (by rw [hinv.1]; exact h2) c hc,
        hinv.1, hinv.2.1, hinv.2.2])
    (fun T buf hag => by
      show (fun a => _) = (fun a => _)
      funext a
      unfold tileTerm
      rw [tileChannelSum_congr ht hc buf ppm.pixels
        (fun j hj hb => hag j hj (by rw [hb]))])
    _ hnd hval ⟨ppm, 0, 0, 0⟩ ⟨rfl, rfl, rfl⟩ hlen (fun _ _ _ => rfl)
  beta_reduce at hfold
  have hzero : (⟨ppm, 0, 0, 0⟩ : OmpState).global c = 0 := by
    unfold OmpState.global; split <;> [rfl; (split <;> rfl)]
  rw [foldl_add_sum, hzero, zero_add] at hfold
  have hloop : schedule.foldl (fun st height_block =>
      forLoop (blocks ppm.width t) (fun width_block st =>
        ompBlockSums mode t height_block width_block st) st) ⟨ppm, 0, 0, 0⟩ =
      (schedule ×ˢ List.range (blocks ppm.width t)).foldl
        (fun st T => ompBlockSums mode t T.1 T.2 st) ⟨ppm, 0, 0, 0⟩ := by
    rw [foldl_product]
    rfl
  have hppm : ∀ (l : List Nat) (st : OmpState),
      (l.foldl (fun st height_block =>
        forLoop (blocks ppm.width t) (fun width_block st =>
          ompBlockSums mode t height_block width_block st) st) st).ppm =
      l.foldl (fun p height_block =>
        forLoop (blocks ppm.width t) (fun width_block p =>
          ompBlock mode t height_block width_block p) p) st.ppm := by
    intro l
    induction l with
    | nil => intro st; rfl
    | cons a l ih =>
      intro st
      simp only [List.foldl_cons]
      rw [ih]
      congr 1
      exact forLoop_proj OmpState.ppm _ _ _ (fun _ _ _ => rfl) st
  refine ⟨_, ?_, ?_, hfold⟩
  · unfold OPENMP_mosaic_sums
    rw [checkBlockSize_of_le htw]
    simp only [hloop]
  · unfold OPENMP_mosaic
    rw [checkBlockSize_of_le htw]
    simp only []
    rw [← hloop, hppm]

/-! ## The global averages -/

theorem blocks_pos {dim t : Nat} (ht : 0 < t) (hd0 : 0 < dim) (hd : dim < 4294967296) :
    0 < blocks dim t :=
  (lt_blocks_iff ht hd).mpr (by omega)

/-- The sum over the tiles of the truncated tile mean times the tile area lies within one
pixel count below the sum of the channel. -/
theorem grid_floor_bounds (pixels : List Nat) {w h t : Nat} (c : Nat) (ht : 0 < t)
    (hw0 : 0 < w) (hh0 : 0 < h) (hw : w < 4294967296) (hh : h < 4294967296) :
    ∑ tr in Finset.range (blocks h t), ∑ tc in Finset.range (blocks w t),
        tileChannelSum pixels w h t tr tc c / (effectiveSide w t tc * effectiveSide h t tr) *
          (effectiveSide w t tc * effectiveSide h t tr) ≤ channelSum pixels w h c ∧
    channelSum pixels w h c <
      (∑ tr in Finset.range (blocks h t), ∑ tc in Finset.range (blocks w t),
        tileChannelSum pixels w h t tr tc c / (effectiveSide w t tc * effectiveSide h t tr) *
          (effectiveSide w t tc * effectiveSide h t tr)) + w * h := by
  constructor
  · rw [← sum_tileChannelSum pixels c ht hw hh]
    exact Finset.sum_le_sum (fun tr _ => Finset.sum_le_sum
      (fun tc _ => Nat.div_mul_le_self _ _))
  · have hA := sum_tileArea (w := w) (h := h) ht hw hh
    rw [← sum_tileChannelSum pixels c ht hw hh]
    conv_rhs => rw [← hA]
    rw [← Finset.sum_add_distrib]
    apply Finset.sum_lt_sum_of_nonempty
    · exact Finset.nonempty_range_iff.mpr (Nat.pos_iff_ne_zero.mp (blocks_pos ht hh0 hh))
    · intro tr htr
      rw [← Finset.sum_add_distrib]
      apply Finset.sum_lt_sum_of_nonempty
      · exact Finset.nonempty_range_iff.mpr (Nat.pos_iff_ne_zero.mp (blocks_pos ht hw0 hw))
      · intro tc htc
        rw [Finset.mem_range] at htr htc
        have h1 : 0 < effectiveSide h t tr := effectiveSide_pos ht ((lt_blocks_iff ht hh).mp htr)
        have h2 : 0 < effectiveSide w t tc := effectiveSide_pos ht ((lt_blocks_iff ht hw).mp htc)
        exact Nat.lt_div_mul_add (Nat.mul_pos h2 h1)

/-- C14 (as stated) fails when an `unsigned int` image sum wraps around: on the
`4096 × 6153` image with every sample 255 the red channel sums to `6426685440 > 2^32 - 1`;
the average printed by `CPU_mosaic` is 84, and the mean of the channel is 255. -/
theorem CPU_average_wraps :
    WellFormed (uniformImage 4096 6153 255) ∧
    (uniformImage 4096 6153 255).pixels_count = 4096 * 6153 ∧
    ∃ r, CPU_mosaic MODE.CPU 4096 (uniformImage 4096 6153 255) = some r ∧
      r.averageR = 84 ∧
      channelSum (uniformImage 4096 6153 255).pixels 4096 6153 0 / (4096 * 6153) = 255 := by
  have hwf : WellFormed (uniformImage 4096 6153 255) :=
    wellFormed_uniformImage (by decide) (by decide) (by decide) (by decide)
  have hw : (uniformImage 4096 6153 255).width = 4096 := rfl
  have hh : (uniformImage 4096 6153 255).height = 6153 := rfl
  have hp : (uniformImage 4096 6153 255).pixels = List.replicate (3 * 4096 * 6153) 255 := rfl
  have hn : (uniformImage 4096 6153 255).pixels_count = 4096 * 6153 := by decide
  refine ⟨hwf, hn, ?_⟩
  obtain ⟨r, hr, havg⟩ := CPU_mosaic_global MODE.CPU (t := 4096) hwf (by decide) (by rw [hw])
    0 (by decide)
  rw [hw, hh, hp, hn, channelSum_uniform 4096 6153 255 0 (by decide)] at havg
  refine ⟨r, hr, ?_, ?_⟩
  · have e : r.average 0 = r.averageR := rfl
    rw [← e, havg]
  · rw [hp, channelSum_uniform 4096 6153 255 0 (by decide)]

/-- C14 (as amended): for a well-formed image with `pixels_count = width * height`, a tile
size `1 ≤ t ≤ width`, `t ≤ height` and each channel `c`: the average that `CPU_mosaic`
prints is the sum of the channel over all pixels, reduced modulo `2^32`, divided with
truncation by the pixel count, hence the truncated mean when that sum is below `2^32`; and
when no tile's channel sum reaches `2^31`, the image sum of `OPENMP_mosaic` (mode other than
`ALL`, any order of the tile rows), taken in exact rational arithmetic as the sum over the
tiles of truncated tile average times tile area over pixel count, satisfies
`mean - 1 < sum ≤ mean` for the exact mean of the channel. -/
theorem global_averages (mode mode' : MODE) (t : Nat) (ppm : PPM) (schedule : List Nat)
    (c : Nat) (hm' : mode' ≠ MODE.ALL) (hwf : WellFormed ppm)
    (hcount : ppm.pixels_count = ppm.width * ppm.height) (ht : 1 ≤ t) (htw : t ≤ ppm.width)
    (_hth : t ≤ ppm.height) (hperm : schedule.Perm (List.range (blocks ppm.height t)))
    (hc : c < 3) :
    (∃ r, CPU_mosaic mode t ppm = some r ∧
      r.average c = channelSum ppm.pixels ppm.width ppm.height c % 4294967296 /
        (ppm.width * ppm.height) ∧
      (channelSum ppm.pixels ppm.width ppm.height c < 4294967296 →
        r.average c = channelSum ppm.pixels ppm.width ppm.height c /
          (ppm.width * ppm.height))) ∧
    (∃ st, OPENMP_mosaic_sums mode' t schedule ppm = some st ∧
      OPENMP_mosaic mode' t schedule ppm = some st.ppm ∧
      ((∀ tr, tr < blocks ppm.height t → ∀ tc, tc < blocks ppm.width t →
          tileChannelSum ppm.pixels ppm.width ppm.height t tr tc c < 2147483648) →
        ((channelSum ppm.pixels ppm.width ppm.height c : Nat) : ℚ) /
            ((ppm.width * ppm.height : Nat) : ℚ) - 1 < st.global c ∧
        st.global c ≤ ((channelSum ppm.pixels ppm.width ppm.height c : Nat) : ℚ) /
            ((ppm.width * ppm.height : Nat) : ℚ))) := by
  have hwf' := hwf
  obtain ⟨hw, hh, hsz, hlen, hbytes⟩ := hwf
  have hwh1 : ppm.width ≤ ppm.width * ppm.height := Nat.le_mul_of_pos_right _ hh
  have hwh2 : ppm.height ≤ ppm.width * ppm.height := Nat.le_mul_of_pos_left _ hw
  have hsz' : 3 * (ppm.width * ppm.height) < 2147483648 := by
    rw [← Nat.mul_assoc]; exact hsz
  refine ⟨?_, ?_⟩
  · obtain ⟨r, hr, havg⟩ := CPU_mosaic_global mode hwf' ht htw c hc
    rw [hcount] at havg
    refine ⟨r, hr, havg, fun hlt => ?_⟩
    rw [havg, Nat.mod_eq_of_lt hlt]
  · obtain ⟨st, hst, hppm, hg⟩ := OPENMP_mosaic_global hm' hwf' ht htw schedule hperm c hc
    refine ⟨st, hst, hppm, fun hsum => ?_⟩
    have hterm : (schedule ×ˢ List.range (blocks ppm.width t)).map
        (fun T => tileTerm ppm.pixels ppm.width ppm.height t ppm.pixels_count T.1 T.2 c) =
        (schedule ×ˢ List.range (blocks ppm.width t)).map
        (fun T => ((tileChannelSum ppm.pixels ppm.width ppm.height t T.1 T.2 c /
          (effectiveSide ppm.width t T.2 * effectiveSide ppm.height t T.1) *
          (effectiveSide ppm.width t T.2 * effectiveSide ppm.height t T.1) : Nat) : ℚ) /
          ((ppm.width * ppm.height : Nat) : ℚ)) := by
      apply List.map_congr_left
      intro T hT
      obtain ⟨h1, h2⟩ := List.mem_product.mp hT
      rw [hperm.mem_iff, List.mem_range] at h1
      rw [List.mem_range] at h2
      rw [tileTerm_eq (hsum _ h1 _ h2), hcount]
    have hpermsum : ((schedule ×ˢ List.range (blocks ppm.width t)).map
        (fun T : Nat × Nat => tileChannelSum ppm.pixels ppm.width ppm.height t T.1 T.2 c /
          (effectiveSide ppm.width t T.2 * effectiveSide ppm.height t T.1) *
          (effectiveSide ppm.width t T.2 * effectiveSide ppm.height t T.1))).sum =
        ((List.range (blocks ppm.height t) ×ˢ List.range (blocks ppm.width t)).map
        (fun T : Nat × Nat => tileChannelSum ppm.pixels ppm.width ppm.height t T.1 T.2 c /
          (effectiveSide ppm.width t T.2 * effectiveSide ppm.height t T.1) *
          (effectiveSide ppm.width t T.2 * effectiveSide ppm.height t T.1))).sum :=
      ((hperm.product_right (List.range (blocks ppm.width t))).map _).sum_eq
    obtain ⟨hle, hlt⟩ := grid_floor_bounds ppm.pixels (w := ppm.width) (h := ppm.height) c ht
      hw hh (by omega) (by omega)
    rw [hg, hterm, sum_map_div, hpermsum, sum_map_grid]
    have hn : (0 : ℚ) < ((ppm.width * ppm.height : Nat) : ℚ) :=
      Nat.cast_pos.mpr (Nat.mul_pos hw hh)
    constructor
    · have hlt' : ((channelSum ppm.pixels ppm.width ppm.height c : Nat) : ℚ) <
          ((∑ tr in Finset.range (blocks ppm.height t),
            ∑ tc in Finset.range (blocks ppm.width t),
              tileChannelSum ppm.pixels ppm.width ppm.height t tr tc c /
                (effectiveSide ppm.width t tc * effectiveSide ppm.height t tr) *
                (effectiveSide ppm.width t tc * effectiveSide ppm.height t tr) : Nat) : ℚ) +
            ((ppm.width * ppm.height : Nat) : ℚ) := by
        exact_mod_cast hlt
      have h2 := div_lt_div_of_pos_right hlt' hn
      rw [add_div, div_self (ne_of_gt hn)] at h2
      linarith
    · exact div_le_div_of_nonneg_right (by exact_mod_cast hle) (le_of_lt hn)

/-- C14, instance: the `4 × 4` example with tile size 2, red channel, the second tile row
processed before the first; `CPU_mosaic` prints 30 (the red samples sum to 487). -/
theorem global_averages_witness :
    ((∃ r, CPU_mosaic MODE.CPU 2 example4x4 = some r ∧
      r.average 0 = channelSum example4x4.pixels example4x4.width example4x4.height 0 %
        4294967296 / (example4x4.width * example4x4.height) ∧
      (channelSum example4x4.pixels example4x4.width example4x4.height 0 < 4294967296 →
        r.average 0 = channelSum example4x4.pixels example4x4.width example4x4.height 0 /
          (example4x4.width * example4x4.height))) ∧
    (∃ st, OPENMP_mosaic_sums MODE.OPENMP 2 [1, 0] example4x4 = some st ∧
      OPENMP_mosaic MODE.OPENMP 2 [1, 0] example4x4 = some st.ppm ∧
      ((∀ tr, tr < blocks example4x4.height 2 → ∀ tc, tc < blocks example4x4.width 2 →
          tileChannelSum example4x4.pixels example4x4.width example4x4.height 2 tr tc 0 <
            2147483648) →
        ((channelSum example4x4.pixels example4x4.width example4x4.height 0 : Nat) : ℚ) /
            ((example4x4.width * example4x4.height : Nat) : ℚ) - 1 < st.global 0 ∧
        st.global 0 ≤
          ((channelSum example4x4.pixels example4x4.width example4x4.height 0 : Nat) : ℚ) /
            ((example4x4.width * example4x4.height : Nat) : ℚ)))) ∧
    (CPU_mosaic MODE.CPU 2 example4x4).map (fun r => r.averageR) = some 30 :=
  ⟨global_averages MODE.CPU MODE.OPENMP 2 example4x4 [1, 0] 0 (by decide) (by decide)
    (by decide) (by decide) (by decide) (by decide) (by decide) (by decide), by decide⟩

/-! ## The transform applied twice -/

theorem toU8_lt (z : Int) : toU8 z < 256 := by
  unfold toU8; omega

theorem storedValue_lt (pixels : List Nat) (w h t tr tc c : Nat) :
    storedValue pixels w h t tr tc c < 256 := toU8_lt _

/-- A buffer of stored values is again the buffer of a well-formed image. -/
theorem wellFormed_stored {ppm : PPM} {t : Nat} {R : List Nat} (hwf : WellFormed ppm)
    (hl : R.length = 3 * ppm.width * ppm.height)
    (hR : ∀ j, j < 3 * ppm.width * ppm.height → R.getD j 0 =
      storedValue ppm.pixels ppm.width ppm.height t (blockOf t ppm.width j).1
        (blockOf t ppm.width j).2 (j % 3)) :
    WellFormed (withPixels ppm R) := by
  obtain ⟨hw, hh, hsz, _, _⟩ := hwf
  refine ⟨hw, hh, hsz, hl, ?_⟩
  intro b hb
  have hb' : b ∈ R := hb
  obtain ⟨i, hi, rfl⟩ := List.getElem_of_mem hb'
  have hi' : i < 3 * ppm.width * ppm.height := by rw [← hl]; exact hi
  have := hR i hi'
  rw [List.getD_eq_getElem _ _ hi] at this
  rw [this]
  exact storedValue_lt _ _ _ _ _ _ _

/-- Without overflow of an `int` block sum, the blocks of the whole grid leave a buffer of
stored values as it is. -/
theorem runBlocks_idem {t : Nat} {ppm : PPM} (hwf : WellFormed ppm) (ht : 0 < t)
    (ht2 : t < 4294967296) (schedule schedule' : List Nat)
    (hperm : schedule.Perm (List.range (blocks ppm.height t)))
    (hperm' : schedule'.Perm (List.range (blocks ppm.height t)))
    (hsum : ∀ tr, tr < blocks ppm.height t → ∀ tc, tc < blocks ppm.width t → ∀ c, c < 3 →
      tileChannelSum ppm.pixels ppm.width ppm.height t tr tc c < 2147483648) :
    runBlocks t ppm.width ppm.height (schedule' ×ˢ List.range (blocks ppm.width t))
        (runBlocks t ppm.width ppm.height (schedule ×ˢ List.range (blocks ppm.width t))
          ppm.pixels) =
      runBlocks t ppm.width ppm.height (schedule ×ˢ List.range (blocks ppm.width t))
        ppm.pixels := by
  obtain ⟨hl, hres⟩ := runBlocks_full hwf ht ht2 schedule hperm
  have hwf2 := wellFormed_stored hwf hl hres
  obtain ⟨hl2, hres2⟩ := runBlocks_full hwf2 ht ht2 schedule' hperm'
  obtain ⟨hw, hh, hsz, _, hbytes⟩ := hwf
  have hwh1 : ppm.width ≤ ppm.width * ppm.height := Nat.le_mul_of_pos_right _ hh
  have hwh2 : ppm.height ≤ ppm.width * ppm.height := Nat.le_mul_of_pos_left _ hw
  have hsz' : 3 * (ppm.width * ppm.height) < 2147483648 := by
    rw [← Nat.mul_assoc]; exact hsz
  apply ext_getD hl2 hl
  intro j hj
  obtain ⟨hv1, hv2⟩ := blockOf_valid (t := t) ht hw hj
  have h2 := hres2 j hj
  rw [hres j hj]
  refine h2.trans ?_
  apply storedValue_of_stored hbytes ht hv1 hv2 (Nat.mod_lt _ (by decide)) hres
  exact hsum _ ((lt_blocks_iff ht (by omega)).mpr hv1) _
    ((lt_blocks_iff ht (by omega)).mpr hv2) _ (Nat.mod_lt _ (by decide))

theorem withPixels_twice (ppm : PPM) (R : List Nat) (t : Nat)
    (tiles : Nat → Nat → List (Nat × Nat)) (q : PPM) (hq : q = withPixels ppm R)
    (hidem : runBlocks t ppm.width ppm.height (tiles ppm.height ppm.width) R = R) :
    withPixels q (runBlocks t q.width q.height (tiles q.height q.width) q.pixels) = q := by
  subst hq
  show withPixels (withPixels ppm R)
    (runBlocks t ppm.width ppm.height (tiles ppm.height ppm.width) R) = withPixels ppm R
  rw [hidem]
  rfl

/-- The two buffers left by `CPU_mosaic` applied twice: the first holds the stored values
of the input, the second the stored values of the first. -/
theorem CPU_mosaic_twice_stored (mode : MODE) {t : Nat} {ppm : PPM} (hwf : WellFormed ppm)
    (ht : 0 < t) (htw : t ≤ ppm.width) :
    ∃ r r', CPU_mosaic mode t ppm = some r ∧ CPU_mosaic mode t r.ppm = some r' ∧
      (∀ j, j < 3 * ppm.width * ppm.height → r.ppm.pixels.getD j 0 =
        storedValue ppm.pixels ppm.width ppm.height t (blockOf t ppm.width j).1
          (blockOf t ppm.width j).2 (j % 3)) ∧
      (∀ j, j < 3 * ppm.width * ppm.height → r'.ppm.pixels.getD j 0 =
        storedValue r.ppm.pixels ppm.width ppm.height t (blockOf t ppm.width j).1
          (blockOf t ppm.width j).2 (j % 3)) := by
  have hsz := hwf.2.2.1
  have hh := hwf.2.1
  have hwh1 : ppm.width ≤ ppm.width * ppm.height := Nat.le_mul_of_pos_right _ hh
  have hsz' : 3 * (ppm.width * ppm.height) < 2147483648 := by
    rw [← Nat.mul_assoc]; exact hsz
  have ht2 : t < 4294967296 := by omega
  obtain ⟨r, hr, hpix⟩ := @CPU_mosaic_eq mode t ppm htw
  obtain ⟨hl, hres⟩ := runBlocks_full hwf ht ht2 (List.range (blocks ppm.height t))
    (List.Perm.refl _)
  have hwf2 := wellFormed_stored hwf hl hres
  rw [← hpix] at hwf2
  have hw2 : r.ppm.width = ppm.width := by rw [hpix]; rfl
  have hh2 : r.ppm.height = ppm.height := by rw [hpix]; rfl
  obtain ⟨r', hr', hpix'⟩ := @CPU_mosaic_eq mode t r.ppm (by rw [hw2]; exact htw)
  obtain ⟨_, hres2⟩ := runBlocks_full hwf2 ht ht2 (List.range (blocks r.ppm.height t))
    (List.Perm.refl _)
  refine ⟨r, r', hr, hr', ?_, ?_⟩
  · intro j hj
    rw [hpix]
    exact hres j hj
  · intro j hj
    rw [hpix']
    have := hres2 j (by rw [hw2, hh2]; exact hj)
    rw [hw2, hh2] at this ⊢
    exact this

/-- C21 (as amended): for a well-formed image and a tile size `1 ≤ t ≤ width`, `t ≤ height`,
provided no tile's channel sum reaches `2^31`, the transform is idempotent: `CPU_mosaic`
applied to the struct that `CPU_mosaic` returned leaves that struct unchanged, and
`OPENMP_mosaic` (mode other than `ALL`, any orders of the tile rows) applied to its own
result returns that result. -/
theorem mosaic_idempotent (mode mode' : MODE) (t : Nat) (ppm : PPM)
    (schedule schedule' : List Nat) (hm' : mode' ≠ MODE.ALL) (hwf : WellFormed ppm)
    (ht : 1 ≤ t) (htw : t ≤ ppm.width) (_hth : t ≤ ppm.height)
    (hperm : schedule.Perm (List.range (blocks ppm.height t)))
    (hperm' : schedule'.Perm (List.range (blocks ppm.height t)))
    (hsum : ∀ tr, tr < blocks ppm.height t → ∀ tc, tc < blocks ppm.width t → ∀ c, c < 3 →
      tileChannelSum ppm.pixels ppm.width ppm.height t tr tc c < 2147483648) :
    (∃ r r', CPU_mosaic mode t ppm = some r ∧ CPU_mosaic mode t r.ppm = some r' ∧
      r'.ppm = r.ppm) ∧
    (∃ p, OPENMP_mosaic mode' t schedule ppm = some p ∧
      OPENMP_mosaic mode' t schedule' p = some p) := by
  have hsz := hwf.2.2.1
  have hh := hwf.2.1
  have hwh1 : ppm.width ≤ ppm.width * ppm.height := Nat.le_mul_of_pos_right _ hh
  have hsz' : 3 * (ppm.width * ppm.height) < 2147483648 := by
    rw [← Nat.mul_assoc]; exact hsz
  have ht2 : t < 4294967296 := by omega
  refine ⟨?_, ?_⟩
  · obtain ⟨r, hr, hpix⟩ := @CPU_mosaic_eq mode t ppm htw
    have htw2 : t ≤ r.ppm.width := by rw [hpix]; exact htw
    obtain ⟨r', hr', hpix'⟩ := @CPU_mosaic_eq mode t r.ppm htw2
    refine ⟨r, r', hr, hr', ?_⟩
    have hidem := runBlocks_idem hwf ht ht2 _ _ (List.Perm.refl _) (List.Perm.refl _) hsum
    rw [hpix']
    exact withPixels_twice ppm _ t
      (fun h w => List.range (blocks h t) ×ˢ List.range (blocks w t)) r.ppm hpix hidem
  · refine ⟨_, OPENMP_mosaic_eq hm' htw schedule, ?_⟩
    have hidem := runBlocks_idem hwf ht ht2 _ _ hperm hperm' hsum
    rw [OPENMP_mosaic_eq hm' (by exact htw) schedule']
    exact congrArg some (withPixels_twice ppm _ t
      (fun _ w => schedule' ×ˢ List.range (blocks w t)) _ rfl hidem)

/-- C21, instance: the `4 × 4` example with tile size 2, for `CPU_mosaic` and for
`OPENMP_mosaic` with the tile rows taken in two different orders. -/
theorem mosaic_idempotent_witness :
    (∃ r r', CPU_mosaic MODE.CPU 2 example4x4 = some r ∧
      CPU_mosaic MODE.CPU 2 r.ppm = some r' ∧ r'.ppm = r.ppm) ∧
    (∃ p, OPENMP_mosaic MODE.OPENMP 2 [0, 1] example4x4 = some p ∧
      OPENMP_mosaic MODE.OPENMP 2 [1, 0] p = some p) :=
  mosaic_idempotent MODE.CPU MODE.OPENMP 2 example4x4 [0, 1] [1, 0] (by decide) (by decide)
    (by decide) (by decide) (by decide) (by decide) (by decide) (by decide)

/-! ## Samples above 255 -/

theorem readPixelsLoop_accepts (maxColor : Nat) (vs : List Int) :
    ∀ (body rest : List Nat) (i : Nat) (pixels : List Nat),
      scanMany vs.length body = some (vs, rest) →
      (∀ v, v ∈ vs → toU32 v ≤ maxColor) →
      readPixelsLoop maxColor vs.length i pixels body =
        (i + vs.length, storeValues pixels i vs) := by
  induction vs with
  | nil => intro body rest i pixels _ _; rfl
  | cons v vs ih =>
    intro body rest i pixels hscan hok
    simp only [List.length_cons] at hscan ⊢
    unfold scanMany at hscan
    split at hscan
    · rename_i v' rest' hf
      split at hscan
      · rename_i r' hr'
        simp only [Option.some.injEq, Prod.mk.injEq, List.cons.injEq] at hscan
        obtain ⟨⟨hv, hvs⟩, hrest⟩ := hscan
        subst hv
        have hle : ¬ (toU32 v' > maxColor) := by
          have := hok v' (List.mem_cons_self _ _)
          omega
        have hscan' : scanMany vs.length rest' = some (vs, rest) := by
          rw [hr', ← hvs, ← hrest]
        unfold readPixelsLoop
        rw [hf]
        simp only [hle, if_false]
        rw [ih rest' rest (i + 1) _ hscan' (fun w hw => hok w (List.mem_cons_of_mem _ hw))]
        simp only [storeValues]
        congr 1
        omega
      · simp at hscan
    · simp at hscan

theorem toU8_toU32 (v : Int) : toU8 ((toU32 v : Nat) : Int) = (v % 256).toNat := by
  unfold toU8 toU32; omega

/-- C23: in a PlainText body whose `size` values all pass the range check of `readPixels`
(as an `unsigned int` none exceeds maxColor), each value being an `int` as `%d` delivers
it, `readPixels` returns `size`, `readPPM` reports `SUCCESS`, and every sample holds its
value reduced modulo 256.  A value `v` with `255 < v ≤ maxColor` passes the range check,
and the sample stored for a value above 255 differs from the value; when maxColor is at
most 255 every sample equals its value. -/
theorem readPixels_stores_mod_256 (ppm : PPM) (body : List Nat) (vs : List Int)
    (rest : List Nat) (htag : ppm.tag ≠ OUTPUT_FORMAT.PPM_BINARY.code)
    (hlen : ppm.pixels.length = ppm.size) (hn : vs.length = ppm.size)
    (hscan : scanMany vs.length body = some (vs, rest))
    (hacc : ∀ v, v ∈ vs → toU32 v ≤ ppm.maxColor)
    (hint : ∀ v, v ∈ vs → -2147483648 ≤ v ∧ v < 2147483648)
    (hmc : ppm.maxColor < 4294967296) :
    (readPixels ppm body).1 = ppm.size ∧
    ReadResult.value { exit := ReadExit.pixelsRead (readPixels ppm body).1
                       ppm := (readPixels ppm body).2 } = true ∧
    (∀ j, j < ppm.size →
      (readPixels ppm body).2.pixels.getD j 0 = (vs.getD j 0 % 256).toNat) ∧
    (∀ v : Int, 255 < v → v ≤ ppm.maxColor → toU32 v ≤ ppm.maxColor) ∧
    (∀ j, j < ppm.size → 255 < vs.getD j 0 →
      (((readPixels ppm body).2.pixels.getD j 0 : Nat) : Int) ≠ vs.getD j 0) ∧
    (ppm.maxColor ≤ 255 → ∀ j, j < ppm.size →
      (((readPixels ppm body).2.pixels.getD j 0 : Nat) : Int) = vs.getD j 0) := by
  have hloop := readPixelsLoop_accepts ppm.maxColor vs body rest 0 ppm.pixels hscan hacc
  have hrp : readPixels ppm body =
      (vs.length, { ppm with pixels := storeValues ppm.pixels 0 vs }) := by
    unfold readPixels
    rw [if_neg htag, ← hn, hloop]
    simp
  have hget := storeValues_getD vs ppm.pixels 0
  have hstored : ∀ j, j < ppm.size →
      (storeValues ppm.pixels 0 vs).getD j 0 = (vs.getD j 0 % 256).toNat := by
    intro j hj
    rw [hget j (by omega), if_pos (by omega), Nat.sub_zero, toU8_toU32]
  have hmem : ∀ j, j < ppm.size → vs.getD j 0 ∈ vs := by
    intro j hj
    have hj' : j < vs.length := by omega
    rw [List.getD_eq_getElem _ _ hj']; exact List.getElem_mem hj'
  rw [hrp]
  refine ⟨hn, ?_, hstored, ?_, ?_, ?_⟩
  · show (vs.length == ppm.size) = true
    rw [hn]; exact beq_self_eq_true _
  · intro v h1 h2
    unfold toU32
    omega
  · intro j hj hv
    show (((storeValues ppm.pixels 0 vs).getD j 0 : Nat) : Int) ≠ _
    rw [hstored j hj]
    omega
  · intro hle j hj
    show (((storeValues ppm.pixels 0 vs).getD j 0 : Nat) : Int) = _
    rw [hstored j hj]
    have h1 := hacc _ (hmem j hj)
    have h2 := hint _ (hmem j hj)
    unfold toU32 at h1
    omega

/-- C23, instance: a `1 × 1` PlainText image with maxColor 1000 and the body `300 7 1000`;
the samples stored are 44, 7 and 232. -/
theorem readPixels_stores_mod_256_witness :
    ((readPixels (plainPixel 1000) (bytes "300 7 1000")).1 = (plainPixel 1000).size ∧
    ReadResult.value { exit := ReadExit.pixelsRead
                         (readPixels (plainPixel 1000) (bytes "300 7 1000")).1
                       ppm := (readPixels (plainPixel 1000) (bytes "300 7 1000")).2 } = true ∧
    (∀ j, j < (plainPixel 1000).size →
      (readPixels (plainPixel 1000) (bytes "300 7 1000")).2.pixels.getD j 0 =
        (([300, 7, 1000] : List Int).getD j 0 % 256).toNat) ∧
    (∀ v : Int, 255 < v → v ≤ (plainPixel 1000).maxColor →
      toU32 v ≤ (plainPixel 1000).maxColor) ∧
    (∀ j, j < (plainPixel 1000).size → 255 < ([300, 7, 1000] : List Int).getD j 0 →
      (((readPixels (plainPixel 1000) (bytes "300 7 1000")).2.pixels.getD j 0 : Nat) : Int) ≠
        ([300, 7, 1000] : List Int).getD j 0) ∧
    ((plainPixel 1000).maxColor ≤ 255 → ∀ j, j < (plainPixel 1000).size →
      (((readPixels (plainPixel 1000) (bytes "300 7 1000")).2.pixels.getD j 0 : Nat) : Int) =
        ([300, 7, 1000] : List Int).getD j 0)) ∧
    (readPPM (some (bytes "P3\n1 1\n1000\n300 7 1000\n")) zeroPPM).map
        (fun r => (r.value, r.ppm.maxColor, r.ppm.pixels)) =
      some (true, 1000, [44, 7, 232]) :=
  ⟨readPixels_stores_mod_256 (plainPixel 1000) (bytes "300 7 1000") [300, 7, 1000] []
    (by decide) (by decide) (by decide) (by decide) (by decide) (by decide) (by decide),
   by decide⟩

/-! ## The range of the output samples -/

/-- The truncated mean of a tile lies between any two bounds of its samples. -/
theorem tileMean_bounds {pixels : List Nat} {w h t tr tc c lo hi : Nat} (ht : 0 < t)
    (htr : tr * t < h) (htc : tc * t < w)
    (hcell : ∀ bh, bh < effectiveSide h t tr → ∀ bw, bw < effectiveSide w t tc →
      lo ≤ pixels.getD (3 * ((tr * t + bh) * w + (tc * t + bw)) + c) 0 ∧
      pixels.getD (3 * ((tr * t + bh) * w + (tc * t + bw)) + c) 0 ≤ hi) :
    lo ≤ tileMean pixels w h t tr tc c ∧ tileMean pixels w h t tr tc c ≤ hi := by
  have h1 : 0 < effectiveSide h t tr := effectiveSide_pos ht htr
  have h2 : 0 < effectiveSide w t tc := effectiveSide_pos ht htc
  have hA : 0 < effectiveSide w t tc * effectiveSide h t tr := Nat.mul_pos h2 h1
  have hlo : lo * (effectiveSide w t tc * effectiveSide h t tr) ≤
      tileChannelSum pixels w h t tr tc c := by
    unfold tileChannelSum
    calc lo * (effectiveSide w t tc * effectiveSide h t tr)
        = ∑ _bh in Finset.range (effectiveSide h t tr),
            ∑ _bw in Finset.range (effectiveSide w t tc), lo := by
          simp only [Finset.sum_const, Finset.card_range, smul_eq_mul]
          ring
      _ ≤ _ := Finset.sum_le_sum (fun bh hbh => Finset.sum_le_sum (fun bw hbw =>
          (hcell bh (Finset.mem_range.mp hbh) bw (Finset.mem_range.mp hbw)).1))
  have hhi : tileChannelSum pixels w h t tr tc c ≤
      effectiveSide w t tc * effectiveSide h t tr * hi := by
    unfold tileChannelSum
    calc _ ≤ ∑ _bh in Finset.range (effectiveSide h t tr),
            ∑ _bw in Finset.range (effectiveSide w t tc), hi :=
          Finset.sum_le_sum (fun bh hbh => Finset.sum_le_sum (fun bw hbw =>
            (hcell bh (Finset.mem_range.mp hbh) bw (Finset.mem_range.mp hbw)).2))
      _ = effectiveSide w t tc * effectiveSide h t tr * hi := by
          simp only [Finset.sum_const, Finset.card_range, smul_eq_mul]
          ring
  unfold tileMean
  exact ⟨(Nat.le_div_iff_mul_le hA).mpr hlo, Nat.div_le_of_le_mul hhi⟩

theorem getD_le_of_forall {l : List Nat} {m : Nat} (hl : ∀ b, b ∈ l → b ≤ m) (i : Nat) :
    l.getD i 0 ≤ m := by
  by_cases h : i < l.length
  · rw [List.getD_eq_getElem _ _ h]
    exact hl _ (List.getElem_mem h)
  · rw [List.getD_eq_default _ _ (Nat.le_of_not_lt h)]
    exact Nat.zero_le _

/-- A well-formed image written as PlainText and read again. -/
theorem plainText_roundtrip (ppm : PPM) (mode : MODE) (ppm0 : PPM) (hmode : mode ≠ MODE.ALL)
    (hwf : WellFormed ppm) (hsize : ppm.size = 3 * ppm.width * ppm.height)
    (hmc : 0 < ppm.maxColor) (hmc2 : ppm.maxColor < 4294967296)
    (hrange : ∀ b, b ∈ ppm.pixels → b ≤ ppm.maxColor) :
    ∃ file r, writeToFile true ppm OUTPUT_FORMAT.PPM_PLAIN_TEXT mode = (true, some file) ∧
      readPPM (some file) ppm0 = some r ∧ r.value = true ∧ r.ppm.pixels = ppm.pixels := by
  have hwp := writePixels_eq ppm OUTPUT_FORMAT.PPM_PLAIN_TEXT hwf hsize
  obtain ⟨hw, hh, hsz, hlen, hbytes⟩ := hwf
  have hwh1 : ppm.width ≤ ppm.width * ppm.height := Nat.le_mul_of_pos_right _ hh
  have hwh2 : ppm.height ≤ ppm.width * ppm.height := Nat.le_mul_of_pos_left _ hw
  have hsz' : 3 * (ppm.width * ppm.height) < 2147483648 := by
    rw [← Nat.mul_assoc]; exact hsz
  rw [if_pos rfl] at hwp
  have hwrite : writeToFile true ppm OUTPUT_FORMAT.PPM_PLAIN_TEXT mode =
      (true, some (writeHeader ppm OUTPUT_FORMAT.PPM_PLAIN_TEXT ++ textOf ppm.pixels)) := by
    unfold writeToFile
    simp only [if_true, hmode, if_false, hwp, beq_self_eq_true]
  have hread := readPPM_writeHeader ppm OUTPUT_FORMAT.PPM_PLAIN_TEXT (textOf ppm.pixels) ppm0
    (by omega) (by omega) (by omega) (by omega) (by omega) hmc2
  refine ⟨_, _, hwrite, hread, ?_⟩
  rw [readBody_text { ppm0 with tag := OUTPUT_FORMAT.PPM_PLAIN_TEXT.code, width := ppm.width
                                height := ppm.height, maxColor := ppm.maxColor }
    ppm.pixels rfl (by show 3 * ppm.width * ppm.height < _; omega) hlen hbytes hrange]
  exact ⟨by simp [ReadResult.value], rfl⟩

/-- C22 (as amended): for a well-formed image and a tile size `1 ≤ t ≤ width`,
`t ≤ height`, provided no tile's channel sum reaches `2^31`, `CPU_mosaic` and
`OPENMP_mosaic` (mode other than `ALL`) return the same buffer, in which every sample lies
between any two bounds `lo ≤ hi` of the input samples of the same channel within its tile
(so between their minimum and their maximum); every sample is below 256; if no input
sample exceeds maxColor then no output sample does; and the result, written as PlainText
and read again, passes the range check of `readPixels`: `readPPM` returns `SUCCESS` with
the same samples. -/
theorem mosaic_within_tile_range (mode mode' mode'' : MODE) (t : Nat) (ppm ppm0 : PPM)
    (schedule : List Nat) (hm' : mode' ≠ MODE.ALL) (hm'' : mode'' ≠ MODE.ALL)
    (hwf : WellFormed ppm) (hsize : ppm.size = 3 * ppm.width * ppm.height)
    (hmc : 0 < ppm.maxColor) (hmc2 : ppm.maxColor < 4294967296)
    (ht : 1 ≤ t) (htw : t ≤ ppm.width) (_hth : t ≤ ppm.height)
    (hperm : schedule.Perm (List.range (blocks ppm.height t)))
    (hsum : ∀ tr, tr < blocks ppm.height t → ∀ tc, tc < blocks ppm.width t → ∀ c, c < 3 →
      tileChannelSum ppm.pixels ppm.width ppm.height t tr tc c < 2147483648) :
    ∃ r, CPU_mosaic mode t ppm = some r ∧ OPENMP_mosaic mode' t schedule ppm = some r.ppm ∧
      (∀ y, y < ppm.height → ∀ x, x < ppm.width → ∀ c, c < 3 → ∀ lo hi : Nat,
        (∀ bh, bh < effectiveSide ppm.height t (y / t) →
          ∀ bw, bw < effectiveSide ppm.width t (x / t) →
          lo ≤ ppm.pixels.getD
            (3 * ((y / t * t + bh) * ppm.width + (x / t * t + bw)) + c) 0 ∧
          ppm.pixels.getD
            (3 * ((y / t * t + bh) * ppm.width + (x / t * t + bw)) + c) 0 ≤ hi) →
        lo ≤ r.ppm.pixels.getD (3 * (y * ppm.width + x) + c) 0 ∧
        r.ppm.pixels.getD (3 * (y * ppm.width + x) + c) 0 ≤ hi) ∧
      (∀ b, b ∈ r.ppm.pixels → b < 256) ∧
      ((∀ b, b ∈ ppm.pixels → b ≤ ppm.maxColor) →
        (∀ b, b ∈ r.ppm.pixels → b ≤ ppm.maxColor) ∧
        ∃ file res, writeToFile true r.ppm OUTPUT_FORMAT.PPM_PLAIN_TEXT mode'' =
            (true, some file) ∧
          readPPM (some file) ppm0 = some res ∧ res.value = true ∧
          res.ppm.pixels = r.ppm.pixels) := by
  have hwf' := hwf
  obtain ⟨hw, hh, hsz, hlen, hbytes⟩ := hwf
  have hwh1 : ppm.width ≤ ppm.width * ppm.height := Nat.le_mul_of_pos_right _ hh
  have hwh2 : ppm.height ≤ ppm.width * ppm.height := Nat.le_mul_of_pos_left _ hw
  have hsz' : 3 * (ppm.width * ppm.height) < 2147483648 := by
    rw [← Nat.mul_assoc]; exact hsz
  have ht2 : t < 4294967296 := by omega
  obtain ⟨r, hr, hpix⟩ := @CPU_mosaic_eq mode t ppm htw
  obtain ⟨hl1, h1⟩ := runBlocks_full hwf' ht ht2 (List.range (blocks ppm.height t))
    (List.Perm.refl _)
  obtain ⟨hl2, h2⟩ := runBlocks_full hwf' ht ht2 schedule hperm
  have hwf2 := wellFormed_stored hwf' hl1 h1
  rw [← hpix] at hwf2
  have hRl : r.ppm.pixels.length = 3 * ppm.width * ppm.height := by rw [hpix]; exact hl1
  have hmean : ∀ j, j < 3 * ppm.width * ppm.height → r.ppm.pixels.getD j 0 =
      tileMean ppm.pixels ppm.width ppm.height t (blockOf t ppm.width j).1
        (blockOf t ppm.width j).2 (j % 3) := by
    intro j hj
    obtain ⟨hv1, hv2⟩ := blockOf_valid (t := t) ht hw hj
    rw [hpix]
    show (runBlocks _ _ _ _ _).getD j 0 = _
    rw [h1 j hj]
    apply storedValue_eq_tileMean hbytes
    exact hsum _ ((lt_blocks_iff ht (by omega)).mpr hv1) _
      ((lt_blocks_iff ht (by omega)).mpr hv2) _ (Nat.mod_lt _ (by decide))
  have hle : (∀ b, b ∈ ppm.pixels → b ≤ ppm.maxColor) →
      ∀ b, b ∈ r.ppm.pixels → b ≤ ppm.maxColor := by
    intro hin b hb
    obtain ⟨i, hi, rfl⟩ := List.getElem_of_mem hb
    have hi' : i < 3 * ppm.width * ppm.height := by rw [← hRl]; exact hi
    obtain ⟨hv1, hv2⟩ := blockOf_valid (t := t) ht hw hi'
    have := hmean i hi'
    rw [List.getD_eq_getElem _ _ hi] at this
    rw [this]
    exact (@tileMean_bounds _ _ _ _ _ _ _ 0 _ ht hv1 hv2
      (fun bh _ bw _ => ⟨Nat.zero_le _, getD_le_of_forall hin _⟩)).2
  refine ⟨r, hr, ?_, ?_, hwf2.2.2.2.2, fun hin => ⟨hle hin, ?_⟩⟩
  · rw [OPENMP_mosaic_eq hm' htw, hpix]
    congr 2
    exact ext_getD hl2 hl1 (fun j hj => by rw [h1 j hj, h2 j hj])
  · intro y hy x hx c hc lo hi hcell
    obtain ⟨hb, hm⟩ := blockOf_pixel (t := t) (y := y) hx hc
    have hj := pixel_offset_lt hy hx hc
    rw [hmean _ hj, hb, hm]
    exact tileMean_bounds ht (lt_of_le_of_lt (Nat.div_mul_le_self y t) hy)
      (lt_of_le_of_lt (Nat.div_mul_le_self x t) hx) hcell
  · have hsize2 : r.ppm.size = 3 * r.ppm.width * r.ppm.height := by rw [hpix]; exact hsize
    have hmc' : 0 < r.ppm.maxColor := by rw [hpix]; exact hmc
    have hmc2' : r.ppm.maxColor < 4294967296 := by rw [hpix]; exact hmc2
    have hmceq : r.ppm.maxColor = ppm.maxColor := by rw [hpix]; rfl
    exact plainText_roundtrip r.ppm mode'' ppm0 hm'' hwf2 hsize2 hmc' hmc2'
      (fun b hb => by rw [hmceq]; exact hle hin b hb)

/-- C22, instance: the `4 × 4` example with tile size 2; the result is read again from its
PlainText form into a zeroed struct. -/
theorem mosaic_within_tile_range_witness :
    ∃ r, CPU_mosaic MODE.CPU 2 example4x4 = some r ∧
      OPENMP_mosaic MODE.OPENMP 2 [1, 0] example4x4 = some r.ppm ∧
      (∀ y, y < example4x4.height → ∀ x, x < example4x4.width → ∀ c, c < 3 → ∀ lo hi : Nat,
        (∀ bh, bh < effectiveSide example4x4.height 2 (y / 2) →
          ∀ bw, bw < effectiveSide example4x4.width 2 (x / 2) →
          lo ≤ example4x4.pixels.getD
            (3 * ((y / 2 * 2 + bh) * example4x4.width + (x / 2 * 2 + bw)) + c) 0 ∧
          example4x4.pixels.getD
            (3 * ((y / 2 * 2 + bh) * example4x4.width + (x / 2 * 2 + bw)) + c) 0 ≤ hi) →
        lo ≤ r.ppm.pixels.getD (3 * (y * example4x4.width + x) + c) 0 ∧
        r.ppm.pixels.getD (3 * (y * example4x4.width + x) + c) 0 ≤ hi) ∧
      (∀ b, b ∈ r.ppm.pixels → b < 256) ∧
      ((∀ b, b ∈ example4x4.pixels → b ≤ example4x4.maxColor) →
        (∀ b, b ∈ r.ppm.pixels → b ≤ example4x4.maxColor) ∧
        ∃ file res, writeToFile true r.ppm OUTPUT_FORMAT.PPM_PLAIN_TEXT MODE.CPU =
            (true, some file) ∧
          readPPM (some file) zeroPPM = some res ∧ res.value = true ∧
          res.ppm.pixels = r.ppm.pixels) :=
  mosaic_within_tile_range MODE.CPU MODE.OPENMP MODE.CPU 2 example4x4 zeroPPM [1, 0]
    (by decide) (by decide) (by decide) (by decide) (by decide) (by decide) (by decide)
    (by decide) (by decide) (by decide) (by decide)

/-! ## Overflow on reachable inputs: tile sizes that are powers of two -/

/-- The value stored in a tile by a second pass over the result of a first pass on a uniform
image. -/
theorem storedValue_stored_uniform {R : List Nat} {w h t tr tc c v : Nat} (ht : 0 < t)
    (hc : c < 3)
    (hR : ∀ j, j < 3 * w * h → R.getD j 0 =
      storedValue (List.replicate (3 * w * h) v) w h t (blockOf t w j).1 (blockOf t w j).2
        (j % 3)) :
    storedValue R w h t tr tc c =
      toU8 (Int.tdiv (toI32 ((effectiveSide h t tr * (effectiveSide w t tc *
          toU8 (Int.tdiv (toI32 ((effectiveSide h t tr * (effectiveSide w t tc * v) : Nat) : Int))
            ((effectiveSide w t tc * effectiveSide h t tr : Nat) : Int))) : Nat) : Int))
        ((effectiveSide w t tc * effectiveSide h t tr : Nat) : Int)) := by
  unfold storedValue
  rw [tileChannelSum_const_tile (fun bh hbh bw hbw => stored_cell ht hc hR bh hbh bw hbw),
    storedValue_uniform hc]

/-- C21 (as stated) fails when an `int` block sum overflows.  The tile size 4096 is a power
of two, accepted by `process_command_line` and by `checkBlockSize`.  On the `4096 × 7172`
image with every sample 255 the bottom tile holds `4096 × 3076` pixels (sum
`3212820480 > 2^31 - 1`): `CPU_mosaic` leaves 171 in the first sample of row 4096, and
`CPU_mosaic` applied to that result with the same tile size leaves 87 there. -/
theorem mosaic_twice_differs_on_overflow :
    process_command_line 7 (bytes "4096") = some 4096 ∧
    checkBlockSize 4096 (uniformImage 4096 7172 255) = none ∧
    WellFormed (uniformImage 4096 7172 255) ∧
    4096 ≤ (uniformImage 4096 7172 255).width ∧ 4096 ≤ (uniformImage 4096 7172 255).height ∧
    ∃ r r', CPU_mosaic MODE.CPU 4096 (uniformImage 4096 7172 255) = some r ∧
      CPU_mosaic MODE.CPU 4096 r.ppm = some r' ∧
      r.ppm.pixels.getD (3 * (4096 * 4096 + 0) + 0) 0 = 171 ∧
      r'.ppm.pixels.getD (3 * (4096 * 4096 + 0) + 0) 0 = 87 := by
  have hwf : WellFormed (uniformImage 4096 7172 255) :=
    wellFormed_uniformImage (by decide) (by decide) (by decide) (by decide)
  have hw : (uniformImage 4096 7172 255).width = 4096 := rfl
  have hh : (uniformImage 4096 7172 255).height = 7172 := rfl
  have hp : (uniformImage 4096 7172 255).pixels = List.replicate (3 * 4096 * 7172) 255 := rfl
  have e1 : blockOf 4096 4096 (3 * (4096 * 4096 + 0) + 0) = (1, 0) := by decide
  have e2 : (3 * (4096 * 4096 + 0) + 0) % 3 = 0 := by decide
  refine ⟨by decide, by decide, hwf, by rw [hw], by rw [hh]; decide, ?_⟩
  obtain ⟨r, r', hr, hr', hR, hR'⟩ := CPU_mosaic_twice_stored MODE.CPU (t := 4096) hwf
    (by decide) (by rw [hw])
  rw [hw, hh] at hR hR'
  rw [hp] at hR
  refine ⟨r, r', hr, hr', ?_, ?_⟩
  · rw [hR _ (by decide), e1, e2, storedValue_uniform (by decide)]
    decide
  · rw [hR' _ (by decide), e1, e2, storedValue_stored_uniform (by decide) (by decide) hR]
    decide

/-- C22 (as stated) fails when an `int` block sum overflows.  The tile size 8192 is a power
of two, accepted by `process_command_line` and by `checkBlockSize`.  On the `8192 × 8192`
image with every sample 100 (one tile, sum `6710886400 > 2^31 - 1`) `CPU_mosaic` leaves 228
in the first sample, above every input sample. -/
theorem mosaic_sample_above_maximum :
    process_command_line 7 (bytes "8192") = some 8192 ∧
    checkBlockSize 8192 (uniformImage 8192 8192 100) = none ∧
    WellFormed (uniformImage 8192 8192 100) ∧
    8192 ≤ (uniformImage 8192 8192 100).width ∧ 8192 ≤ (uniformImage 8192 8192 100).height ∧
    (∀ j, j < 3 * 8192 * 8192 → (uniformImage 8192 8192 100).pixels.getD j 0 = 100) ∧
    ∃ r, CPU_mosaic MODE.CPU 8192 (uniformImage 8192 8192 100) = some r ∧
      r.ppm.pixels.getD (3 * (0 * 8192 + 0) + 0) 0 = 228 := by
  have hwf : WellFormed (uniformImage 8192 8192 100) :=
    wellFormed_uniformImage (by decide) (by decide) (by decide) (by decide)
  have hw : (uniformImage 8192 8192 100).width = 8192 := rfl
  have hh : (uniformImage 8192 8192 100).height = 8192 := rfl
  have hp : (uniformImage 8192 8192 100).pixels = List.replicate (3 * 8192 * 8192) 100 := rfl
  refine ⟨by decide, by decide, hwf, by rw [hw], by rw [hh], ?_, ?_⟩
  · intro j hj
    rw [hp, List.getD_eq_getElem _ _ (by rw [List.length_replicate]; exact hj),
      List.getElem_replicate]
  · obtain ⟨r, hr, _, hres⟩ := CPU_mosaic_stored MODE.CPU (t := 8192) hwf (by decide)
      (by rw [hw])
    refine ⟨r, hr, ?_⟩
    have h := hres 0 (by rw [hh]; decide) 0 (by rw [hw]; decide) 0 (by decide)
    rw [hw, hh, hp] at h
    rw [h, storedValue_uniform (by decide)]
    decide

/-! ## Where the pixel read starts -/

theorem fgetsAux_append (k : Nat) (f : List Nat) : (fgetsAux k f).1 ++ (fgetsAux k f).2 = f := by
  induction k generalizing f with
  | zero => simp [fgetsAux]
  | succ k ih =>
    cases f with
    | nil => simp [fgetsAux]
    | cons c f =>
      unfold fgetsAux
      split
      · rfl
      · simp only [List.cons_append, ih]

theorem fgets_append {n : Nat} {f buf f' : List Nat} (h : fgets n f = some (buf, f')) :
    f = buf ++ f' := by
  cases f with
  | nil => simp [fgets] at h
  | cons c cs =>
    simp only [fgets, Option.some.injEq] at h
    have := fgetsAux_append (n - 1) (c :: cs)
    rw [h] at this
    exact this.symm

theorem state_ne_pixels {c : Prop} [Decidable c] {a : READING_PARAMS}
    (h : a ≠ READING_PARAMS.PIXELS) :
    (if c then a else READING_PARAMS.FAILURE) ≠ READING_PARAMS.PIXELS := by
  by_cases hc : c
  · rw [if_pos hc]; exact h
  · rw [if_neg hc]; decide

/-- The only way out of the token loop by the `return` of `case PIXELS`, from a header
state: some token of the line is read in the state `MAX_COLOR` and converts to a nonzero
value; the tokens after it are not looked at. -/
theorem tokenLoop_inr_token (f : List Nat) (toks : List (List Nat)) :
    ∀ (rp : READING_PARAMS) (ppm : PPM) (r : ReadResult), rp ≠ READING_PARAMS.PIXELS →
      tokenLoop f rp ppm toks = Sum.inr r →
      ∃ (before : List (List Nat)) (token : List Nat) (more : List (List Nat)) (p : PPM),
        toks = before ++ token :: more ∧
        tokenLoop f rp ppm before = Sum.inl (READING_PARAMS.MAX_COLOR, p) ∧
        toU32 (atoi token) ≠ 0 ∧
        r = readBody { p with maxColor := toU32 (atoi token) } f := by
  induction toks with
  | nil => intro rp ppm r _ h; cases rp <;> simp [tokenLoop] at h
  | cons token rest ih =>
    intro rp ppm r hrp h
    cases rp with
    | FAILURE => simp [tokenLoop] at h
    | PIXELS => exact absurd rfl hrp
    | TAG =>
      simp only [tokenLoop] at h
      obtain ⟨before, tk, more, p, e, hb, hz, hr⟩ := ih _ _ r (state_ne_pixels (by decide)) h
      refine ⟨token :: before, tk, more, p, by rw [e]; rfl, ?_, hz, hr⟩
      simp only [tokenLoop]
      exact hb
    | WIDTH =>
      simp only [tokenLoop] at h
      obtain ⟨before, tk, more, p, e, hb, hz, hr⟩ := ih _ _ r (state_ne_pixels (by decide)) h
      refine ⟨token :: before, tk, more, p, by rw [e]; rfl, ?_, hz, hr⟩
      simp only [tokenLoop]
      exact hb
    | HEIGHT =>
      simp only [tokenLoop] at h
      obtain ⟨before, tk, more, p, e, hb, hz, hr⟩ := ih _ _ r (state_ne_pixels (by decide)) h
      refine ⟨token :: before, tk, more, p, by rw [e]; rfl, ?_, hz, hr⟩
      simp only [tokenLoop]
      exact hb
    | MAX_COLOR =>
      simp only [tokenLoop] at h
      by_cases hz : toU32 (atoi token) = 0
      · rw [if_neg (by simpa using hz), tokenLoop_failure] at h
        cases h
      · rw [if_pos (by simpa using hz)] at h
        refine ⟨[], token, rest, ppm, rfl, rfl, hz, ?_⟩
        exact (Sum.inr.inj h).symm

/-- Every run of the line loop that ends with the pixel read has read a line whose tokens
bring the parser to the state `MAX_COLOR` and then hold an accepted maxColor token; the
pixel read is given the input that follows that line. -/
theorem readLines_pixels_after_line (fuel : Nat) :
    ∀ (rp : READING_PARAMS) (ppm : PPM) (f : List Nat) (r : ReadResult) (n : Nat),
      HeaderInv rp ppm → readLines fuel rp ppm f = some r → r.exit = ReadExit.pixelsRead n →
      ∃ (pre buf rest : List Nat) (before : List (List Nat)) (token : List Nat)
        (more : List (List Nat)) (rp0 : READING_PARAMS) (p0 p : PPM),
        f = pre ++ (buf ++ rest) ∧
        fgets MAX_LINE (buf ++ rest) = some (buf, rest) ∧
        (cstr buf).head? ≠ some 35 ∧
        strtok (cstr buf) = before ++ token :: more ∧
        tokenLoop rest rp0 p0 before = Sum.inl (READING_PARAMS.MAX_COLOR, p) ∧
        toU32 (atoi token) ≠ 0 ∧
        r = readBody { p with maxColor := toU32 (atoi token) } rest := by
  induction fuel with
  | zero => intro rp ppm f r n _ h; simp [readLines] at h
  | succ fuel ih =>
    intro rp ppm f r n hinv h hex
    unfold readLines at h
    by_cases hrp : rp = READING_PARAMS.FAILURE
    · rw [if_pos hrp] at h
      cases h
      cases hex
    · rw [if_neg hrp] at h
      cases hfg : fgets MAX_LINE f with
      | none =>
        rw [hfg] at h
        cases h
        cases hex
      | some bf =>
        obtain ⟨buf, f'⟩ := bf
        have hf : f = buf ++ f' := fgets_append hfg
        rw [hfg] at h
        dsimp only at h
        by_cases hc : (cstr buf).head? = some 35
        · rw [if_pos hc] at h
          by_cases hnl : 10 ∈ cstr buf
          · rw [if_pos hnl] at h
            obtain ⟨pre, b, rest, before, tk, more, rp0, p0, p, e, h1, h2, h3, h4, h5, h6⟩ :=
              ih rp ppm f' r n hinv h hex
            refine ⟨buf ++ pre, b, rest, before, tk, more, rp0, p0, p, ?_, h1, h2, h3, h4,
              h5, h6⟩
            rw [hf, e, List.append_assoc]
          · rw [if_neg hnl] at h
            cases h
            cases hex
        · rw [if_neg hc] at h
          cases htl : tokenLoop f' rp ppm (strtok (cstr buf)) with
          | inl st =>
            obtain ⟨rp', ppm'⟩ := st
            rw [htl] at h
            dsimp only at h
            have hinv' := (tokenLoop_inv f' _ rp ppm hinv).1 rp' ppm' htl
            obtain ⟨pre, b, rest, before, tk, more, rp0, p0, p, e, h1, h2, h3, h4, h5, h6⟩ :=
              ih rp' ppm' f' r n hinv' h hex
            refine ⟨buf ++ pre, b, rest, before, tk, more, rp0, p0, p, ?_, h1, h2, h3, h4,
              h5, h6⟩
            rw [hf, e, List.append_assoc]
          | inr res =>
            rw [htl] at h
            dsimp only at h
            have hres : res = r := Option.some.inj h
            subst hres
            obtain ⟨before, tk, more, p, e, hb, hz, hr⟩ :=
              tokenLoop_inr_token f' _ rp ppm res hinv.1 htl
            refine ⟨[], buf, f', before, tk, more, rp, ppm, p, ?_, ?_, hc, e, hb, hz, hr⟩
            · rw [List.nil_append]; exact hf
            · rw [← hf]; exact hfg

/-- C17 (as stated) fails: the pixel read starts after the line that `fgets` stored, not
after the maxColor token.  In `P3 / 1 1 / 255 7 8 9 / 1 2 3` the values 7, 8 and 9 are part
of the line of the maxColor token and are skipped: the pixel decoded is `(1, 2, 3)`, not
`(7, 8, 9)`.  The same holds with the whole header on one line, `P3 1 1 255 7 8 9 / 1 2 3`.
With the samples on a line of their own, `P3 / 1 1 / 255 / 7 8 9`, the pixel is
`(7, 8, 9)`. -/
theorem readPPM_skips_rest_of_maxColor_line :
    (readPPM (some (bytes "P3\n1 1\n255 7 8 9\n1 2 3\n")) zeroPPM).map
        (fun r => (r.exit, r.value, r.ppm.maxColor, r.ppm.pixels)) =
      some (ReadExit.pixelsRead 3, true, 255, [1, 2, 3]) ∧
    (readPPM (some (bytes "P3 1 1 255 7 8 9\n1 2 3\n")) zeroPPM).map
        (fun r => (r.exit, r.value, r.ppm.maxColor, r.ppm.pixels)) =
      some (ReadExit.pixelsRead 3, true, 255, [1, 2, 3]) ∧
    (readPPM (some (bytes "P3\n1 1\n255\n7 8 9\n")) zeroPPM).map
        (fun r => (r.exit, r.value, r.ppm.maxColor, r.ppm.pixels)) =
      some (ReadExit.pixelsRead 3, true, 255, [7, 8, 9]) := by
  decide

/-- C17 (as amended): for every input on which `readPPM` reaches the pixel read, the file
splits as `pre ++ buf ++ rest`, where `buf` is a line as `fgets` stored it (at most 99
characters, up to and including the newline), not a comment, whose tokens `before` bring
the parser to the state `MAX_COLOR` and are followed by the accepted maxColor token; the
pixel read starts at `rest`, the stream position that follows that line, with maxColor
the converted token.  The tokens `more` that follow the maxColor token on the line are
skipped: the result is a function of the struct, the token and `rest` alone. -/
theorem readPPM_pixels_start_after_line (file : List Nat) (ppm : PPM) (r : ReadResult)
    (n : Nat) (h : readPPM (some file) ppm = some r) (hex : r.exit = ReadExit.pixelsRead n) :
    ∃ (pre buf rest : List Nat) (before : List (List Nat)) (token : List Nat)
      (more : List (List Nat)) (rp0 : READING_PARAMS) (p0 p : PPM),
      file = pre ++ (buf ++ rest) ∧
      fgets MAX_LINE (buf ++ rest) = some (buf, rest) ∧
      (cstr buf).head? ≠ some 35 ∧
      strtok (cstr buf) = before ++ token :: more ∧
      tokenLoop rest rp0 p0 before = Sum.inl (READING_PARAMS.MAX_COLOR, p) ∧
      toU32 (atoi token) ≠ 0 ∧
      r = readBody { p with maxColor := toU32 (atoi token) } rest :=
  readLines_pixels_after_line (file.length + 1) READING_PARAMS.TAG ppm file r n
    ⟨by decide, by simp, by simp⟩ h hex

/-- C17, instance: the file `P3 1 1 255 7 8 9 / 1 2 3`, whose header is on one line with the
values 7, 8 and 9 after the maxColor token; `readPPM` decodes the pixel `(1, 2, 3)` from
the next line. -/
theorem readPPM_pixels_start_after_line_witness :
    readPPM (some (bytes "P3 1 1 255 7 8 9\n1 2 3\n")) zeroPPM =
      some { exit := ReadExit.pixelsRead 3
             ppm := { tag := 3, width := 1, height := 1, maxColor := 255, pixels_count := 1
                      size := 3, pixels := [1, 2, 3], outputPixels := [] } } ∧
    ∃ (pre buf rest : List Nat) (before : List (List Nat)) (token : List Nat)
      (more : List (List Nat)) (rp0 : READING_PARAMS) (p0 p : PPM),
      bytes "P3 1 1 255 7 8 9\n1 2 3\n" = pre ++ (buf ++ rest) ∧
      fgets MAX_LINE (buf ++ rest) = some (buf, rest) ∧
      (cstr buf).head? ≠ some 35 ∧
      strtok (cstr buf) = before ++ token :: more ∧
      tokenLoop rest rp0 p0 before = Sum.inl (READING_PARAMS.MAX_COLOR, p) ∧
      toU32 (atoi token) ≠ 0 ∧
      ({ exit := ReadExit.pixelsRead 3
         ppm := { tag := 3, width := 1, height := 1, maxColor := 255, pixels_count := 1
                  size := 3, pixels := [1, 2, 3], outputPixels := [] } } : ReadResult) =
        readBody { p with maxColor := toU32 (atoi token) } rest :=
  ⟨by decide,
   readPPM_pixels_start_after_line (bytes "P3 1 1 255 7 8 9\n1 2 3\n") zeroPPM
     { exit := ReadExit.pixelsRead 3
       ppm := { tag := 3, width := 1, height := 1, maxColor := 255, pixels_count := 1
                size := 3, pixels := [1, 2, 3], outputPixels := [] } } 3 (by decide) rfl⟩

/-! ## Numerals beyond the range of `long` -/

/-- The conversions saturate as `strtol` does: the token `18446744073709551616` (`2^64`)
gives `LONG_MAX`, whose low 32 bits are 4294967295, so as a maxColor token it is accepted
and the pixels are read; the PlainText value `18446744073709551623` exceeds a maxColor of
255 and stops `readPixels` at once. -/
theorem numerals_saturate :
    atoi (bytes "18446744073709551616") = 9223372036854775807 ∧
    toU32 (atoi (bytes "18446744073709551616")) = 4294967295 ∧
    (readPPM (some (bytes "P6\n1 1\n18446744073709551616\n" ++ [1, 2, 3])) zeroPPM).map
        (fun r => (r.exit, r.value, r.ppm.maxColor, r.ppm.pixels)) =
      some (ReadExit.pixelsRead 3, true, 4294967295, [1, 2, 3]) ∧
    fscanf_d (bytes "18446744073709551623 300 9") =
      ScanResult.value 9223372036854775807 (bytes " 300 9") ∧
    (readPixels (plainPixel 255) (bytes "18446744073709551623 300 9")).1 = 0 := by
  decide

end Mosaic
